import Mathlib

/-!
Shallow embedding of the flow-solver core of the `graph-algorithms`
repository (`maximum_flow.py`, `minimum_flow.py`, `feasible_flow.py`,
`minimum_cost_flow.py`, the Bellman-Ford part of `shortest_path.py`, and
`util.py`), together with theorems settling the frozen claims about it.

Modelling conventions, fixed once and used throughout:

* Nodes are strings, edges ordered pairs of strings, exactly as in the
  Python source.
* Numeric values (capacities, bounds, flows, distances, costs) live in
  `EV`, which models Python's exact integers together with the IEEE
  special values `float("inf")`, `float("-inf")` and `nan` that Python's
  mixed int/float arithmetic can produce (`inf - inf = nan`, every
  comparison against `nan` is `False`, ...).
* Python dictionaries become association lists with unique keys kept in
  insertion order; writing to an existing key updates the value in place,
  writing a fresh key appends, exactly like a Python `dict`.
* A lookup of a missing key (Python's `KeyError`) is modelled by
  `Option`/`Res.keyError` at the places the claims exercise; inside the
  path-search strategies every lookup is guaranteed by the callers
  (the residual-graph builder returns a capacity entry for every edge it
  lists), and there a missing key is treated as an absent edge.
* Unbounded `while` loops take explicit fuel; `Res.outOfFuel` marks fuel
  exhaustion and is distinguished from `Res.keyError`.
-/

set_option linter.unnecessarySeqFocus false
set_option linter.unreachableTactic false
set_option linter.unusedTactic false

namespace GraphAlg

/-- Nodes are opaque string identifiers, as in the Python source. -/
abbrev Node := String

/-- An edge is an ordered pair of nodes `(u, v)`. -/
abbrev Edge := Node × Node

/-- Numeric values of the Python program: exact integers plus the float
special values `inf`, `-inf` and `nan` that arithmetic with
`float("inf")` produces. -/
inductive EV where
  | fin (n : Int)
  | inf
  | ninf
  | nan
deriving DecidableEq, Repr

namespace EV

/-- Python addition on these values (`inf + (-inf) = nan`, `nan` absorbs). -/
def add : EV → EV → EV
  | fin a, fin b => fin (a + b)
  | fin _, inf => inf
  | fin _, ninf => ninf
  | fin _, nan => nan
  | inf, fin _ => inf
  | inf, inf => inf
  | inf, ninf => nan
  | inf, nan => nan
  | ninf, fin _ => ninf
  | ninf, ninf => ninf
  | ninf, inf => nan
  | ninf, nan => nan
  | nan, _ => nan

/-- Python negation. -/
def neg : EV → EV
  | fin a => fin (-a)
  | inf => ninf
  | ninf => inf
  | nan => nan

/-- Python subtraction (`inf - inf = nan`). -/
def sub (a b : EV) : EV := a.add b.neg

/-- Python strict comparison `a < b`: every comparison involving `nan` is
`False`. -/
def blt : EV → EV → Bool
  | fin a, fin b => decide (a < b)
  | fin _, inf => true
  | fin _, ninf => false
  | fin _, nan => false
  | inf, _ => false
  | ninf, fin _ => true
  | ninf, inf => true
  | ninf, ninf => false
  | ninf, nan => false
  | nan, _ => false

/-- Python equality `a == b`: `nan == nan` is `False`. -/
def peq : EV → EV → Bool
  | fin a, fin b => decide (a = b)
  | inf, inf => true
  | ninf, ninf => true
  | _, _ => false

/-- Python multiplication (`inf * 0 = nan`), used for flow costs. -/
def mul : EV → EV → EV
  | fin a, fin b => fin (a * b)
  | fin a, inf => if 0 < a then inf else if a < 0 then ninf else nan
  | fin a, ninf => if 0 < a then ninf else if a < 0 then inf else nan
  | fin _, nan => nan
  | inf, fin b => if 0 < b then inf else if b < 0 then ninf else nan
  | inf, inf => inf
  | inf, ninf => ninf
  | inf, nan => nan
  | ninf, fin b => if 0 < b then ninf else if b < 0 then inf else nan
  | ninf, inf => ninf
  | ninf, ninf => inf
  | ninf, nan => nan
  | nan, _ => nan

/-- Python `min` of two values, defined through strict `<` the way
`min(...)` iterates (so a leading value is kept unless a later one is
strictly smaller; `nan` never wins except in first position). -/
def pmin (a b : EV) : EV := if blt b a then b else a

/-- Python truthiness of a number (`0` and `0.0` are falsy; `nan`, `inf`
and every nonzero value are truthy). Used for `while (parent):`-style
tests only on values where it matters. -/
def truthy : EV → Bool
  | fin a => decide (a ≠ 0)
  | _ => true

end EV

/-! ## Python dictionaries as association lists

Unique keys in insertion order; assignment to an existing key updates the
stored value in place, assignment to a fresh key appends at the end. -/

/-- Lookup of a key in an association list (first matching entry). -/
def alookup {κ α : Type} [DecidableEq κ] : List (κ × α) → κ → Option α
  | [], _ => none
  | (k, v) :: rest, key => if k = key then some v else alookup rest key

/-- Replacement of the value stored under `key` (position preserved). -/
def aupdate {κ α : Type} [DecidableEq κ] (key : κ) (v : α) :
    List (κ × α) → List (κ × α)
  | [] => []
  | (k, w) :: rest =>
    if k = key then (key, v) :: aupdate key v rest
    else (k, w) :: aupdate key v rest

/-- Python dict assignment `d[key] = v`: update in place when the key is
present, append otherwise. -/
def ainsert {κ α : Type} [DecidableEq κ] (d : List (κ × α)) (key : κ) (v : α) :
    List (κ × α) :=
  if (alookup d key).isSome then aupdate key v d
  else d ++ [(key, v)]

/-- The key list of a dictionary, in insertion order (`list(d.keys())`). -/
def akeys {κ α : Type} (d : List (κ × α)) : List κ := d.map Prod.fst

/-- Edge-keyed dictionary of numeric values (capacities, flows, costs). -/
abbrev Dict := List (Edge × EV)

/-- Node-keyed dictionary of Python ints (supply maps). -/
abbrev SDict := List (Node × Int)

/-! ## `util.py` -/

/-- Faithful to `util.get_path_edges`: consecutive pairs of a node list. -/
def get_path_edges : List Node → List Edge
  | [] => []
  | [_] => []
  | a :: b :: rest => (a, b) :: get_path_edges (b :: rest)

/-- Faithful to `util.calculate_path_capacity`: the minimum capacity along
the path's edges, starting from `float("inf")` and lowered by strict
comparison. The Python code indexes `capacities[edge]` directly; every
caller in the repository passes edges that are keys of the dictionary, so
a missing key is skipped here. -/
def calculate_path_capacity (capacities : Dict) (path_edges : List Edge) : EV :=
  path_edges.foldl
    (fun pc e =>
      match alookup capacities e with
      | some c => if EV.blt c pc then c else pc
      | none => pc)
    EV.inf

/-- Faithful to `util.calculate_flow_value`: total net outgoing flow of a
node, additions over outgoing entries first, then subtractions over
incoming entries, in dictionary order. -/
def calculate_flow_value (flow : Dict) (node : Node) : EV :=
  let fv := (flow.filter (fun p => p.1.1 = node)).foldl
    (fun acc p => acc.add p.2) (EV.fin 0)
  (flow.filter (fun p => p.1.2 = node)).foldl (fun acc p => acc.sub p.2) fv

/-! ## `maximum_flow.py` -/

/-- Result of a fuelled, possibly failing computation. `keyError` models a
Python `KeyError` (or other exception), `outOfFuel` marks that the given
fuel did not cover the number of loop iterations the Python `while` loop
would have run. -/
inductive Res (α : Type) where
  | ok (a : α)
  | keyError
  | outOfFuel
deriving DecidableEq, Repr

/-- Map over the successful result of a computation. -/
def Res.map {α β : Type} (f : α → β) : Res α → Res β
  | .ok a => .ok (f a)
  | .keyError => .keyError
  | .outOfFuel => .outOfFuel

/-- Loop of `construct_residual_graph`: for every edge `(u, v)` set the
forward residual entry to `capacities[(u,v)] - flow[(u,v)]` and the
backward entry `(v, u)` to `flow[(u,v)]`. A missing capacity or flow
entry is Python's `KeyError`. -/
def crgLoop (capacities flow : Dict) : List Edge → Dict → Option Dict
  | [], rc => some rc
  | (u, v) :: rest, rc =>
    match alookup capacities (u, v), alookup flow (u, v) with
    | some c, some f =>
        crgLoop capacities flow rest
          (ainsert (ainsert rc (u, v) (c.sub f)) (v, u) f)
    | _, _ => none

/-- Faithful to `maximum_flow.construct_residual_graph`: returns the key
list of the residual-capacity dictionary together with the dictionary. -/
def construct_residual_graph (edges : List Edge) (capacities flow : Dict) :
    Option (List Edge × Dict) :=
  match crgLoop capacities flow edges [] with
  | some rc => some (akeys rc, rc)
  | none => none

/-- Positivity test `residual_capacities[(u, v)] > 0` used by every
search strategy; a key absent from the dictionary never passes (callers
guarantee the key is present). -/
def posCap (rc : Dict) (e : Edge) : Bool :=
  match alookup rc e with
  | some c => EV.blt (EV.fin 0) c
  | none => false

/-- One BFS expansion: the new nodes reachable from `cur`, in edge-list
order, through strictly positive residual edges whose target is not
closed (the Python list comprehension in `find_augmenting_path_bfs`). -/
def bfsCands (edges : List Edge) (rc : Dict) (closed : List Node)
    (cur : Node) : List Node :=
  (edges.filter (fun e => decide (e.1 = cur) && posCap rc e &&
    !(decide (e.2 ∈ closed)))).map Prod.snd

/-- Worklist loop of `find_augmenting_path_bfs`. The queue holds the
active paths, `closed` the discovered nodes; a popped path ending at the
sink is returned, otherwise its extensions are appended and their end
nodes closed. `none` is fuel exhaustion, `some none` is the Python
function falling off the loop and returning `None`. -/
def bfsLoop (edges : List Edge) (rc : Dict) (sink : Node) :
    Nat → List Node → List (List Node) → Option (Option (List Node))
  | 0, _, _ => none
  | _ + 1, _, [] => some none
  | fuel + 1, closed, p :: rest =>
    let cur := p.getLastD ("")
    if cur = sink then some (some p)
    else
      let cands := bfsCands edges rc closed cur
      bfsLoop edges rc sink fuel (closed ++ cands)
        (rest ++ cands.map (fun v => p ++ [v]))

/-- Faithful to `maximum_flow.find_augmenting_path_bfs`, with fuel. -/
def find_augmenting_path_bfs (fuel : Nat) (edges : List Edge) (rc : Dict)
    (source sink : Node) : Option (Option (List Node)) :=
  bfsLoop edges rc sink fuel [source] [[source]]

/-- One DFS expansion: viable successors of `cur` that are neither on the
current path nor known dead ends (the Python list comprehension in
`find_augmenting_path_dfs`). -/
def dfsCands (edges : List Edge) (rc : Dict) (opn closed : List Node)
    (cur : Node) : List Node :=
  (edges.filter (fun e => decide (e.1 = cur) && posCap rc e &&
    !(decide (e.2 ∈ opn)) && !(decide (e.2 ∈ closed)))).map Prod.snd

/-- Loop of `find_augmenting_path_dfs`: `opn` is the current path (a
stack), `closed` the dead ends. -/
def dfsLoop (edges : List Edge) (rc : Dict) (sink : Node) :
    Nat → List Node → List Node → Option (Option (List Node))
  | 0, _, _ => none
  | _ + 1, _, [] => some none
  | fuel + 1, closed, opn@(_ :: _) =>
    let cur := opn.getLastD ("")
    if cur = sink then some (some opn)
    else
      match dfsCands edges rc opn closed cur with
      | [] => dfsLoop edges rc sink fuel (closed ++ [cur]) opn.dropLast
      | v :: _ => dfsLoop edges rc sink fuel closed (opn ++ [v])

/-- Faithful to `maximum_flow.find_augmenting_path_dfs`, with fuel. -/
def find_augmenting_path_dfs (fuel : Nat) (edges : List Edge) (rc : Dict)
    (source sink : Node) : Option (Option (List Node)) :=
  dfsLoop edges rc sink fuel [] [source]

/-- Expansion step shared by the exhaustive strategies: successors of
`cur` through positive residual edges that avoid the current path (the
list comprehension of `find_augmenting_path_max` / `_min`). -/
def enumCands (edges : List Edge) (rc : Dict) (p : List Node)
    (cur : Node) : List Node :=
  (edges.filter (fun e => decide (e.1 = cur) && posCap rc e &&
    !(decide (e.2 ∈ p)))).map Prod.snd

/-- Enumeration loop shared by `find_augmenting_path_max` and
`find_augmenting_path_min`: collects every simple positive path from the
source to the sink, in discovery (queue) order. -/
def enumLoop (edges : List Edge) (rc : Dict) (sink : Node) :
    Nat → List (List Node) → List (List Node) → Option (List (List Node))
  | 0, _, _ => none
  | _ + 1, allPaths, [] => some allPaths
  | fuel + 1, allPaths, p :: rest =>
    let cur := p.getLastD ("")
    if cur = sink then enumLoop edges rc sink fuel (allPaths ++ [p]) rest
    else
      enumLoop edges rc sink fuel allPaths
        (rest ++ (enumCands edges rc p cur).map (fun v => p ++ [v]))

/-- Selection loop of `find_augmenting_path_max`: the first enumerated
path of maximal capacity, starting from capacity `0` and path `None`. -/
def selectMaxPath (rc : Dict) (paths : List (List Node)) :
    Option (List Node) :=
  (paths.foldl
    (fun acc p =>
      let pc := calculate_path_capacity rc (get_path_edges p)
      if EV.blt acc.1 pc then (pc, some p) else acc)
    ((EV.fin 0 : EV), (none : Option (List Node)))).2

/-- Selection loop of `find_augmenting_path_min`: the first enumerated
path of minimal capacity, starting from capacity `float("inf")` and path
`None`. -/
def selectMinPath (rc : Dict) (paths : List (List Node)) :
    Option (List Node) :=
  (paths.foldl
    (fun acc p =>
      let pc := calculate_path_capacity rc (get_path_edges p)
      if EV.blt pc acc.1 then (pc, some p) else acc)
    ((EV.inf : EV), (none : Option (List Node)))).2

/-- Faithful to `maximum_flow.find_augmenting_path_max`, with fuel. -/
def find_augmenting_path_max (fuel : Nat) (edges : List Edge) (rc : Dict)
    (source sink : Node) : Option (Option (List Node)) :=
  match enumLoop edges rc sink fuel [] [[source]] with
  | none => none
  | some allPaths => some (selectMaxPath rc allPaths)

/-- Faithful to `maximum_flow.find_augmenting_path_min`, with fuel. -/
def find_augmenting_path_min (fuel : Nat) (edges : List Edge) (rc : Dict)
    (source sink : Node) : Option (Option (List Node)) :=
  match enumLoop edges rc sink fuel [] [[source]] with
  | none => none
  | some allPaths => some (selectMinPath rc allPaths)

/-- Type of a pluggable search strategy as the engine sees it: edges and
capacities of a residual graph, source and sink; `none` is fuel
exhaustion of the strategy's own loop, `some none` is "no augmenting
path". -/
abbrev SearchFn :=
  List Edge → Dict → Node → Node → Option (Option (List Node))

/-- First half of the per-edge augmentation body
(`if (u, v) in augmenting_path_edges: flow[(u, v)] += capacity`). -/
def augmentStep1 (pe : List Edge) (cap : EV) (uv : Edge) (flow : Dict) :
    Option Dict :=
  if uv ∈ pe then
    match alookup flow uv with
    | some x => some (ainsert flow uv (x.add cap))
    | none => none
  else some flow

/-- Second half of the per-edge augmentation body
(`if (v, u) in augmenting_path_edges: flow[(u, v)] -= capacity`). -/
def augmentStep2 (pe : List Edge) (cap : EV) (uv : Edge) (flow1 : Dict) :
    Option Dict :=
  if (uv.2, uv.1) ∈ pe then
    match alookup flow1 uv with
    | some x => some (ainsert flow1 uv (x.sub cap))
    | none => none
  else some flow1

/-- Flow-augmentation loop of `ford_fulkerson` (lines 276-280 of
`maximum_flow.py`): for every edge `(u, v)` of the graph, add the path
capacity if `(u, v)` lies on the augmenting path and subtract it if
`(v, u)` does. A missing flow entry is a `KeyError`. -/
def augmentLoop (pe : List Edge) (cap : EV) : List Edge → Dict → Option Dict
  | [], flow => some flow
  | uv :: rest, flow =>
    match augmentStep1 pe cap uv flow with
    | none => none
    | some flow1 =>
      match augmentStep2 pe cap uv flow1 with
      | none => none
      | some flow2 => augmentLoop pe cap rest flow2

/-- The all-zero starting flow built by `ford_fulkerson` when no flow is
given. -/
def zeroFlow (edges : List Edge) : Dict :=
  edges.foldl (fun d e => ainsert d e (EV.fin 0)) []

/-- Main loop of `ford_fulkerson`: build the residual graph, search for
an augmenting path, and either return the current flow with its value or
augment and repeat. -/
def ffLoop (search : SearchFn) (edges : List Edge) (capacities : Dict)
    (source sink : Node) : Nat → Dict → Res (Dict × EV)
  | 0, _ => .outOfFuel
  | fuel + 1, flow =>
    match construct_residual_graph edges capacities flow with
    | none => .keyError
    | some (residual_edges, residual_capacities) =>
      match search residual_edges residual_capacities source sink with
      | none => .outOfFuel
      | some none => .ok (flow, calculate_flow_value flow source)
      | some (some pathNodes) =>
        let pe := get_path_edges pathNodes
        let pcap := calculate_path_capacity residual_capacities pe
        match augmentLoop pe pcap edges flow with
        | none => .keyError
        | some flow' => ffLoop search edges capacities source sink fuel flow'

/-- Faithful to `maximum_flow.ford_fulkerson`. `flow0 = none` models the
default argument; `if not flow:` re-initialises an absent or empty
dictionary to the all-zero flow over the edge list. -/
def ford_fulkerson (search : SearchFn) (edges : List Edge)
    (capacities : Dict) (source sink : Node) (fuel : Nat)
    (flow0 : Option Dict) : Res (Dict × EV) :=
  let flow :=
    match flow0 with
    | none => zeroFlow edges
    | some f => if f = [] then zeroFlow edges else f
  ffLoop search edges capacities source sink fuel flow

/-! ## `minimum_flow.py` -/

/-- The synthetic super-source node name used by `feasible_flow.py` and
`minimum_flow.py`. -/
def s_prime : Node := "s_prime"

/-- The synthetic super-sink node name. -/
def t_prime : Node := "t_prime"

/-- Loop of `construct_residual_graph_min_flow`: forward residual
`upper[(u,v)] - flow[(u,v)]`, backward residual
`flow[(u,v)] - lower[(u,v)]`. -/
def crgMinLoop (lower upper flow : Dict) : List Edge → Dict → Option Dict
  | [], rc => some rc
  | (u, v) :: rest, rc =>
    match alookup upper (u, v), alookup lower (u, v), alookup flow (u, v) with
    | some ub, some lb, some f =>
        crgMinLoop lower upper flow rest
          (ainsert (ainsert rc (u, v) (ub.sub f)) (v, u) (f.sub lb))
    | _, _, _ => none

/-- Faithful to `minimum_flow.construct_residual_graph_min_flow`. -/
def construct_residual_graph_min_flow (edges : List Edge)
    (lower upper flow : Dict) : Option (List Edge × Dict) :=
  match crgMinLoop lower upper flow edges [] with
  | some rc => some (akeys rc, rc)
  | none => none

/-- Main loop of `ford_fulkerson_min_flow`; identical to `ffLoop` except
for the residual-graph builder, exactly as in the source. -/
def ffMinLoop (search : SearchFn) (edges : List Edge) (lower upper : Dict)
    (source sink : Node) : Nat → Dict → Res (Dict × EV)
  | 0, _ => .outOfFuel
  | fuel + 1, flow =>
    match construct_residual_graph_min_flow edges lower upper flow with
    | none => .keyError
    | some (residual_edges, residual_capacities) =>
      match search residual_edges residual_capacities source sink with
      | none => .outOfFuel
      | some none => .ok (flow, calculate_flow_value flow source)
      | some (some pathNodes) =>
        let pe := get_path_edges pathNodes
        let pcap := calculate_path_capacity residual_capacities pe
        match augmentLoop pe pcap edges flow with
        | none => .keyError
        | some flow' =>
            ffMinLoop search edges lower upper source sink fuel flow'

/-- Faithful to `minimum_flow.ford_fulkerson_min_flow`. -/
def ford_fulkerson_min_flow (search : SearchFn) (edges : List Edge)
    (lower upper : Dict) (source sink : Node) (fuel : Nat)
    (flow0 : Option Dict) : Res (Dict × EV) :=
  let flow :=
    match flow0 with
    | none => zeroFlow edges
    | some f => if f = [] then zeroFlow edges else f
  ffMinLoop search edges lower upper source sink fuel flow

/-- Python `sum([d[e] for e in es])` over an edge list, starting from the
integer `0`; a missing entry is a `KeyError`. -/
def sumVals (d : Dict) (es : List Edge) : Option EV :=
  es.foldl
    (fun acc e =>
      match acc, alookup d e with
      | some s, some x => some (s.add x)
      | _, _ => none)
    (some (EV.fin 0))

/-- Capacity construction of `minimum_flow` over the node list: for each
node, `capacities[("s_prime", node)]` is the sum of the lower bounds of
its incoming edges and `capacities[(node, "t_prime")]` the sum over its
outgoing edges. -/
def minFlowCapsNodes (lower : Dict) (edges : List Edge) :
    List Node → Dict → Option Dict
  | [], caps => some caps
  | n :: rest, caps =>
    match sumVals lower (edges.filter (fun e => decide (e.2 = n))),
        sumVals lower (edges.filter (fun e => decide (e.1 = n))) with
    | some sIn, some sOut =>
        minFlowCapsNodes lower edges rest
          (ainsert (ainsert caps (s_prime, n) sIn) (n, t_prime) sOut)
    | _, _ => none

/-- Capacity construction of `minimum_flow` over the edge list:
`capacities[edge] = upper_bounds[edge] - lower_bounds[edge]`. -/
def minFlowCapsEdges (lower upper : Dict) : List Edge → Dict → Option Dict
  | [], caps => some caps
  | e :: rest, caps =>
    match alookup upper e, alookup lower e with
    | some ub, some lb =>
        minFlowCapsEdges lower upper rest (ainsert caps e (ub.sub lb))
    | _, _ => none

/-- The augmented edge list of `minimum_flow`'s feasible-flow
construction: the original edges, then for each node the pair of edges
from `s_prime` and to `t_prime`, then the back edge `(sink, source)`. -/
def minFlowEdgesPrime (nodes : List Node) (edges : List Edge)
    (source sink : Node) : List Edge :=
  (edges ++ nodes.flatMap (fun n => [(s_prime, n), (n, t_prime)])) ++
    [(sink, source)]

/-- Recovery of the feasible flow: `flow_prime[edge] + lower_bounds[edge]`
for every original edge. -/
def buildFeasible (flowP lower : Dict) : List Edge → Dict → Option Dict
  | [], acc => some acc
  | e :: rest, acc =>
    match alookup flowP e, alookup lower e with
    | some fp, some lb => buildFeasible flowP lower rest (ainsert acc e (fp.add lb))
    | _, _ => none

/-- Faithful to `minimum_flow.minimum_flow`: construct a feasible flow if
none (or an empty one) was supplied, push flow back from the sink to the
source with `ford_fulkerson_min_flow`, and return the resulting flow with
the negation of the value reported by the reverse push. -/
def minimum_flow (nodes : List Node) (edges : List Edge)
    (lower upper : Dict) (source sink : Node) (search : SearchFn)
    (fuel : Nat) (feasible0 : Option Dict) : Res (Dict × EV) :=
  let needCons :=
    match feasible0 with
    | none => true
    | some d => d = []
  let feasRes : Res Dict :=
    if needCons then
      match minFlowCapsNodes lower edges nodes [] with
      | none => .keyError
      | some caps0 =>
        match minFlowCapsEdges lower upper edges caps0 with
        | none => .keyError
        | some caps1 =>
          let capacities := ainsert caps1 (sink, source) EV.inf
          match ford_fulkerson search (minFlowEdgesPrime nodes edges source sink)
              capacities s_prime t_prime fuel none with
          | .keyError => .keyError
          | .outOfFuel => .outOfFuel
          | .ok (flowP, _) =>
            match buildFeasible flowP lower edges [] with
            | none => .keyError
            | some feas => .ok feas
    else .ok (feasible0.getD [])
  match feasRes with
  | .keyError => .keyError
  | .outOfFuel => .outOfFuel
  | .ok feas =>
    match ford_fulkerson_min_flow search edges lower upper sink source fuel
        (some feas) with
    | .keyError => .keyError
    | .outOfFuel => .outOfFuel
    | .ok (min_flow, min_flow_value) => .ok (min_flow, min_flow_value.neg)

/-! ## `feasible_flow.py` -/

/-- Construction loop of `feasible_flow`: a super-source edge for every
node of positive supply (capacity the supply) and a super-sink edge for
every node of negative supply (capacity the demand magnitude). -/
def buildSupplyLoop (supply : SDict) :
    List Node → List Edge × Dict → Option (List Edge × Dict)
  | [], acc => some acc
  | n :: rest, (es, caps) =>
    match alookup supply n with
    | none => none
    | some s =>
      if 0 < s then
        buildSupplyLoop supply rest
          (es ++ [(s_prime, n)], ainsert caps (s_prime, n) (EV.fin s))
      else if s < 0 then
        buildSupplyLoop supply rest
          (es ++ [(n, t_prime)], ainsert caps (n, t_prime) (EV.fin (-s)))
      else buildSupplyLoop supply rest (es, caps)

/-- Restriction of the augmented flow to the original edges
(`flow = {}; for edge in edges: flow[edge] = flow_prime[edge]`). -/
def restrictFlow (flowP : Dict) : List Edge → Dict → Option Dict
  | [], acc => some acc
  | e :: rest, acc =>
    match alookup flowP e with
    | some x => restrictFlow flowP rest (ainsert acc e x)
    | none => none

/-- Net outgoing flow of a node over the original edge list, as computed
by the feasibility checks: sum over outgoing edges minus sum over
incoming edges, each in edge-list order. -/
def netOutgoing (flow : Dict) (edges : List Edge) (node : Node) : Option EV :=
  match sumVals flow (edges.filter (fun e => decide (e.1 = node))),
      sumVals flow (edges.filter (fun e => decide (e.2 = node))) with
  | some a, some b => some (a.sub b)
  | _, _ => none

/-- Conservation check of `feasible_flow`: `False` at the first node
whose net outgoing flow differs from its declared supply. -/
def conservLoop (flow : Dict) (edges : List Edge) (supply : SDict) :
    List Node → Option Bool
  | [] => some true
  | n :: rest =>
    match netOutgoing flow edges n, alookup supply n with
    | some net, some s =>
        if EV.peq net (EV.fin s) then conservLoop flow edges supply rest
        else some false
    | _, _ => none

/-- Faithful to `feasible_flow.feasible_flow`. -/
def feasible_flow (nodes : List Node) (edges : List Edge)
    (capacities : Dict) (supply : SDict) (search : SearchFn) (fuel : Nat)
    (flow0 : Option Dict) : Res (Bool × Dict × EV) :=
  match buildSupplyLoop supply nodes (edges, capacities) with
  | none => .keyError
  | some (edges_prime, capacities_prime) =>
    match ford_fulkerson search edges_prime capacities_prime s_prime t_prime
        fuel flow0 with
    | .keyError => .keyError
    | .outOfFuel => .outOfFuel
    | .ok (flow_prime, flow_value) =>
      match restrictFlow flow_prime edges [] with
      | none => .keyError
      | some flow =>
        match conservLoop flow edges supply nodes with
        | none => .keyError
        | some b => .ok (b, flow, flow_value)

/-! ## `shortest_path.py` (Bellman-Ford, consumed by the min-cost solver) -/

/-- Parent map of a shortest-path tree (`None` marks a root / undiscovered
node). -/
abbrev PDict := List (Node × Option Node)

/-- Distance map of a shortest-path computation. -/
abbrev DDict := List (Node × EV)

/-- Faithful to `shortest_path.initialise`: distance `0` and parent
`None` for the source, distance `float("inf")` and parent `None` for
every other node. -/
def initialise (nodes : List Node) (s : Node) : PDict × DDict :=
  (nodes.filter (fun n => decide (n ≠ s))).foldl
    (fun acc n => (ainsert acc.1 n none, ainsert acc.2 n EV.inf))
    (ainsert ([] : PDict) s none, ainsert ([] : DDict) s (EV.fin 0))

/-- Faithful to `shortest_path.relax`: lower `distances[v]` through the
edge `(u, v)` when `distances[v] > distances[u] + weights[(u,v)]`. -/
def relax (weights : Dict) (pd : PDict × DDict) (e : Edge) :
    Option (PDict × DDict) :=
  match alookup pd.2 e.2, alookup pd.2 e.1, alookup weights e with
  | some dv, some du, some w =>
    if EV.blt (du.add w) dv then
      some (ainsert pd.1 e.2 (some e.1), ainsert pd.2 e.2 (du.add w))
    else some pd
  | _, _, _ => none

/-- One Bellman-Ford round: relax every edge once, in edge-list order. -/
def relaxAll (weights : Dict) : List Edge → PDict × DDict → Option (PDict × DDict)
  | [], pd => some pd
  | e :: rest, pd =>
    match relax weights pd e with
    | some pd' => relaxAll weights rest pd'
    | none => none

/-- The `len(nodes) - 1` relaxation rounds of `bellman_ford`. -/
def bfRounds (weights : Dict) (edges : List Edge) :
    Nat → PDict × DDict → Option (PDict × DDict)
  | 0, pd => some pd
  | n + 1, pd =>
    match relaxAll weights edges pd with
    | some pd' => bfRounds weights edges n pd'
    | none => none

/-- Final negative-cycle check of `bellman_ford`: `true` at the first
still-relaxable edge. -/
def bfCheck (weights : Dict) (ds : DDict) : List Edge → Option Bool
  | [] => some false
  | e :: rest =>
    match alookup ds e.2, alookup ds e.1, alookup weights e with
    | some dv, some du, some w =>
      if EV.blt (du.add w) dv then some true else bfCheck weights ds rest
    | _, _, _ => none

/-- Faithful to `shortest_path.bellman_ford`: the node list together with
either the (parents, distances) pair or `none` standing for the Python
`(nodes, None, None)` negative-cycle result. The outer `Option` is a
`KeyError`. -/
def bellman_ford (nodes : List Node) (edges : List Edge) (weights : Dict)
    (s : Node) : Option (List Node × Option (PDict × DDict)) :=
  match bfRounds weights edges (nodes.length - 1) (initialise nodes s) with
  | none => none
  | some pd =>
    match bfCheck weights pd.2 edges with
    | none => none
    | some bad => if bad then some (nodes, none) else some (nodes, some pd)

/-! ## `minimum_cost_flow.py` -/

/-- Edge part of `minimum_cost_flow.construct_residual_graph`: residual
capacities as in the max-flow builder, residual costs the original cost
forward and its negation backward. -/
def crgMcfEdges (capacities costs flow : Dict) :
    List Edge → Dict × Dict → Option (Dict × Dict)
  | [], acc => some acc
  | (u, v) :: rest, (rc, rcost) =>
    match alookup capacities (u, v), alookup flow (u, v),
        alookup costs (u, v) with
    | some c, some f, some w =>
        crgMcfEdges capacities costs flow rest
          (ainsert (ainsert rc (u, v) (c.sub f)) (v, u) f,
           ainsert (ainsert rcost (u, v) w) (v, u) w.neg)
    | _, _, _ => none

/-- Node part of `minimum_cost_flow.construct_residual_graph`: residual
supply `supply[node] + (flow in) - (flow out)`. -/
def mcfSupplyLoop (supply : SDict) (flow : Dict) (edges : List Edge) :
    List Node → List (Node × EV) → Option (List (Node × EV))
  | [], acc => some acc
  | n :: rest, acc =>
    match alookup supply n,
        sumVals flow (edges.filter (fun e => decide (e.2 = n))),
        sumVals flow (edges.filter (fun e => decide (e.1 = n))) with
    | some s, some fIn, some fOut =>
        mcfSupplyLoop supply flow edges rest
          (ainsert acc n (((EV.fin s).add fIn).sub fOut))
    | _, _, _ => none

/-- Faithful to `minimum_cost_flow.construct_residual_graph`: residual
edge list filtered to strictly positive residual capacity, residual
capacities, residual costs, and residual supply. -/
def construct_residual_graph_mcf (nodes : List Node) (edges : List Edge)
    (capacities costs : Dict) (supply : SDict) (flow : Dict) :
    Option (List Edge × Dict × Dict × List (Node × EV)) :=
  match crgMcfEdges capacities costs flow edges ([], []) with
  | none => none
  | some (rc, rcost) =>
    match mcfSupplyLoop supply flow edges nodes [] with
    | none => none
    | some rsup => some ((akeys rc).filter (posCap rc), rc, rcost, rsup)

/-- Python truthiness of an entry of the parent map: a parent exists and
is a nonempty string. -/
def parentTruthy (po : Option Node) : Bool :=
  match po with
  | some p => decide (p ≠ "")
  | none => false

/-- The `residual_demand_nodes` comprehension: nodes of negative residual
supply with a truthy parent. `residual_supply[node] < 0` is evaluated
first; only when it holds is `parents[node]` touched, so a `None` parent
map (the oracle's negative-cycle signal, Python `TypeError`) or a missing
key only fails when a node of negative residual supply is reached. -/
def mcfDemandNodes (rsup : List (Node × EV)) (parentsOpt : Option PDict) :
    List Node → Option (List Node)
  | [] => some []
  | n :: rest =>
    match alookup rsup n with
    | none => none
    | some r =>
      if EV.blt r (EV.fin 0) then
        match parentsOpt with
        | none => none
        | some parents =>
          match alookup parents n with
          | none => none
          | some po =>
            match mcfDemandNodes rsup parentsOpt rest with
            | none => none
            | some l => some (if parentTruthy po then n :: l else l)
      else mcfDemandNodes rsup parentsOpt rest

/-- Path reconstruction of the min-cost solver: walk the parent map from
the demand node while the parent is truthy, collecting `(parent, current)`
edges; the caller reverses the result. -/
def mcfPathLoop (parents : PDict) :
    Nat → Node → Option Node → List Edge → Option (List Edge)
  | 0, _, _, _ => none
  | fuel + 1, current, parent, acc =>
    if parentTruthy parent then
      match parent with
      | some p =>
        match alookup parents p with
        | none => none
        | some parent' => mcfPathLoop parents fuel p parent' (acc ++ [(p, current)])
      | none => none
    else some acc

/-- Python `list.remove`: drop the first occurrence. -/
def premove {α : Type} [DecidableEq α] : List α → α → List α
  | [], _ => []
  | x :: rest, a => if x = a then rest else x :: premove rest a

/-- Main successive-shortest-path loop of `minimum_cost_flow`: while
some node has positive residual supply, grow a Bellman-Ford tree from the
first one, send flow to the first reachable residual-demand node (or drop
the supply node when none is reachable), and rebuild the residual
graph. -/
def mcfLoop (nodes : List Node) (edges : List Edge)
    (capacities costs : Dict) (supply : SDict) :
    Nat → Dict → List Edge × Dict × Dict × List (Node × EV) → List Node →
      Res Dict
  | 0, _, _, _ => .outOfFuel
  | fuel + 1, flow, (redges, rc, rcost, rsup), active =>
    match active with
    | [] => .ok flow
    | supply_node :: _ =>
      match bellman_ford nodes redges rcost supply_node with
      | none => .keyError
      | some (_, pdOpt) =>
        let parentsOpt : Option PDict := pdOpt.map Prod.fst
        match mcfDemandNodes rsup parentsOpt nodes with
        | none => .keyError
        | some [] =>
            mcfLoop nodes edges capacities costs supply fuel flow
              (redges, rc, rcost, rsup) (premove active supply_node)
        | some (demand_node :: _) =>
          let parents := parentsOpt.getD []
          match alookup parents demand_node with
          | none => .keyError
          | some parent0 =>
            match mcfPathLoop parents (fuel + 1 + nodes.length) demand_node
                parent0 [] with
            | none => .outOfFuel
            | some peRev =>
              let pe := peRev.reverse
              match alookup rsup supply_node, alookup rsup demand_node with
              | some rs, some rd =>
                let cap := EV.pmin (EV.pmin rs rd.neg)
                  (calculate_path_capacity rc pe)
                match augmentLoop pe cap edges flow with
                | none => .keyError
                | some flow' =>
                  match construct_residual_graph_mcf nodes edges capacities
                      costs supply flow' with
                  | none => .keyError
                  | some r' =>
                    match alookup r'.2.2.2 supply_node with
                    | none => .keyError
                    | some rs' =>
                      mcfLoop nodes edges capacities costs supply fuel flow' r'
                        (if EV.peq rs' (EV.fin 0) then
                          premove active supply_node
                        else active)
              | _, _ => .keyError

/-- Feasibility check of `minimum_cost_flow` (no early exit in the
source: the flag is just overwritten). -/
def mcfFeasLoop (flow : Dict) (edges : List Edge) (supply : SDict) :
    List Node → Bool → Option Bool
  | [], acc => some acc
  | n :: rest, acc =>
    match netOutgoing flow edges n, alookup supply n with
    | some net, some s =>
        mcfFeasLoop flow edges supply rest
          (if EV.peq net (EV.fin s) then acc else false)
    | _, _ => none

/-- Flow value of `minimum_cost_flow`: sum of the net outflows of the
positive-supply nodes. -/
def mcfValueLoop (flow : Dict) (edges : List Edge) (supply : SDict) :
    List Node → EV → Option EV
  | [], acc => some acc
  | n :: rest, acc =>
    match alookup supply n with
    | none => none
    | some s =>
      if 0 < s then
        match netOutgoing flow edges n with
        | some net => mcfValueLoop flow edges supply rest (acc.add net)
        | none => none
      else mcfValueLoop flow edges supply rest acc

/-- Flow cost of `minimum_cost_flow`: `sum(flow[e] * costs[e])`. -/
def mcfCostLoop (flow costs : Dict) : List Edge → EV → Option EV
  | [], acc => some acc
  | e :: rest, acc =>
    match alookup flow e, alookup costs e with
    | some f, some c => mcfCostLoop flow costs rest (acc.add (f.mul c))
    | _, _ => none

/-- Faithful to `minimum_cost_flow.minimum_cost_flow`. The initial active
list is the comprehension `[node for node in nodes if residual_supply[node] > 0]`;
its lookups cannot fail because the residual supply was just built over
exactly these nodes. -/
def minimum_cost_flow (nodes : List Node) (edges : List Edge)
    (capacities costs : Dict) (supply : SDict) (fuel : Nat) :
    Res (Bool × Dict × EV × EV) :=
  let flow0 := zeroFlow edges
  match construct_residual_graph_mcf nodes edges capacities costs supply
      flow0 with
  | none => .keyError
  | some r0 =>
    let active0 := nodes.filter (fun n =>
      match alookup r0.2.2.2 n with
      | some x => EV.blt (EV.fin 0) x
      | none => false)
    match mcfLoop nodes edges capacities costs supply fuel flow0 r0 active0 with
    | .keyError => .keyError
    | .outOfFuel => .outOfFuel
    | .ok flowF =>
      match mcfFeasLoop flowF edges supply nodes true with
      | none => .keyError
      | some feasible =>
        match mcfValueLoop flowF edges supply nodes (EV.fin 0),
            mcfCostLoop flowF costs edges (EV.fin 0) with
        | some flow_value, some flow_cost =>
            .ok (feasible, flowF, flow_value, flow_cost)
        | _, _ => .keyError

/-! ## Dictionary lemmas -/

theorem alookup_eq_none_iff {κ α : Type} [DecidableEq κ]
    (d : List (κ × α)) (k : κ) : alookup d k = none ↔ k ∉ akeys d := by
  induction d with
  | nil => simp [alookup, akeys]
  | cons p rest ih =>
    obtain ⟨k₁, v₁⟩ := p
    by_cases h : k₁ = k
    · subst h; simp [alookup, akeys]
    · simp only [alookup, if_neg h, akeys, List.map_cons, List.mem_cons]
      simp only [akeys] at ih
      rw [ih]
      constructor
      · intro hk hor
        rcases hor with h1 | h2
        · exact h h1.symm
        · exact hk h2
      · intro hk h2
        exact hk (Or.inr h2)

theorem alookup_isSome_iff {κ α : Type} [DecidableEq κ]
    (d : List (κ × α)) (k : κ) : (alookup d k).isSome = true ↔ k ∈ akeys d := by
  rw [← Decidable.not_not (p := k ∈ akeys d), ← alookup_eq_none_iff]
  cases alookup d k <;> simp

theorem alookup_append {κ α : Type} [DecidableEq κ]
    (d₁ d₂ : List (κ × α)) (k : κ) :
    alookup (d₁ ++ d₂) k =
      match alookup d₁ k with
      | some v => some v
      | none => alookup d₂ k := by
  induction d₁ with
  | nil => simp [alookup]
  | cons p rest ih =>
    by_cases h : p.1 = k <;> simp [alookup, h, ih]

theorem alookup_aupdate {κ α : Type} [DecidableEq κ]
    (d : List (κ × α)) (k : κ) (v : α) (hk : (alookup d k).isSome) :
    alookup (aupdate k v d) k = some v := by
  induction d with
  | nil => simp [alookup] at hk
  | cons p rest ih =>
    obtain ⟨k₁, v₁⟩ := p
    by_cases h : k₁ = k
    · subst h; simp [alookup, aupdate]
    · simp only [alookup, if_neg h] at hk
      simp [alookup, aupdate, h, ih hk]

theorem alookup_aupdate_ne {κ α : Type} [DecidableEq κ]
    (d : List (κ × α)) (k k' : κ) (v : α) (h : k' ≠ k) :
    alookup (aupdate k v d) k' = alookup d k' := by
  induction d with
  | nil => simp [alookup, aupdate]
  | cons p rest ih =>
    obtain ⟨k₁, v₁⟩ := p
    by_cases hp : k₁ = k
    · subst hp
      have h1 : ¬(k₁ = k') := fun hh => h hh.symm
      simp [alookup, aupdate, h1, ih]
    · by_cases hp' : k₁ = k'
      · subst hp'
        simp [alookup, aupdate, hp, ih]
      · simp [alookup, aupdate, hp, hp', ih]

theorem alookup_ainsert_self {κ α : Type} [DecidableEq κ]
    (d : List (κ × α)) (k : κ) (v : α) :
    alookup (ainsert d k v) k = some v := by
  unfold ainsert
  by_cases h : (alookup d k).isSome
  · rw [if_pos h]
    exact alookup_aupdate d k v h
  · rw [if_neg h]
    rw [alookup_append]
    have : alookup d k = none := by
      cases hh : alookup d k
      · rfl
      · rw [hh] at h; simp at h
    rw [this]
    simp [alookup]

theorem alookup_ainsert_ne {κ α : Type} [DecidableEq κ]
    (d : List (κ × α)) (k k' : κ) (v : α) (h : k' ≠ k) :
    alookup (ainsert d k v) k' = alookup d k' := by
  unfold ainsert
  by_cases hs : (alookup d k).isSome
  · rw [if_pos hs]
    exact alookup_aupdate_ne d k k' v h
  · rw [if_neg hs]
    rw [alookup_append]
    cases hh : alookup d k'
    · have h1 : ¬(k = k') := fun hh2 => h hh2.symm
      simp [alookup, h1]
    · rfl

theorem akeys_cons {κ α : Type} (p : κ × α) (d : List (κ × α)) :
    akeys (p :: d) = p.1 :: akeys d := rfl

theorem akeys_aupdate {κ α : Type} [DecidableEq κ]
    (d : List (κ × α)) (k : κ) (v : α) :
    akeys (aupdate k v d) = akeys d := by
  induction d with
  | nil => rfl
  | cons p rest ih =>
    obtain ⟨k₁, v₁⟩ := p
    by_cases h : k₁ = k
    · simp only [aupdate, if_pos h]
      rw [akeys_cons, akeys_cons, ih, h]
    · simp only [aupdate, if_neg h]
      rw [akeys_cons, akeys_cons, ih]

theorem akeys_ainsert_of_isSome {κ α : Type} [DecidableEq κ]
    (d : List (κ × α)) (k : κ) (v : α) (h : (alookup d k).isSome) :
    akeys (ainsert d k v) = akeys d := by
  unfold ainsert
  rw [if_pos h]
  exact akeys_aupdate d k v

theorem akeys_ainsert_of_none {κ α : Type} [DecidableEq κ]
    (d : List (κ × α)) (k : κ) (v : α) (h : alookup d k = none) :
    akeys (ainsert d k v) = akeys d ++ [k] := by
  unfold ainsert
  rw [h]
  simp [akeys]

theorem akeys_ainsert_nodup {κ α : Type} [DecidableEq κ]
    (d : List (κ × α)) (k : κ) (v : α) (h : (akeys d).Nodup) :
    (akeys (ainsert d k v)).Nodup := by
  cases hh : alookup d k
  · rw [akeys_ainsert_of_none d k v hh]
    have hk : k ∉ akeys d := (alookup_eq_none_iff d k).mp hh
    simp [List.nodup_append, h, hk]
  · rw [akeys_ainsert_of_isSome d k v (by rw [hh]; rfl)]
    exact h

theorem mem_akeys_ainsert {κ α : Type} [DecidableEq κ]
    (d : List (κ × α)) (k k' : κ) (v : α) :
    k' ∈ akeys (ainsert d k v) ↔ k' ∈ akeys d ∨ k' = k := by
  cases hh : alookup d k
  · rw [akeys_ainsert_of_none d k v hh]; simp
  · rw [akeys_ainsert_of_isSome d k v (by rw [hh]; rfl)]
    constructor
    · exact fun h => Or.inl h
    · rintro (h | rfl)
      · exact h
      · exact (alookup_isSome_iff d k').mp (by rw [hh]; rfl)

theorem length_aupdate {κ α : Type} [DecidableEq κ]
    (d : List (κ × α)) (k : κ) (v : α) :
    (aupdate k v d).length = d.length := by
  induction d with
  | nil => rfl
  | cons p rest ih =>
    obtain ⟨k₁, v₁⟩ := p
    by_cases h : k₁ = k <;> simp [aupdate, h, ih]

theorem length_ainsert_of_isSome {κ α : Type} [DecidableEq κ]
    (d : List (κ × α)) (k : κ) (v : α) (h : (alookup d k).isSome) :
    (ainsert d k v).length = d.length := by
  unfold ainsert
  rw [if_pos h]
  exact length_aupdate d k v

/-! ## Arithmetic lemmas on `EV` -/

theorem EV.sub_fin_add_fin (c : EV) (f : Int) :
    (c.sub (EV.fin f)).add (EV.fin f) = c := by
  cases c <;> simp [EV.sub, EV.add, EV.neg]

theorem EV.sub_fin_add_sub_fin (a b : EV) (f : Int) :
    (a.sub (EV.fin f)).add ((EV.fin f).sub b) = a.sub b := by
  cases a <;> cases b <;> simp [EV.sub, EV.add, EV.neg] <;> omega

theorem EV.sub_fin_zero (c : EV) : c.sub (EV.fin 0) = c := by
  cases c <;> simp [EV.sub, EV.add, EV.neg]

/-! ## Residual-builder lemmas -/

theorem crgLoop_lookup_untouched (capacities flow : Dict) :
    ∀ (es : List Edge) (rc rc' : Dict) (k : Edge),
      crgLoop capacities flow es rc = some rc' →
      (∀ e ∈ es, k ≠ e ∧ k ≠ (e.2, e.1)) →
      alookup rc' k = alookup rc k := by
  intro es
  induction es with
  | nil =>
    intro rc rc' k h _
    simp only [crgLoop, Option.some.injEq] at h
    rw [h]
  | cons e rest ih =>
    intro rc rc' k h hk
    obtain ⟨a, b⟩ := e
    simp only [crgLoop] at h
    cases hc : alookup capacities (a, b) with
    | none => rw [hc] at h; cases h
    | some c =>
      cases hf : alookup flow (a, b) with
      | none => rw [hc, hf] at h; cases h
      | some f =>
        rw [hc, hf] at h
        have h1 := ih _ _ _ h (fun e he => hk e (List.mem_cons_of_mem _ he))
        have hne1 : k ≠ (a, b) := (hk (a, b) (List.mem_cons_self _ _)).1
        have hne2 : k ≠ (b, a) := (hk (a, b) (List.mem_cons_self _ _)).2
        rw [h1, alookup_ainsert_ne _ _ _ _ hne2, alookup_ainsert_ne _ _ _ _ hne1]

theorem crgLoop_lookup (capacities flow : Dict) :
    ∀ (es : List Edge),
      (∀ a b, (a, b) ∈ es → (b, a) ∉ es) →
      ∀ (rc0 rc' : Dict),
        crgLoop capacities flow es rc0 = some rc' →
        ∀ u v, (u, v) ∈ es →
          ∃ c f, alookup capacities (u, v) = some c ∧
            alookup flow (u, v) = some f ∧
            alookup rc' (u, v) = some (c.sub f) ∧
            alookup rc' (v, u) = some f := by
  intro es
  induction es with
  | nil =>
    intro _ rc0 rc' _ u v hmem
    cases hmem
  | cons e rest ih =>
    intro hAP rc0 rc' h u v hmem
    have hAP' : ∀ a' b', (a', b') ∈ rest → (b', a') ∉ rest :=
      fun a' b' hm hm' =>
        hAP a' b' (List.mem_cons_of_mem _ hm) (List.mem_cons_of_mem _ hm')
    have huv : u ≠ v := by
      intro he
      subst he
      exact hAP u u hmem hmem
    obtain ⟨a, b⟩ := e
    simp only [crgLoop] at h
    cases hc : alookup capacities (a, b) with
    | none => rw [hc] at h; cases h
    | some c =>
      cases hf : alookup flow (a, b) with
      | none => rw [hc, hf] at h; cases h
      | some f =>
        rw [hc, hf] at h
        by_cases hr : (u, v) ∈ rest
        · exact ih hAP' _ _ h u v hr
        · have heq : (u, v) = (a, b) := by
            rcases List.mem_cons.mp hmem with h1 | h1
            · exact h1
            · exact absurd h1 hr
          injection heq with hu hv
          subst hu
          subst hv
          refine ⟨c, f, hc, hf, ?_, ?_⟩
          · have hun : ∀ e ∈ rest, (u, v) ≠ e ∧ (u, v) ≠ (e.2, e.1) := by
              intro e he
              refine ⟨fun hh => hr (hh ▸ he), fun hh => ?_⟩
              have : e = (v, u) := by
                obtain ⟨e1, e2⟩ := e
                injection hh with h1 h2
                subst h1; subst h2; rfl
              rw [this] at he
              exact hAP u v hmem (List.mem_cons_of_mem _ he)
            rw [crgLoop_lookup_untouched capacities flow rest _ _ _ h hun]
            rw [alookup_ainsert_ne _ _ _ _ (fun hh => huv (congrArg Prod.fst hh))]
            exact alookup_ainsert_self _ _ _
          · have hun : ∀ e ∈ rest, (v, u) ≠ e ∧ (v, u) ≠ (e.2, e.1) := by
              intro e he
              constructor
              · intro hh
                rw [← hh] at he
                exact hAP u v hmem (List.mem_cons_of_mem _ he)
              · intro hh
                have : e = (u, v) := by
                  obtain ⟨e1, e2⟩ := e
                  injection hh with h1 h2
                  subst h1; subst h2; rfl
                rw [this] at he
                exact hr he
            rw [crgLoop_lookup_untouched capacities flow rest _ _ _ h hun]
            exact alookup_ainsert_self _ _ _

theorem crgLoop_ok (capacities flow : Dict) :
    ∀ (es : List Edge) (rc0 : Dict),
      (∀ e ∈ es, (alookup capacities e).isSome) →
      (∀ e ∈ es, (alookup flow e).isSome) →
      ∃ rc', crgLoop capacities flow es rc0 = some rc' := by
  intro es
  induction es with
  | nil => intro rc0 _ _; exact ⟨rc0, rfl⟩
  | cons e rest ih =>
    intro rc0 hcap hflow
    obtain ⟨a, b⟩ := e
    have h1 := hcap (a, b) (List.mem_cons_self _ _)
    have h2 := hflow (a, b) (List.mem_cons_self _ _)
    cases hc : alookup capacities (a, b) with
    | none => rw [hc] at h1; cases h1
    | some c =>
      cases hf : alookup flow (a, b) with
      | none => rw [hf] at h2; cases h2
      | some f =>
        obtain ⟨rc', hrc⟩ := ih
          (ainsert (ainsert rc0 (a, b) (c.sub f)) (b, a) f)
          (fun e he => hcap e (List.mem_cons_of_mem _ he))
          (fun e he => hflow e (List.mem_cons_of_mem _ he))
        refine ⟨rc', ?_⟩
        simp only [crgLoop, hc, hf]
        exact hrc

theorem crgLoop_keys_nodup (capacities flow : Dict) :
    ∀ (es : List Edge) (rc0 rc' : Dict),
      crgLoop capacities flow es rc0 = some rc' →
      (akeys rc0).Nodup → (akeys rc').Nodup := by
  intro es
  induction es with
  | nil =>
    intro rc0 rc' h h0
    simp only [crgLoop, Option.some.injEq] at h
    rw [← h]; exact h0
  | cons e rest ih =>
    intro rc0 rc' h h0
    obtain ⟨a, b⟩ := e
    simp only [crgLoop] at h
    cases hc : alookup capacities (a, b) with
    | none => rw [hc] at h; cases h
    | some c =>
      cases hf : alookup flow (a, b) with
      | none => rw [hc, hf] at h; cases h
      | some f =>
        rw [hc, hf] at h
        exact ih _ _ h (akeys_ainsert_nodup _ _ _ (akeys_ainsert_nodup _ _ _ h0))

theorem crgMinLoop_untouched (lower upper flow : Dict) :
    ∀ (es : List Edge) (rc rc' : Dict) (k : Edge),
      crgMinLoop lower upper flow es rc = some rc' →
      (∀ e ∈ es, k ≠ e ∧ k ≠ (e.2, e.1)) →
      alookup rc' k = alookup rc k := by
  intro es
  induction es with
  | nil =>
    intro rc rc' k h _
    simp only [crgMinLoop, Option.some.injEq] at h
    rw [h]
  | cons e rest ih =>
    intro rc rc' k h hk
    obtain ⟨a, b⟩ := e
    simp only [crgMinLoop] at h
    cases hu : alookup upper (a, b) with
    | none => rw [hu] at h; cases h
    | some ub =>
      cases hl : alookup lower (a, b) with
      | none => rw [hu, hl] at h; cases h
      | some lb =>
        cases hf : alookup flow (a, b) with
        | none => rw [hu, hl, hf] at h; cases h
        | some f =>
          rw [hu, hl, hf] at h
          have h1 := ih _ _ _ h (fun e he => hk e (List.mem_cons_of_mem _ he))
          have hne1 : k ≠ (a, b) := (hk (a, b) (List.mem_cons_self _ _)).1
          have hne2 : k ≠ (b, a) := (hk (a, b) (List.mem_cons_self _ _)).2
          rw [h1, alookup_ainsert_ne _ _ _ _ hne2, alookup_ainsert_ne _ _ _ _ hne1]

theorem crgMinLoop_ok (lower upper flow : Dict) :
    ∀ (es : List Edge) (rc0 : Dict),
      (∀ e ∈ es, (alookup upper e).isSome) →
      (∀ e ∈ es, (alookup lower e).isSome) →
      (∀ e ∈ es, (alookup flow e).isSome) →
      ∃ rc', crgMinLoop lower upper flow es rc0 = some rc' := by
  intro es
  induction es with
  | nil => intro rc0 _ _ _; exact ⟨rc0, rfl⟩
  | cons e rest ih =>
    intro rc0 hup hlow hflow
    obtain ⟨a, b⟩ := e
    have h1 := hup (a, b) (List.mem_cons_self _ _)
    have h2 := hlow (a, b) (List.mem_cons_self _ _)
    have h3 := hflow (a, b) (List.mem_cons_self _ _)
    cases hu : alookup upper (a, b) with
    | none => rw [hu] at h1; cases h1
    | some ub =>
      cases hl : alookup lower (a, b) with
      | none => rw [hl] at h2; cases h2
      | some lb =>
        cases hf : alookup flow (a, b) with
        | none => rw [hf] at h3; cases h3
        | some f =>
          obtain ⟨rc', hrc⟩ := ih
            (ainsert (ainsert rc0 (a, b) (ub.sub f)) (b, a) (f.sub lb))
            (fun e he => hup e (List.mem_cons_of_mem _ he))
            (fun e he => hlow e (List.mem_cons_of_mem _ he))
            (fun e he => hflow e (List.mem_cons_of_mem _ he))
          refine ⟨rc', ?_⟩
          simp only [crgMinLoop, hu, hl, hf]
          exact hrc

theorem crgMinLoop_keys_nodup (lower upper flow : Dict) :
    ∀ (es : List Edge) (rc0 rc' : Dict),
      crgMinLoop lower upper flow es rc0 = some rc' →
      (akeys rc0).Nodup → (akeys rc').Nodup := by
  intro es
  induction es with
  | nil =>
    intro rc0 rc' h h0
    simp only [crgMinLoop, Option.some.injEq] at h
    rw [← h]; exact h0
  | cons e rest ih =>
    intro rc0 rc' h h0
    obtain ⟨a, b⟩ := e
    simp only [crgMinLoop] at h
    cases hu : alookup upper (a, b) with
    | none => rw [hu] at h; cases h
    | some ub =>
      cases hl : alookup lower (a, b) with
      | none => rw [hu, hl] at h; cases h
      | some lb =>
        cases hf : alookup flow (a, b) with
        | none => rw [hu, hl, hf] at h; cases h
        | some f =>
          rw [hu, hl, hf] at h
          exact ih _ _ h
            (akeys_ainsert_nodup _ _ _ (akeys_ainsert_nodup _ _ _ h0))

/-- Analogue of `crgLoop_lookup` for the bounded builder of
`minimum_flow.py`. -/
theorem crgMinLoop_lookup (lower upper flow : Dict) :
    ∀ (es : List Edge),
      (∀ a b, (a, b) ∈ es → (b, a) ∉ es) →
      ∀ (rc0 rc' : Dict),
        crgMinLoop lower upper flow es rc0 = some rc' →
        ∀ u v, (u, v) ∈ es →
          ∃ ub lb f, alookup upper (u, v) = some ub ∧
            alookup lower (u, v) = some lb ∧
            alookup flow (u, v) = some f ∧
            alookup rc' (u, v) = some (ub.sub f) ∧
            alookup rc' (v, u) = some (f.sub lb) := by
  intro es
  induction es with
  | nil =>
    intro _ rc0 rc' _ u v hmem
    cases hmem
  | cons e rest ih =>
    intro hAP rc0 rc' h u v hmem
    have hAP' : ∀ a' b', (a', b') ∈ rest → (b', a') ∉ rest :=
      fun a' b' hm hm' =>
        hAP a' b' (List.mem_cons_of_mem _ hm) (List.mem_cons_of_mem _ hm')
    have huv : u ≠ v := by
      intro he
      subst he
      exact hAP u u hmem hmem
    obtain ⟨a, b⟩ := e
    simp only [crgMinLoop] at h
    cases hu : alookup upper (a, b) with
    | none => rw [hu] at h; cases h
    | some ub =>
      cases hl : alookup lower (a, b) with
      | none => rw [hu, hl] at h; cases h
      | some lb =>
        cases hf : alookup flow (a, b) with
        | none => rw [hu, hl, hf] at h; cases h
        | some f =>
          rw [hu, hl, hf] at h
          by_cases hr : (u, v) ∈ rest
          · exact ih hAP' _ _ h u v hr
          · have heq : (u, v) = (a, b) := by
              rcases List.mem_cons.mp hmem with h1 | h1
              · exact h1
              · exact absurd h1 hr
            injection heq with h1 h2
            subst h1
            subst h2
            refine ⟨ub, lb, f, hu, hl, hf, ?_, ?_⟩
            · have hun : ∀ e ∈ rest, (u, v) ≠ e ∧ (u, v) ≠ (e.2, e.1) := by
                intro e he
                refine ⟨fun hh => hr (hh ▸ he), fun hh => ?_⟩
                have : e = (v, u) := by
                  obtain ⟨e1, e2⟩ := e
                  injection hh with h1 h2
                  subst h1; subst h2; rfl
                rw [this] at he
                exact hAP u v hmem (List.mem_cons_of_mem _ he)
              rw [crgMinLoop_untouched lower upper flow rest _ _ _ h hun]
              rw [alookup_ainsert_ne _ _ _ _ (fun hh => huv (congrArg Prod.fst hh))]
              exact alookup_ainsert_self _ _ _
            · have hun : ∀ e ∈ rest, (v, u) ≠ e ∧ (v, u) ≠ (e.2, e.1) := by
                intro e he
                constructor
                · intro hh
                  rw [← hh] at he
                  exact hAP u v hmem (List.mem_cons_of_mem _ he)
                · intro hh
                  have : e = (u, v) := by
                    obtain ⟨e1, e2⟩ := e
                    injection hh with h1 h2
                    subst h1; subst h2; rfl
                  rw [this] at he
                  exact hr he
              rw [crgMinLoop_untouched lower upper flow rest _ _ _ h hun]
              exact alookup_ainsert_self _ _ _

theorem foldl_ainsert_const_untouched {κ α : Type} [DecidableEq κ] (c : α) :
    ∀ (es : List κ) (acc : List (κ × α)) (k : κ), k ∉ es →
      alookup (es.foldl (fun d e => ainsert d e c) acc) k = alookup acc k := by
  intro es
  induction es with
  | nil => intro acc k _; rfl
  | cons e rest ih =>
    intro acc k hk
    simp only [List.mem_cons, not_or] at hk
    simp only [List.foldl_cons]
    rw [ih _ _ hk.2, alookup_ainsert_ne _ _ _ _ hk.1]

theorem foldl_ainsert_const_lookup {κ α : Type} [DecidableEq κ] (c : α) :
    ∀ (es : List κ) (acc : List (κ × α)) (k : κ), k ∈ es →
      alookup (es.foldl (fun d e => ainsert d e c) acc) k = some c := by
  intro es
  induction es with
  | nil => intro acc k hk; cases hk
  | cons e rest ih =>
    intro acc k hk
    simp only [List.foldl_cons]
    by_cases hr : k ∈ rest
    · exact ih _ _ hr
    · have hke : k = e := by
        rcases List.mem_cons.mp hk with h | h
        · exact h
        · exact absurd h hr
      subst hke
      rw [foldl_ainsert_const_untouched c rest _ _ hr]
      exact alookup_ainsert_self _ _ _

theorem zeroFlow_lookup (edges : List Edge) (e : Edge) (he : e ∈ edges) :
    alookup (zeroFlow edges) e = some (EV.fin 0) :=
  foldl_ainsert_const_lookup _ edges [] e he

/-- Decidable statement that a dictionary stores a Python `int` under a
key. -/
def finValued (d : Dict) (e : Edge) : Bool :=
  match alookup d e with
  | some (EV.fin _) => true
  | _ => false

theorem finValued_iff (d : Dict) (e : Edge) :
    finValued d e = true ↔ ∃ n : Int, alookup d e = some (EV.fin n) := by
  unfold finValued
  cases h : alookup d e with
  | none => simp
  | some x => cases x <;> simp

theorem mem_akeys_of_lookup {κ α : Type} [DecidableEq κ]
    (d : List (κ × α)) (k : κ) (x : α) (h : alookup d k = some x) :
    k ∈ akeys d :=
  (alookup_isSome_iff d k).mp (by rw [h]; rfl)

/-! ## Claim C2 -/

/-- C2, corrected, amended claim: when no edge's reverse is itself an
edge of the graph, then for every edge `(u,v)` of the input and every
flow assigning an integer to every edge, each residual builder emits
exactly two entries for that edge - the key `(u,v)` once and the key
`(v,u)` once - and their capacities sum to `capacity(u,v)` in the
capacity-only variant and to `upper(u,v) - lower(u,v)` in the bounded
variant; building the residual graph from the all-zero flow gives forward
capacity equal to the original capacity and backward capacity zero. (The
counterexample `C2_cx` shows the sum and round-trip guarantees fail as
stated once an edge and its reverse are both present, because the second
edge's entries overwrite the first's.) -/
theorem C2_residual_builders (edges : List Edge)
    (capacities lower upper flow : Dict)
    (hAP : ∀ e ∈ edges, (e.2, e.1) ∉ edges)
    (hcap : ∀ e ∈ edges, (alookup capacities e).isSome = true)
    (hup : ∀ e ∈ edges, (alookup upper e).isSome = true)
    (hlow : ∀ e ∈ edges, (alookup lower e).isSome = true)
    (hflow : ∀ e ∈ edges, finValued flow e = true) :
    (∃ re rc, construct_residual_graph edges capacities flow = some (re, rc) ∧
      ∀ u v, (u, v) ∈ edges →
        ∃ c f, alookup capacities (u, v) = some c ∧
          alookup flow (u, v) = some (EV.fin f) ∧
          alookup rc (u, v) = some (c.sub (EV.fin f)) ∧
          alookup rc (v, u) = some (EV.fin f) ∧
          (c.sub (EV.fin f)).add (EV.fin f) = c ∧
          re.Nodup ∧ (u, v) ∈ re ∧ (v, u) ∈ re) ∧
    (∃ re rc,
      construct_residual_graph_min_flow edges lower upper flow = some (re, rc) ∧
      ∀ u v, (u, v) ∈ edges →
        ∃ ub lb f, alookup upper (u, v) = some ub ∧
          alookup lower (u, v) = some lb ∧
          alookup flow (u, v) = some (EV.fin f) ∧
          alookup rc (u, v) = some (ub.sub (EV.fin f)) ∧
          alookup rc (v, u) = some ((EV.fin f).sub lb) ∧
          (ub.sub (EV.fin f)).add ((EV.fin f).sub lb) = ub.sub lb ∧
          re.Nodup ∧ (u, v) ∈ re ∧ (v, u) ∈ re) ∧
    (∀ re rc,
      construct_residual_graph edges capacities (zeroFlow edges) = some (re, rc) →
      ∀ u v, (u, v) ∈ edges →
        alookup rc (u, v) = alookup capacities (u, v) ∧
        alookup rc (v, u) = some (EV.fin 0)) := by
  have hAP' : ∀ a b, (a, b) ∈ edges → (b, a) ∉ edges :=
    fun a b h => hAP (a, b) h
  have hflow' : ∀ e ∈ edges, (alookup flow e).isSome = true := by
    intro e he
    obtain ⟨n, hn⟩ := (finValued_iff flow e).mp (hflow e he)
    rw [hn]; rfl
  refine ⟨?_, ?_, ?_⟩
  · obtain ⟨rc', hrc⟩ := crgLoop_ok capacities flow edges [] hcap hflow'
    refine ⟨akeys rc', rc', by simp only [construct_residual_graph, hrc], ?_⟩
    intro u v huv
    have huvne : u ≠ v := by
      intro he
      subst he
      exact hAP' u u huv huv
    obtain ⟨c, f, hc, hf, h1, h2⟩ :=
      crgLoop_lookup capacities flow edges hAP' [] rc' hrc u v huv
    obtain ⟨n, hn⟩ := (finValued_iff flow (u, v)).mp (hflow _ huv)
    rw [hn] at hf
    injection hf with hf
    subst hf
    have hnd : (akeys rc').Nodup :=
      crgLoop_keys_nodup capacities flow edges [] rc' hrc (by simp [akeys])
    exact ⟨c, n, hc, hn, h1, h2, EV.sub_fin_add_fin c n, hnd,
      mem_akeys_of_lookup _ _ _ h1, mem_akeys_of_lookup _ _ _ h2⟩
  · obtain ⟨rc', hrc⟩ := crgMinLoop_ok lower upper flow edges [] hup hlow hflow'
    refine ⟨akeys rc', rc',
      by simp only [construct_residual_graph_min_flow, hrc], ?_⟩
    intro u v huv
    obtain ⟨ub, lb, f, hu, hl, hf, h1, h2⟩ :=
      crgMinLoop_lookup lower upper flow edges hAP' [] rc' hrc u v huv
    obtain ⟨n, hn⟩ := (finValued_iff flow (u, v)).mp (hflow _ huv)
    rw [hn] at hf
    injection hf with hf
    subst hf
    have hnd : (akeys rc').Nodup :=
      crgMinLoop_keys_nodup lower upper flow edges [] rc' hrc (by simp [akeys])
    exact ⟨ub, lb, n, hu, hl, hn, h1, h2, EV.sub_fin_add_sub_fin ub lb n, hnd,
      mem_akeys_of_lookup _ _ _ h1, mem_akeys_of_lookup _ _ _ h2⟩
  · intro re rc h u v huv
    unfold construct_residual_graph at h
    cases hcr : crgLoop capacities (zeroFlow edges) edges [] with
    | none =>
      rw [hcr] at h
      simp at h
    | some rc0 =>
      rw [hcr] at h
      simp only [Option.some.injEq, Prod.mk.injEq] at h
      obtain ⟨rfl, rfl⟩ := h
      obtain ⟨c, f, hc, hf, h1, h2⟩ :=
        crgLoop_lookup capacities (zeroFlow edges) edges hAP' [] rc0 hcr u v huv
      have hf0 : f = EV.fin 0 := by
        have := zeroFlow_lookup edges (u, v) huv
        rw [this] at hf
        injection hf with hf
        exact hf.symm
      subst hf0
      rw [EV.sub_fin_zero] at h1
      exact ⟨by rw [h1, hc], h2⟩

/-- C2 counterexample: with the antiparallel edge pair `(a,b)`, `(b,a)`
(capacities `5` and `7`) and the all-zero flow, the builder's entries for
the edge `(a,b)` are `0` forward and `7` backward: they sum to `7`, not
to the capacity `5`, and the forward entry does not reproduce the
capacity. -/
theorem C2_cx :
    construct_residual_graph [("a", "b"), ("b", "a")]
        [(("a", "b"), EV.fin 5), (("b", "a"), EV.fin 7)]
        (zeroFlow [("a", "b"), ("b", "a")]) =
      some ([("a", "b"), ("b", "a")],
        [(("a", "b"), EV.fin 0), (("b", "a"), EV.fin 7)]) ∧
    (EV.fin 0).add (EV.fin 7) ≠ EV.fin 5 ∧
    EV.fin 0 ≠ EV.fin 5 := by
  decide

/-- C2 witness: the amended statement applied to the single-edge graph
`s → t` with capacity `3`, bounds `[1, 5]` and flow `2`. -/
theorem C2_witness :
    (∃ re rc,
      construct_residual_graph [("s", "t")] [(("s", "t"), EV.fin 3)]
          [(("s", "t"), EV.fin 2)] = some (re, rc) ∧
      ∀ u v, (u, v) ∈ [(("s" : Node), ("t" : Node))] →
        ∃ c f, alookup [(("s", "t"), EV.fin 3)] (u, v) = some c ∧
          alookup [(("s", "t"), EV.fin 2)] (u, v) = some (EV.fin f) ∧
          alookup rc (u, v) = some (c.sub (EV.fin f)) ∧
          alookup rc (v, u) = some (EV.fin f) ∧
          (c.sub (EV.fin f)).add (EV.fin f) = c ∧
          re.Nodup ∧ (u, v) ∈ re ∧ (v, u) ∈ re) ∧
    (∃ re rc,
      construct_residual_graph_min_flow [("s", "t")] [(("s", "t"), EV.fin 1)]
          [(("s", "t"), EV.fin 5)] [(("s", "t"), EV.fin 2)] = some (re, rc) ∧
      ∀ u v, (u, v) ∈ [(("s" : Node), ("t" : Node))] →
        ∃ ub lb f, alookup [(("s", "t"), EV.fin 5)] (u, v) = some ub ∧
          alookup [(("s", "t"), EV.fin 1)] (u, v) = some lb ∧
          alookup [(("s", "t"), EV.fin 2)] (u, v) = some (EV.fin f) ∧
          alookup rc (u, v) = some (ub.sub (EV.fin f)) ∧
          alookup rc (v, u) = some ((EV.fin f).sub lb) ∧
          (ub.sub (EV.fin f)).add ((EV.fin f).sub lb) = ub.sub lb ∧
          re.Nodup ∧ (u, v) ∈ re ∧ (v, u) ∈ re) ∧
    (∀ re rc,
      construct_residual_graph [("s", "t")] [(("s", "t"), EV.fin 3)]
          (zeroFlow [("s", "t")]) = some (re, rc) →
      ∀ u v, (u, v) ∈ [(("s" : Node), ("t" : Node))] →
        alookup rc (u, v) = alookup [(("s", "t"), EV.fin 3)] (u, v) ∧
        alookup rc (v, u) = some (EV.fin 0)) :=
  C2_residual_builders [("s", "t")] [(("s", "t"), EV.fin 3)]
    [(("s", "t"), EV.fin 1)] [(("s", "t"), EV.fin 5)]
    [(("s", "t"), EV.fin 2)]
    (by decide) (by decide) (by decide) (by decide) (by decide)

/-! ## Claim C8 -/

/-- Supply map of the spec's min-cost worked example
(`a=5, b=7, c=0, i=-9, p=-3`). -/
def mcfExSupply : SDict := [("a", 5), ("b", 7), ("c", 0), ("i", -9), ("p", -3)]

/-- Node list of the min-cost worked example. -/
def mcfExNodes : List Node := ["a", "b", "c", "i", "p"]

/-- Capacities of the min-cost worked example. -/
def mcfExCaps : Dict :=
  [ (("a", "c"), EV.fin 4), (("a", "i"), EV.fin 5),
    (("b", "c"), EV.fin 8), (("b", "p"), EV.fin 4),
    (("c", "i"), EV.fin 9), (("c", "p"), EV.fin 3) ]

/-- Costs of the min-cost worked example. -/
def mcfExCosts : Dict :=
  [ (("a", "c"), EV.fin 1), (("a", "i"), EV.fin 3),
    (("b", "c"), EV.fin 4), (("b", "p"), EV.fin 3),
    (("c", "i"), EV.fin 5), (("c", "p"), EV.fin 0) ]

/-- Edge list of the min-cost worked example (the capacity keys). -/
def mcfExEdges : List Edge := akeys mcfExCaps

/-- C8, confirmed: on the supply instance `a=5, b=7, i=-9, p=-3` with the
six listed edges, the Min-Cost-Flow Solver reports `feasible = true`,
flow value `12` and flow cost `60` (fuel `30` covers the loop's
iterations; the run terminates by emptying its active supply list). -/
theorem C8_min_cost_flow_example :
    minimum_cost_flow mcfExNodes mcfExEdges mcfExCaps mcfExCosts
        mcfExSupply 30 =
      .ok (true,
        [ (("a", "c"), EV.fin 0), (("a", "i"), EV.fin 5),
          (("b", "c"), EV.fin 4), (("b", "p"), EV.fin 3),
          (("c", "i"), EV.fin 4), (("c", "p"), EV.fin 0) ],
        EV.fin 12, EV.fin 60) := by
  decide

/-! ## Claim C7 -/

theorem ffMinLoop_ok_value (search : SearchFn) (edges : List Edge)
    (lower upper : Dict) (source sink : Node) :
    ∀ (fuel : Nat) (flow f : Dict) (v : EV),
      ffMinLoop search edges lower upper source sink fuel flow = .ok (f, v) →
      v = calculate_flow_value f source := by
  intro fuel
  induction fuel with
  | zero => intro flow f v h; cases h
  | succ n ih =>
    intro flow f v h
    simp only [ffMinLoop] at h
    split at h
    · cases h
    · split at h
      · cases h
      · simp only [Res.ok.injEq, Prod.mk.injEq] at h
        obtain ⟨rfl, rfl⟩ := h
        rfl
      · split at h
        · cases h
        · exact ih _ f v h

/-- C7, confirmed: whenever the Min-Flow Solver returns a result, the
flow value it reports is the negation of the net outgoing flow at the
original sink of the flow produced by the reverse Ford-Fulkerson push
(`ford_fulkerson_min_flow` run from the sink to the source starting at
the feasible flow), which is exactly the returned flow map itself. -/
theorem C7_minflow_reported_value (nodes : List Node) (edges : List Edge)
    (lower upper : Dict) (source sink : Node) (search : SearchFn)
    (fuel : Nat) (feasible0 : Option Dict) (f : Dict) (v : EV)
    (h : minimum_flow nodes edges lower upper source sink search fuel
      feasible0 = .ok (f, v)) :
    v = (calculate_flow_value f sink).neg ∧
    ∃ feas,
      ford_fulkerson_min_flow search edges lower upper sink source fuel
        (some feas) = .ok (f, calculate_flow_value f sink) := by
  simp only [minimum_flow] at h
  split at h
  · cases h
  · cases h
  · rename_i feas _
    split at h
    · cases h
    · cases h
    · rename_i mf mv hm
      simp only [Res.ok.injEq, Prod.mk.injEq] at h
      obtain ⟨rfl, rfl⟩ := h
      have hv : mv = calculate_flow_value mf sink :=
        ffMinLoop_ok_value search edges lower upper sink source fuel _ mf mv hm
      subst hv
      exact ⟨rfl, feas, hm⟩

/-- C7 witness: the single-edge instance `s → t` with bounds `[0, 3]` and
supplied feasible flow `2`; the solver pushes the 2 units back and
reports value `0 = -(net outgoing flow at t)`. -/
theorem C7_witness :
    (EV.fin 0) = (calculate_flow_value [(("s", "t"), EV.fin 0)] ("t")).neg ∧
    ∃ feas,
      ford_fulkerson_min_flow (find_augmenting_path_bfs 20) [("s", "t")]
        [(("s", "t"), EV.fin 0)] [(("s", "t"), EV.fin 3)] ("t") ("s") 10
        (some feas) =
      .ok ([(("s", "t"), EV.fin 0)],
        calculate_flow_value [(("s", "t"), EV.fin 0)] ("t")) :=
  C7_minflow_reported_value ["s", "t"] [("s", "t")] [(("s", "t"), EV.fin 0)]
    [(("s", "t"), EV.fin 3)] ("s") ("t") (find_augmenting_path_bfs 20) 10
    (some [(("s", "t"), EV.fin 2)]) [(("s", "t"), EV.fin 0)] (EV.fin 0)
    (by decide)

/-! ## Claim C4 -/

theorem augmentStep1_length (pe : List Edge) (cap : EV) (uv : Edge)
    (flow flow1 : Dict) (h : augmentStep1 pe cap uv flow = some flow1) :
    flow1.length = flow.length := by
  unfold augmentStep1 at h
  split at h
  · cases hl : alookup flow uv with
    | none => rw [hl] at h; cases h
    | some x =>
      rw [hl] at h
      simp only [Option.some.injEq] at h
      rw [← h]
      exact length_ainsert_of_isSome _ _ _ (by rw [hl]; rfl)
  · simp only [Option.some.injEq] at h
    rw [← h]

theorem augmentStep2_length (pe : List Edge) (cap : EV) (uv : Edge)
    (flow flow1 : Dict) (h : augmentStep2 pe cap uv flow = some flow1) :
    flow1.length = flow.length := by
  unfold augmentStep2 at h
  split at h
  · cases hl : alookup flow uv with
    | none => rw [hl] at h; cases h
    | some x =>
      rw [hl] at h
      simp only [Option.some.injEq] at h
      rw [← h]
      exact length_ainsert_of_isSome _ _ _ (by rw [hl]; rfl)
  · simp only [Option.some.injEq] at h
    rw [← h]

theorem augmentLoop_length (pe : List Edge) (cap : EV) :
    ∀ (es : List Edge) (flow flow' : Dict),
      augmentLoop pe cap es flow = some flow' → flow'.length = flow.length := by
  intro es
  induction es with
  | nil =>
    intro flow flow' h
    simp only [augmentLoop, Option.some.injEq] at h
    rw [← h]
  | cons uv rest ih =>
    intro flow flow' h
    simp only [augmentLoop] at h
    split at h
    · cases h
    · rename_i flow1 h1
      split at h
      · cases h
      · rename_i flow2 h2
        rw [ih flow2 flow' h, augmentStep2_length pe cap uv flow1 flow2 h2,
          augmentStep1_length pe cap uv flow flow1 h1]

/-- Whenever `ffLoop` returns a result, the final residual graph admits
no augmenting path for the chosen strategy, and the reported value is the
net outgoing flow at the source of the returned flow. -/
theorem ffLoop_ok_post (search : SearchFn) (edges : List Edge)
    (capacities : Dict) (source sink : Node) :
    ∀ (fuel : Nat) (flow f : Dict) (v : EV),
      ffLoop search edges capacities source sink fuel flow = .ok (f, v) →
      (∃ re rc, construct_residual_graph edges capacities f = some (re, rc) ∧
        search re rc source sink = some none) ∧
      v = calculate_flow_value f source ∧ f.length = flow.length := by
  intro fuel
  induction fuel with
  | zero => intro _ _ _ h; cases h
  | succ n ih =>
    intro flow f v h
    simp only [ffLoop] at h
    split at h
    · cases h
    · rename_i re rc hcr
      split at h
      · cases h
      · rename_i hs
        simp only [Res.ok.injEq, Prod.mk.injEq] at h
        obtain ⟨rfl, rfl⟩ := h
        exact ⟨⟨re, rc, hcr, hs⟩, rfl, rfl⟩
      · split at h
        · cases h
        · rename_i pathNodes hs flow' haug
          obtain ⟨hpost, hval, hlen⟩ := ih flow' f v h
          exact ⟨hpost, hval,
            by rw [hlen, augmentLoop_length _ _ edges flow flow' haug]⟩

theorem ainsert_ne_nil {κ α : Type} [DecidableEq κ]
    (d : List (κ × α)) (k : κ) (v : α) : ainsert d k v ≠ [] := by
  unfold ainsert
  split
  · intro h
    cases d with
    | nil => simp [alookup] at *
    | cons p rest => simp [aupdate] at h; revert h; split <;> simp
  · intro h
    cases d <;> simp at h

theorem zeroFlow_eq_nil_iff (edges : List Edge) :
    zeroFlow edges = [] ↔ edges = [] := by
  cases edges with
  | nil => simp [zeroFlow]
  | cons e rest =>
    simp only [zeroFlow, List.foldl_cons]
    constructor
    · intro h
      exfalso
      have : ∀ (es : List Edge) (acc : Dict), acc ≠ [] →
          es.foldl (fun d e => ainsert d e (EV.fin 0)) acc ≠ [] := by
        intro es
        induction es with
        | nil => intro acc h _; exact h (by assumption)
        | cons e' rest' ih =>
          intro acc hacc
          exact ih _ (ainsert_ne_nil acc e' _)
      exact this rest _ (ainsert_ne_nil [] e _) h
    · intro h; cases h

/-- C4, confirmed: if `ford_fulkerson` returned `(f, v)`, re-running it
with `f` as the starting flow makes the very first search find no
augmenting path, and the call returns exactly the same flow map and flow
value. -/
theorem C4_idempotence (search : SearchFn) (edges : List Edge)
    (capacities : Dict) (source sink : Node) (fuel₁ fuel₂ : Nat)
    (flow0 : Option Dict) (f : Dict) (v : EV)
    (h : ford_fulkerson search edges capacities source sink fuel₁ flow0 =
      .ok (f, v))
    (hf2 : 1 ≤ fuel₂) :
    (∃ re rc, construct_residual_graph edges capacities f = some (re, rc) ∧
      search re rc source sink = some none) ∧
    ford_fulkerson search edges capacities source sink fuel₂ (some f) =
      .ok (f, v) := by
  have hcore : ∃ start : Dict,
      ffLoop search edges capacities source sink fuel₁ start = .ok (f, v) ∧
      (start = [] → start = zeroFlow edges) := by
    unfold ford_fulkerson at h
    cases flow0 with
    | none => exact ⟨zeroFlow edges, h, fun _ => rfl⟩
    | some f0 =>
      by_cases hf0 : f0 = []
      · refine ⟨zeroFlow edges, ?_, fun _ => rfl⟩
        simpa [hf0] using h
      · refine ⟨f0, ?_, fun hc => absurd hc hf0⟩
        simpa [hf0] using h
  obtain ⟨start, hrun, hstart0⟩ := hcore
  obtain ⟨⟨re, rc, hcr, hs⟩, hval, hlen⟩ :=
    ffLoop_ok_post search edges capacities source sink fuel₁ start f v hrun
  refine ⟨⟨re, rc, hcr, hs⟩, ?_⟩
  have hstart : (if f = [] then zeroFlow edges else f) = f := by
    by_cases hf : f = []
    · rw [if_pos hf, hf]
      have hs0 : start = [] :=
        List.length_eq_zero.mp (by rw [← hlen, hf]; rfl)
      exact (hstart0 hs0).symm.trans hs0
    · rw [if_neg hf]
  cases fuel₂ with
  | zero => exact absurd hf2 (by decide)
  | succ k =>
    show ffLoop search edges capacities source sink (k + 1)
      (if f = [] then zeroFlow edges else f) = .ok (f, v)
    rw [hstart]
    simp only [ffLoop, hcr, hs]
    rw [← hval]

/-- C4 witness: a single-edge run, then the re-run from its returned
flow. -/
theorem C4_witness :
    (∃ re rc, construct_residual_graph [("s", "t")] [(("s", "t"), EV.fin 3)]
        [(("s", "t"), EV.fin 3)] = some (re, rc) ∧
      find_augmenting_path_bfs 20 re rc ("s") ("t") = some none) ∧
    ford_fulkerson (find_augmenting_path_bfs 20) [("s", "t")]
        [(("s", "t"), EV.fin 3)] ("s") ("t") 5
        (some [(("s", "t"), EV.fin 3)]) =
      .ok ([(("s", "t"), EV.fin 3)], EV.fin 3) :=
  C4_idempotence (find_augmenting_path_bfs 20) [("s", "t")]
    [(("s", "t"), EV.fin 3)] ("s") ("t") 5 5 none
    [(("s", "t"), EV.fin 3)] (EV.fin 3) (by decide) (by decide)

/-! ## Claim C10 -/

theorem buildSupplyLoop_ok (supply : SDict) :
    ∀ (ns : List Node) (acc : List Edge × Dict),
      (∀ n ∈ ns, (alookup supply n).isSome = true) →
      ∃ r, buildSupplyLoop supply ns acc = some r := by
  intro ns
  induction ns with
  | nil => intro acc _; exact ⟨acc, rfl⟩
  | cons n rest ih =>
    intro acc hsup
    obtain ⟨es, caps⟩ := acc
    have h1 := hsup n (List.mem_cons_self _ _)
    cases hl : alookup supply n with
    | none => rw [hl] at h1; cases h1
    | some s =>
      have hrest : ∀ n' ∈ rest, (alookup supply n').isSome = true :=
        fun n' hn' => hsup n' (List.mem_cons_of_mem _ hn')
      simp only [buildSupplyLoop, hl]
      split
      · exact ih _ hrest
      · split
        · exact ih _ hrest
        · exact ih _ hrest

theorem buildSupplyLoop_mem (supply : SDict) :
    ∀ (ns : List Node) (acc r : List Edge × Dict),
      buildSupplyLoop supply ns acc = some r →
      ∀ e ∈ acc.1, e ∈ r.1 := by
  intro ns
  induction ns with
  | nil =>
    intro acc r h e he
    simp only [buildSupplyLoop, Option.some.injEq] at h
    rw [← h]
    exact he
  | cons n rest ih =>
    intro acc r h e he
    obtain ⟨es, caps⟩ := acc
    simp only [buildSupplyLoop] at h
    split at h
    · cases h
    · split at h
      · exact ih _ _ h e (List.mem_append_left _ he)
      · split at h
        · exact ih _ _ h e (List.mem_append_left _ he)
        · exact ih _ _ h e he

theorem buildSupplyLoop_synthetic (supply : SDict) :
    ∀ (ns : List Node) (acc r : List Edge × Dict) (n : Node) (s : Int),
      buildSupplyLoop supply ns acc = some r →
      n ∈ ns → alookup supply n = some s → s ≠ 0 →
      (s_prime, n) ∈ r.1 ∨ (n, t_prime) ∈ r.1 := by
  intro ns
  induction ns with
  | nil => intro _ _ n _ _ hn; cases hn
  | cons n' rest ih =>
    intro acc r n s h hn hs hnz
    obtain ⟨es, caps⟩ := acc
    simp only [buildSupplyLoop] at h
    split at h
    · cases h
    · rename_i s' hl'
      by_cases hne : n = n'
      · subst hne
        have hss : s = s' := by
          have := hs.symm.trans hl'
          injection this
        subst hss
        by_cases hpos : 0 < s
        · rw [if_pos hpos] at h
          left
          exact buildSupplyLoop_mem supply rest _ _ h _
            (List.mem_append_right _ (List.mem_singleton.mpr rfl))
        · rw [if_neg hpos] at h
          have hneg : s < 0 := by omega
          rw [if_pos hneg] at h
          right
          exact buildSupplyLoop_mem supply rest _ _ h _
            (List.mem_append_right _ (List.mem_singleton.mpr rfl))
      · have hn' : n ∈ rest := by
          rcases List.mem_cons.mp hn with h1 | h1
          · exact absurd h1 hne
          · exact h1
        split at h
        · exact ih _ _ n s h hn' hs hnz
        · split at h
          · exact ih _ _ n s h hn' hs hnz
          · exact ih _ _ n s h hn' hs hnz

theorem crgLoop_none_of_missing (capacities flow : Dict) :
    ∀ (es : List Edge) (rc0 : Dict),
      (∃ e ∈ es, alookup capacities e = none ∨ alookup flow e = none) →
      crgLoop capacities flow es rc0 = none := by
  intro es
  induction es with
  | nil =>
    intro rc0 h
    obtain ⟨e, he, _⟩ := h
    cases he
  | cons e rest ih =>
    intro rc0 h
    obtain ⟨a, b⟩ := e
    cases hc : alookup capacities (a, b) with
    | none => simp only [crgLoop, hc]
    | some c =>
      cases hf : alookup flow (a, b) with
      | none => simp only [crgLoop, hc, hf]
      | some f =>
        simp only [crgLoop, hc, hf]
        obtain ⟨e', he', hmiss⟩ := h
        rcases List.mem_cons.mp he' with h1 | h1
        · subst h1
          rcases hmiss with h2 | h2
          · rw [hc] at h2; cases h2
          · rw [hf] at h2; cases h2
        · exact ih _ ⟨e', h1, hmiss⟩

theorem ffLoop_keyError_of_crg_none (search : SearchFn) (edges : List Edge)
    (capacities : Dict) (source sink : Node) (fuel : Nat) (flow : Dict)
    (h : construct_residual_graph edges capacities flow = none)
    (hf : 1 ≤ fuel) :
    ffLoop search edges capacities source sink fuel flow = .keyError := by
  cases fuel with
  | zero => exact absurd hf (by decide)
  | succ k => simp only [ffLoop, h]

/-- C10, confirmed: calling `feasible_flow` with a non-empty initial flow
(defined, as documented, on the graph's own edges - so with no entry for
any synthetic `s_prime`/`t_prime` edge) while some node has nonzero
supply raises a `KeyError` when the residual graph of the augmented edge
list is first built; no `(feasible, flow, flow_value)` triple is ever
returned. (`fuel = 0` merely models an inert loop bound, hence the
`1 ≤ fuel` side condition.) -/
theorem C10_feasible_flow_keyerror (nodes : List Node) (edges : List Edge)
    (capacities : Dict) (supply : SDict) (search : SearchFn) (fuel : Nat)
    (f0 : Dict)
    (hsup : ∀ n ∈ nodes, (alookup supply n).isSome = true)
    (hnz : ∃ n ∈ nodes, ∃ s : Int, alookup supply n = some s ∧ s ≠ 0)
    (hne : f0 ≠ [])
    (hsyn : ∀ n : Node,
      alookup f0 (s_prime, n) = none ∧ alookup f0 (n, t_prime) = none)
    (hfuel : 1 ≤ fuel) :
    feasible_flow nodes edges capacities supply search fuel (some f0) =
      .keyError := by
  obtain ⟨r, hr⟩ := buildSupplyLoop_ok supply nodes (edges, capacities) hsup
  obtain ⟨ep, cp⟩ := r
  obtain ⟨n, hn, s, hs, hnz0⟩ := hnz
  have hsynmem : (s_prime, n) ∈ ep ∨ (n, t_prime) ∈ ep :=
    buildSupplyLoop_synthetic supply nodes _ _ n s hr hn hs hnz0
  have hmiss : ∃ e ∈ ep, alookup cp e = none ∨ alookup f0 e = none := by
    rcases hsynmem with h1 | h1
    · exact ⟨(s_prime, n), h1, Or.inr (hsyn n).1⟩
    · exact ⟨(n, t_prime), h1, Or.inr (hsyn n).2⟩
  have hcrg : construct_residual_graph ep cp f0 = none := by
    unfold construct_residual_graph
    rw [crgLoop_none_of_missing cp f0 ep [] hmiss]
  have hff : ford_fulkerson search ep cp s_prime t_prime fuel (some f0) =
      .keyError := by
    show ffLoop search ep cp s_prime t_prime fuel
      (if f0 = [] then zeroFlow ep else f0) = .keyError
    rw [if_neg hne]
    exact ffLoop_keyError_of_crg_none search ep cp s_prime t_prime fuel f0
      hcrg hfuel
  simp only [feasible_flow, hr, hff]

/-- C10 witness: a two-node supply instance with a caller-supplied
initial flow over the single original edge. -/
theorem C10_witness :
    feasible_flow ["a", "b"] [("a", "b")] [(("a", "b"), EV.fin 5)]
        [("a", 3), ("b", -3)] (find_augmenting_path_bfs 20) 5
        (some [(("a", "b"), EV.fin 0)]) = .keyError :=
  C10_feasible_flow_keyerror ["a", "b"] [("a", "b")]
    [(("a", "b"), EV.fin 5)] [("a", 3), ("b", -3)]
    (find_augmenting_path_bfs 20) 5 [(("a", "b"), EV.fin 0)]
    (by decide) ⟨"a", by decide, 3, by decide⟩ (by decide)
    (by
      intro n
      constructor
      · simp [alookup, s_prime]
      · simp [alookup, t_prime])
    (by decide)

/-! ## Claim C9 -/

theorem mem_aupdate {κ α : Type} [DecidableEq κ]
    (d : List (κ × α)) (k : κ) (v : α) (p : κ × α) :
    p ∈ aupdate k v d → p ∈ d ∨ p = (k, v) := by
  induction d with
  | nil => intro h; cases h
  | cons q rest ih =>
    obtain ⟨k₁, v₁⟩ := q
    intro h
    by_cases hk : k₁ = k
    · rw [aupdate, if_pos hk] at h
      rcases List.mem_cons.mp h with h1 | h1
      · exact Or.inr h1
      · rcases ih h1 with h2 | h2
        · exact Or.inl (List.mem_cons_of_mem _ h2)
        · exact Or.inr h2
    · rw [aupdate, if_neg hk] at h
      rcases List.mem_cons.mp h with h1 | h1
      · exact Or.inl (h1 ▸ List.mem_cons_self _ _)
      · rcases ih h1 with h2 | h2
        · exact Or.inl (List.mem_cons_of_mem _ h2)
        · exact Or.inr h2

theorem mem_ainsert {κ α : Type} [DecidableEq κ]
    (d : List (κ × α)) (k : κ) (v : α) (p : κ × α) :
    p ∈ ainsert d k v → p ∈ d ∨ p = (k, v) := by
  unfold ainsert
  split
  · exact mem_aupdate d k v p
  · intro h
    rcases List.mem_append.mp h with h1 | h1
    · exact Or.inl h1
    · exact Or.inr (List.mem_singleton.mp h1)

theorem zeroFlow_entries (edges : List Edge) :
    ∀ p ∈ zeroFlow edges, p.2 = EV.fin 0 := by
  suffices h : ∀ (es : List Edge) (acc : Dict),
      (∀ p ∈ acc, p.2 = EV.fin 0) →
      ∀ p ∈ es.foldl (fun d e => ainsert d e (EV.fin 0)) acc,
        p.2 = EV.fin 0 by
    exact fun p hp => h edges [] (by intro q hq; cases hq) p hp
  intro es
  induction es with
  | nil => intro acc h p hp; exact h p hp
  | cons e rest ih =>
    intro acc h p hp
    refine ih _ ?_ p hp
    intro q hq
    rcases mem_ainsert _ _ _ _ hq with h1 | h1
    · exact h q h1
    · rw [h1]

theorem foldl_add_entries_zero :
    ∀ l : List (Edge × EV), (∀ p ∈ l, p.2 = EV.fin 0) →
      l.foldl (fun acc p => acc.add p.2) (EV.fin 0) = EV.fin 0 := by
  intro l
  induction l with
  | nil => intro _; rfl
  | cons p rest ih =>
    intro h
    have hp : p.2 = EV.fin 0 := h p (List.mem_cons_self _ _)
    simp only [List.foldl_cons, hp]
    exact ih (fun q hq => h q (List.mem_cons_of_mem _ hq))

theorem foldl_sub_entries_zero :
    ∀ l : List (Edge × EV), (∀ p ∈ l, p.2 = EV.fin 0) →
      l.foldl (fun acc p => acc.sub p.2) (EV.fin 0) = EV.fin 0 := by
  intro l
  induction l with
  | nil => intro _; rfl
  | cons p rest ih =>
    intro h
    have hp : p.2 = EV.fin 0 := h p (List.mem_cons_self _ _)
    simp only [List.foldl_cons, hp]
    have : (EV.fin 0).sub (EV.fin 0) = EV.fin 0 := by decide
    rw [this]
    exact ih (fun q hq => h q (List.mem_cons_of_mem _ hq))

theorem calculate_flow_value_zeroFlow (edges : List Edge) (node : Node) :
    calculate_flow_value (zeroFlow edges) node = EV.fin 0 := by
  unfold calculate_flow_value
  have hout : ((zeroFlow edges).filter
      (fun p => p.1.1 = node)).foldl (fun acc p => acc.add p.2) (EV.fin 0) =
      EV.fin 0 :=
    foldl_add_entries_zero _
      (fun p hp => zeroFlow_entries edges p (List.mem_of_mem_filter hp))
  rw [hout]
  exact foldl_sub_entries_zero _
    (fun p hp => zeroFlow_entries edges p (List.mem_of_mem_filter hp))

theorem crgLoop_key_origin (capacities flow : Dict) :
    ∀ (es : List Edge) (rc0 rc' : Dict),
      crgLoop capacities flow es rc0 = some rc' →
      ∀ k, (alookup rc' k).isSome = true →
        (alookup rc0 k).isSome = true ∨ ∃ e ∈ es, k = e ∨ k = (e.2, e.1) := by
  intro es
  induction es with
  | nil =>
    intro rc0 rc' h k hk
    simp only [crgLoop, Option.some.injEq] at h
    rw [← h] at hk
    exact Or.inl hk
  | cons e rest ih =>
    intro rc0 rc' h k hk
    obtain ⟨a, b⟩ := e
    simp only [crgLoop] at h
    cases hc : alookup capacities (a, b) with
    | none => rw [hc] at h; cases h
    | some c =>
      cases hf : alookup flow (a, b) with
      | none => rw [hc, hf] at h; cases h
      | some f =>
        rw [hc, hf] at h
        rcases ih _ _ h k hk with h1 | ⟨e', he', h2⟩
        · rw [alookup_isSome_iff] at h1
          rcases (mem_akeys_ainsert _ _ _ _).mp h1 with h2 | h2
          · rcases (mem_akeys_ainsert _ _ _ _).mp h2 with h3 | h3
            · exact Or.inl ((alookup_isSome_iff _ _).mpr h3)
            · exact Or.inr ⟨(a, b), List.mem_cons_self _ _, Or.inl h3⟩
          · exact Or.inr ⟨(a, b), List.mem_cons_self _ _, Or.inr h2⟩
        · exact Or.inr ⟨e', List.mem_cons_of_mem _ he', h2⟩

theorem bfsCands_nil_of_no_keys (re : List Edge) (rc : Dict)
    (closed : List Node) (cur : Node) (h : ∀ e ∈ re, e.1 ≠ cur) :
    bfsCands re rc closed cur = [] := by
  unfold bfsCands
  rw [List.filter_eq_nil_iff.mpr ?_]
  · rfl
  · intro e he
    simp [h e he]

theorem bfs_none_of_source_no_keys (re : List Edge) (rc : Dict)
    (source sink : Node) (sfuel : Nat) (hst : source ≠ sink)
    (hsf : 2 ≤ sfuel) (h : ∀ e ∈ re, e.1 ≠ source) :
    find_augmenting_path_bfs sfuel re rc source sink = some none := by
  obtain ⟨k, rfl⟩ : ∃ k, sfuel = k + 2 := ⟨sfuel - 2, by omega⟩
  show bfsLoop re rc sink (k + 2) [source] [[source]] = some none
  have hc : bfsCands re rc [source] source = [] :=
    bfsCands_nil_of_no_keys re rc [source] source h
  show (if source = sink then some (some [source]) else
    bfsLoop re rc sink (k + 1)
      ([source] ++ bfsCands re rc [source] source)
      ([] ++ (bfsCands re rc [source] source).map
        (fun v => [source] ++ [v]))) = some none
  rw [if_neg hst, hc]
  simp [bfsLoop]

/-- C9, corrected, amended claim: a solver call referencing a node absent
from the declared node set does not fail: there is no NodeNotFound
condition anywhere in the code, and for example `ford_fulkerson` with a
source that appears in no edge simply finds no augmenting path and
returns the unchanged zero flow with value `0` as a normal result. -/
theorem C9_absent_node_normal_result (edges : List Edge)
    (capacities : Dict) (source sink : Node) (fuel sfuel : Nat)
    (hsrc : ∀ e ∈ edges, e.1 ≠ source ∧ e.2 ≠ source)
    (hcap : ∀ e ∈ edges, (alookup capacities e).isSome = true)
    (hst : source ≠ sink) (hfuel : 1 ≤ fuel) (hsf : 2 ≤ sfuel) :
    ford_fulkerson (find_augmenting_path_bfs sfuel) edges capacities source
      sink fuel none = .ok (zeroFlow edges, EV.fin 0) := by
  obtain ⟨rc', hrc⟩ := crgLoop_ok capacities (zeroFlow edges) edges [] hcap
    (fun e he => by rw [zeroFlow_lookup edges e he]; rfl)
  have hkeys : ∀ e ∈ akeys rc', e.1 ≠ source := by
    intro e he
    have hs : (alookup rc' e).isSome = true := (alookup_isSome_iff _ _).mpr he
    rcases crgLoop_key_origin capacities (zeroFlow edges) edges [] rc' hrc
        e hs with h1 | ⟨e', he', h2 | h2⟩
    · simp [alookup] at h1
    · rw [h2]
      exact (hsrc e' he').1
    · rw [h2]
      exact (hsrc e' he').2
  have hbfs := bfs_none_of_source_no_keys (akeys rc') rc' source sink sfuel
    hst hsf hkeys
  cases fuel with
  | zero => exact absurd hfuel (by decide)
  | succ k =>
    show ffLoop (find_augmenting_path_bfs sfuel) edges capacities source sink
      (k + 1) (zeroFlow edges) = .ok (zeroFlow edges, EV.fin 0)
    have hcon : construct_residual_graph edges capacities (zeroFlow edges) =
        some (akeys rc', rc') := by
      unfold construct_residual_graph
      rw [hrc]
    simp only [ffLoop, hcon, hbfs]
    rw [calculate_flow_value_zeroFlow]

/-- C9 counterexample: `ford_fulkerson` called with source `x` and sink
`y`, neither of which is in the graph, returns a normal result (the zero
flow and value `0`) instead of failing with any NodeNotFound-style
condition. -/
theorem C9_cx :
    ford_fulkerson (find_augmenting_path_bfs 20) [("a", "b")]
        [(("a", "b"), EV.fin 3)] ("x") ("y") 3 none =
      .ok ([(("a", "b"), EV.fin 0)], EV.fin 0) := by
  decide

/-- C9 witness: the amended statement applied to the same instance. -/
theorem C9_witness :
    ford_fulkerson (find_augmenting_path_bfs 20) [("a", "b")]
        [(("a", "b"), EV.fin 3)] ("x") ("y") 3 none =
      .ok (zeroFlow [("a", "b")], EV.fin 0) :=
  C9_absent_node_normal_result [("a", "b")] [(("a", "b"), EV.fin 3)]
    ("x") ("y") 3 20 (by decide) (by decide) (by decide) (by decide)
    (by decide)

/-! ## Claim C6 -/

theorem conservLoop_iff (flow : Dict) (edges : List Edge) (supply : SDict) :
    ∀ (ns : List Node) (b : Bool),
      conservLoop flow edges supply ns = some b →
      (b = true ↔ ∀ n ∈ ns, ∃ net s, netOutgoing flow edges n = some net ∧
        alookup supply n = some s ∧ EV.peq net (EV.fin s) = true) := by
  intro ns
  induction ns with
  | nil =>
    intro b h
    simp only [conservLoop, Option.some.injEq] at h
    rw [← h]
    simp
  | cons n rest ih =>
    intro b h
    simp only [conservLoop] at h
    split at h
    · rename_i net s hnet hsup
      split at h
      · rename_i hpeq
        rw [ih b h]
        constructor
        · intro hrest n' hn'
          rcases List.mem_cons.mp hn' with h1 | h1
          · subst h1
            exact ⟨net, s, hnet, hsup, hpeq⟩
          · exact hrest n' h1
        · intro hall n' hn'
          exact hall n' (List.mem_cons_of_mem _ hn')
      · rename_i hpeq
        simp only [Option.some.injEq] at h
        rw [← h]
        constructor
        · intro hfalse
          cases hfalse
        · intro hall
          obtain ⟨net', s', hnet', hsup', hpeq'⟩ :=
            hall n (List.mem_cons_self _ _)
          rw [hnet] at hnet'
          rw [hsup] at hsup'
          injection hnet' with hnet'
          injection hsup' with hsup'
          rw [← hnet', ← hsup'] at hpeq'
          exact absurd hpeq' hpeq
    · cases h

/-- C6, confirmed: with no initial flow supplied, `feasible_flow` returns
exactly the triple `(feasible, flow, flow_value)` where `flow` is the
max-flow of the augmented supply graph restricted to the original edges
(the synthetic `s_prime`/`t_prime` edges discarded), `flow_value` is that
max-flow's reported value, and `feasible` is true exactly when the net
outgoing flow of every original node equals its declared supply. The
decomposition holds whatever the value of `feasible`, so an infeasible
result still carries the computed flow. -/
theorem C6_feasible_flow_decomposition (nodes : List Node)
    (edges : List Edge) (capacities : Dict) (supply : SDict)
    (search : SearchFn) (fuel : Nat) (b : Bool) (f : Dict) (v : EV)
    (h : feasible_flow nodes edges capacities supply search fuel none =
      .ok (b, f, v)) :
    ∃ ep cp fp,
      buildSupplyLoop supply nodes (edges, capacities) = some (ep, cp) ∧
      ford_fulkerson search ep cp s_prime t_prime fuel none = .ok (fp, v) ∧
      restrictFlow fp edges [] = some f ∧
      (b = true ↔ ∀ n ∈ nodes, ∃ net s,
        netOutgoing f edges n = some net ∧
        alookup supply n = some s ∧ EV.peq net (EV.fin s) = true) := by
  simp only [feasible_flow] at h
  split at h
  · cases h
  · rename_i ep cp hbs
    split at h
    · cases h
    · cases h
    · rename_i fp vp hff
      split at h
      · cases h
      · rename_i f' hres
        split at h
        · cases h
        · rename_i b' hcons
          simp only [Res.ok.injEq, Prod.mk.injEq] at h
          obtain ⟨rfl, rfl, rfl⟩ := h
          exact ⟨ep, cp, fp, hbs, hff, hres,
            conservLoop_iff f' edges supply nodes b' hcons⟩

/-- C6 witness: the two-node supply instance `a = 3, b = -3` over the
single edge `(a, b)` of capacity `5`. -/
theorem C6_witness :
    ∃ ep cp fp,
      buildSupplyLoop [("a", 3), ("b", -3)] ["a", "b"]
          ([("a", "b")], [(("a", "b"), EV.fin 5)]) = some (ep, cp) ∧
      ford_fulkerson (find_augmenting_path_bfs 20) ep cp s_prime t_prime 10
          none = .ok (fp, EV.fin 3) ∧
      restrictFlow fp [("a", "b")] [] = some [(("a", "b"), EV.fin 3)] ∧
      (true = true ↔ ∀ n ∈ [("a" : Node), ("b" : Node)], ∃ net s,
        netOutgoing [(("a", "b"), EV.fin 3)] [("a", "b")] n = some net ∧
        alookup [("a", 3), ("b", -3)] n = some s ∧
        EV.peq net (EV.fin s) = true) :=
  C6_feasible_flow_decomposition ["a", "b"] [("a", "b")]
    [(("a", "b"), EV.fin 5)] [("a", 3), ("b", -3)]
    (find_augmenting_path_bfs 20) 10 true [(("a", "b"), EV.fin 3)]
    (EV.fin 3) (by decide)

/-! ## Claim C1: search validity and path lemmas -/

/-- Soundness property of a search strategy, used by the engine
invariants: any path it returns is nonempty, starts at the given source,
ends at the given sink, visits no node twice, and every consecutive pair
has a strictly positive entry in the residual-capacity dictionary. -/
def ValidSearch (search : SearchFn) : Prop :=
  ∀ es rc s t p, search es rc s t = some (some p) →
    p ≠ [] ∧ p.head? = some s ∧ p.getLast? = some t ∧ p.Nodup ∧
    ∀ e ∈ get_path_edges p, e ∈ es ∧ posCap rc e = true

theorem get_path_edges_mem_nodes :
    ∀ (p : List Node) (a b : Node), (a, b) ∈ get_path_edges p →
      a ∈ p ∧ b ∈ p := by
  intro p
  induction p with
  | nil => intro a b h; cases h
  | cons x rest ih =>
    intro a b h
    cases rest with
    | nil => cases h
    | cons y rest' =>
      simp only [get_path_edges] at h
      rcases List.mem_cons.mp h with h1 | h1
      · injection h1 with h2 h3
        subst h2
        subst h3
        exact ⟨List.mem_cons_self _ _,
          List.mem_cons_of_mem _ (List.mem_cons_self _ _)⟩
      · obtain ⟨ha, hb⟩ := ih a b h1
        exact ⟨List.mem_cons_of_mem _ ha, List.mem_cons_of_mem _ hb⟩

theorem get_path_edges_no_reverse :
    ∀ (p : List Node), p.Nodup → ∀ u v,
      (u, v) ∈ get_path_edges p → (v, u) ∈ get_path_edges p → False := by
  intro p
  induction p with
  | nil => intro _ u v h; cases h
  | cons x rest ih =>
    intro hnd u v h1 h2
    cases rest with
    | nil => cases h1
    | cons y rest' =>
      obtain ⟨hx, hnd'⟩ := List.nodup_cons.mp hnd
      simp only [get_path_edges] at h1 h2
      rcases List.mem_cons.mp h1 with ha | ha
      · injection ha with ha1 ha2
        subst ha1
        subst ha2
        rcases List.mem_cons.mp h2 with hb | hb
        · injection hb with hb1 _
          subst hb1
          exact hx (List.mem_cons_self _ _)
        · exact hx (get_path_edges_mem_nodes _ _ _ hb).2
      · rcases List.mem_cons.mp h2 with hb | hb
        · injection hb with hb1 hb2
          subst hb1
          subst hb2
          exact hx (get_path_edges_mem_nodes _ _ _ ha).2
        · exact ih hnd' u v ha hb

/-! ## Bottleneck-capacity fold lemmas -/

/-- The values a residual capacity takes on an augmenting path: `+inf`
or a strictly positive integer. -/
def PosVal (x : EV) : Prop :=
  x = EV.inf ∨ ∃ m : Int, x = EV.fin m ∧ 0 < m

/-- Order used for bottleneck reasoning, defined on finite values and
`+inf` only. -/
def evle (a b : EV) : Prop :=
  match a, b with
  | EV.fin m, EV.fin n => m ≤ n
  | _, EV.inf => True
  | _, _ => False

theorem evle_refl_posval (a : EV) (h : PosVal a) : evle a a := by
  rcases h with h | ⟨m, rfl, _⟩
  · rw [h]; trivial
  · exact le_refl m

theorem evle_trans_val (a b c : EV) (h1 : evle a b) (h2 : evle b c) :
    evle a c := by
  cases a <;> cases b <;> cases c <;>
    simp_all [evle] <;> omega

/-- One step of the bottleneck fold keeps the running minimum below both
arguments. -/
theorem pmin_step (x acc : EV) (hx : PosVal x) (hacc : PosVal acc) :
    PosVal (if EV.blt x acc then x else acc) ∧
    evle (if EV.blt x acc then x else acc) acc ∧
    evle (if EV.blt x acc then x else acc) x := by
  by_cases hb : EV.blt x acc = true
  · rw [if_pos hb]
    refine ⟨hx, ?_, evle_refl_posval x hx⟩
    rcases hx with rfl | ⟨m, rfl, _⟩ <;> rcases hacc with rfl | ⟨n, rfl, _⟩ <;>
      simp_all [EV.blt, evle] <;> omega
  · rw [if_neg hb]
    refine ⟨hacc, evle_refl_posval acc hacc, ?_⟩
    rcases hx with rfl | ⟨m, rfl, _⟩ <;> rcases hacc with rfl | ⟨n, rfl, _⟩ <;>
      simp_all [EV.blt, evle] <;> omega

theorem pc_fold_min (rc : Dict) :
    ∀ (pe : List Edge) (acc : EV),
      (∀ e ∈ pe, ∃ x, alookup rc e = some x ∧ PosVal x) →
      PosVal acc →
      PosVal (pe.foldl
        (fun pc e =>
          match alookup rc e with
          | some c => if EV.blt c pc then c else pc
          | none => pc) acc) ∧
      evle (pe.foldl
        (fun pc e =>
          match alookup rc e with
          | some c => if EV.blt c pc then c else pc
          | none => pc) acc) acc ∧
      ∀ e ∈ pe, ∀ x, alookup rc e = some x →
        evle (pe.foldl
          (fun pc e =>
            match alookup rc e with
            | some c => if EV.blt c pc then c else pc
            | none => pc) acc) x := by
  intro pe
  induction pe with
  | nil =>
    intro acc _ hacc
    exact ⟨hacc, evle_refl_posval acc hacc, fun e he => absurd he (by simp)⟩
  | cons e rest ih =>
    intro acc hall hacc
    obtain ⟨x, hx, hxp⟩ := hall e (List.mem_cons_self _ _)
    simp only [List.foldl_cons, hx]
    obtain ⟨hp1, hp2, hp3⟩ := pmin_step x acc hxp hacc
    obtain ⟨hq1, hq2, hq3⟩ := ih _
      (fun e' he' => hall e' (List.mem_cons_of_mem _ he')) hp1
    refine ⟨hq1, evle_trans_val _ _ _ hq2 hp2, ?_⟩
    intro e' he' y hy
    rcases List.mem_cons.mp he' with h1 | h1
    · subst h1
      rw [hx] at hy
      injection hy with hy
      subst hy
      exact evle_trans_val _ _ _ hq2 hp3
    · exact hq3 e' h1 y hy

theorem pc_fold_fin (rc : Dict) :
    ∀ (pe : List Edge) (acc : EV),
      (∀ e ∈ pe, ∃ x, alookup rc e = some x ∧ PosVal x) →
      PosVal acc →
      ((∃ m : Int, acc = EV.fin m) ∨
        ∃ e ∈ pe, ∃ m : Int, alookup rc e = some (EV.fin m)) →
      ∃ m : Int, pe.foldl
        (fun pc e =>
          match alookup rc e with
          | some c => if EV.blt c pc then c else pc
          | none => pc) acc = EV.fin m := by
  intro pe
  induction pe with
  | nil =>
    intro acc _ _ h
    rcases h with ⟨m, rfl⟩ | ⟨e, he, _⟩
    · exact ⟨m, rfl⟩
    · cases he
  | cons e rest ih =>
    intro acc hall hacc h
    obtain ⟨x, hx, hxp⟩ := hall e (List.mem_cons_self _ _)
    simp only [List.foldl_cons, hx]
    have hstep := (pmin_step x acc hxp hacc).1
    refine ih _ (fun e' he' => hall e' (List.mem_cons_of_mem _ he')) hstep ?_
    rcases h with ⟨m, rfl⟩ | ⟨e', he', m, hm⟩
    · left
      by_cases hb : EV.blt x (EV.fin m) = true
      · rw [if_pos hb]
        rcases hxp with rfl | ⟨n, rfl, _⟩
        · simp [EV.blt] at hb
        · exact ⟨n, rfl⟩
      · rw [if_neg hb]
        exact ⟨m, rfl⟩
    · rcases List.mem_cons.mp he' with h1 | h1
      · subst h1
        left
        rw [hx] at hm
        injection hm with hm
        subst hm
        by_cases hb : EV.blt (EV.fin m) acc = true
        · rw [if_pos hb]
          exact ⟨m, rfl⟩
        · rw [if_neg hb]
          rcases hacc with rfl | ⟨n, rfl, _⟩
          · simp [EV.blt] at hb
          · exact ⟨n, rfl⟩
      · exact Or.inr ⟨e', h1, m, hm⟩

/-! ## Search soundness -/

theorem getLastD_cons_ne (a : Node) (l : List Node) (d : Node)
    (h : l ≠ []) : (a :: l).getLastD d = l.getLastD d := by
  cases l with
  | nil => cases h rfl
  | cons b l' => rfl

theorem getLast?_eq_getLastD (p : List Node) (h : p ≠ []) :
    p.getLast? = some (p.getLastD ("")) := by
  obtain ⟨x, hx⟩ := Option.isSome_iff_exists.mp
    (List.getLast?_isSome.mpr h)
  rw [List.getLastD_eq_getLast?, hx]
  rfl

theorem get_path_edges_append_one :
    ∀ (p : List Node), p ≠ [] → ∀ v,
      get_path_edges (p ++ [v]) =
        get_path_edges p ++ [(p.getLastD (""), v)] := by
  intro p
  induction p with
  | nil => intro h; cases h rfl
  | cons a l ih =>
    intro _ v
    cases l with
    | nil => rfl
    | cons b l' =>
      have hne : (b :: l') ≠ [] := by simp
      show (a, b) :: get_path_edges ((b :: l') ++ [v]) = _
      rw [ih hne v, getLastD_cons_ne a (b :: l') ("") hne]
      rfl

theorem dropLast_append_one {α : Type} :
    ∀ (l : List α) (x : α), (l ++ [x]).dropLast = l := by
  intro l
  induction l with
  | nil => intro x; rfl
  | cons a l' ih =>
    intro x
    cases l' with
    | nil => rfl
    | cons b l'' =>
      show a :: ((b :: l'') ++ [x]).dropLast = _
      rw [ih x]

theorem get_path_edges_dropLast_mem (p : List Node) (e : Edge)
    (h : e ∈ get_path_edges p.dropLast) : e ∈ get_path_edges p := by
  by_cases hne : p = []
  · subst hne
    cases h
  · by_cases hd : p.dropLast = []
    · rw [hd] at h
      cases h
    · obtain ⟨q, x, rfl⟩ : ∃ q x, p = q ++ [x] :=
        ⟨p.dropLast, p.getLast hne, (List.dropLast_append_getLast hne).symm⟩
      rw [dropLast_append_one] at h hd
      rw [get_path_edges_append_one _ hd]
      exact List.mem_append_left _ h

/-- A path that a sound search may hand to the engine: nonempty, starts
at `s`, visits no node twice, and every consecutive pair has strictly
positive residual capacity. -/
def SPath (edges : List Edge) (rc : Dict) (s : Node) (q : List Node) :
    Prop :=
  q ≠ [] ∧ q.head? = some s ∧ q.Nodup ∧
  ∀ e ∈ get_path_edges q, e ∈ edges ∧ posCap rc e = true

theorem SPath_extend (edges : List Edge) (rc : Dict) (s : Node)
    (q : List Node) (v : Node)
    (hq : SPath edges rc s q) (hv : v ∉ q)
    (hpc : (q.getLastD (""), v) ∈ edges ∧
      posCap rc (q.getLastD (""), v) = true) :
    SPath edges rc s (q ++ [v]) := by
  obtain ⟨hne, hhd, hnd, hpos⟩ := hq
  refine ⟨by simp, ?_, ?_, ?_⟩
  · cases q with
    | nil => cases hne rfl
    | cons x l => exact hhd
  · refine List.Nodup.append hnd (List.nodup_singleton _) ?_
    intro a ha hav
    simp only [List.mem_singleton] at hav
    exact hv (hav ▸ ha)
  · intro e he
    rw [get_path_edges_append_one _ hne] at he
    rcases List.mem_append.mp he with h1 | h1
    · exact hpos e h1
    · simp only [List.mem_singleton] at h1
      exact h1 ▸ hpc

theorem bfsCands_mem (edges : List Edge) (rc : Dict) (closed : List Node)
    (cur v : Node) (h : v ∈ bfsCands edges rc closed cur) :
    (cur, v) ∈ edges ∧ posCap rc (cur, v) = true ∧ v ∉ closed := by
  unfold bfsCands at h
  simp only [List.mem_map, List.mem_filter, Bool.and_eq_true,
    decide_eq_true_eq, Bool.not_eq_true', decide_eq_false_iff_not] at h
  obtain ⟨e, ⟨he, ⟨h1, h2⟩, h3⟩, rfl⟩ := h
  have heq : e = (cur, e.2) := by rw [← h1]
  rw [heq] at he h2
  exact ⟨he, h2, h3⟩

theorem dfsCands_mem (edges : List Edge) (rc : Dict)
    (opn closed : List Node) (cur v : Node)
    (h : v ∈ dfsCands edges rc opn closed cur) :
    (cur, v) ∈ edges ∧ posCap rc (cur, v) = true ∧ v ∉ opn ∧
      v ∉ closed := by
  unfold dfsCands at h
  simp only [List.mem_map, List.mem_filter, Bool.and_eq_true,
    decide_eq_true_eq, Bool.not_eq_true', decide_eq_false_iff_not] at h
  obtain ⟨e, ⟨he, ⟨⟨h1, h2⟩, h3⟩, h4⟩, rfl⟩ := h
  have heq : e = (cur, e.2) := by rw [← h1]
  rw [heq] at he h2
  exact ⟨he, h2, h3, h4⟩

theorem enumCands_mem (edges : List Edge) (rc : Dict) (p : List Node)
    (cur v : Node) (h : v ∈ enumCands edges rc p cur) :
    (cur, v) ∈ edges ∧ posCap rc (cur, v) = true ∧ v ∉ p := by
  unfold enumCands at h
  simp only [List.mem_map, List.mem_filter, Bool.and_eq_true,
    decide_eq_true_eq, Bool.not_eq_true', decide_eq_false_iff_not] at h
  obtain ⟨e, ⟨he, ⟨h1, h2⟩, h3⟩, rfl⟩ := h
  have heq : e = (cur, e.2) := by rw [← h1]
  rw [heq] at he h2
  exact ⟨he, h2, h3⟩

theorem bfsLoop_sound (edges : List Edge) (rc : Dict) (s sink : Node) :
    ∀ (fuel : Nat) (closed : List Node) (queue : List (List Node))
      (p : List Node),
      (∀ q ∈ queue, SPath edges rc s q ∧ ∀ n ∈ q, n ∈ closed) →
      bfsLoop edges rc sink fuel closed queue = some (some p) →
      SPath edges rc s p ∧ p.getLastD ("") = sink := by
  intro fuel
  induction fuel with
  | zero => intro closed queue p _ h; cases h
  | succ fuel ih =>
    intro closed queue p hinv h
    cases queue with
    | nil => cases h
    | cons q rest =>
      simp only [bfsLoop] at h
      by_cases hcur : q.getLastD ("") = sink
      · rw [if_pos hcur] at h
        injection h with h
        injection h with h
        subst h
        exact ⟨(hinv q (List.mem_cons_self _ _)).1, hcur⟩
      · rw [if_neg hcur] at h
        refine ih _ _ p ?_ h
        intro q' hq'
        rcases List.mem_append.mp hq' with h1 | h1
        · obtain ⟨hs, hc⟩ := hinv q' (List.mem_cons_of_mem _ h1)
          exact ⟨hs, fun n hn => List.mem_append_left _ (hc n hn)⟩
        · simp only [List.mem_map] at h1
          obtain ⟨v, hv, rfl⟩ := h1
          obtain ⟨hed, hpc, hvc⟩ := bfsCands_mem edges rc closed _ v hv
          obtain ⟨hs, hc⟩ := hinv q (List.mem_cons_self _ _)
          refine ⟨SPath_extend edges rc s q v hs
            (fun hvq => hvc (hc v hvq)) ⟨hed, hpc⟩, ?_⟩
          intro n hn
          rcases List.mem_append.mp hn with h2 | h2
          · exact List.mem_append_left _ (hc n h2)
          · simp only [List.mem_singleton] at h2
            exact List.mem_append_right _ (h2 ▸ hv)

theorem dfsLoop_sound (edges : List Edge) (rc : Dict) (s sink : Node) :
    ∀ (fuel : Nat) (closed opn : List Node) (p : List Node),
      (opn = [] ∨ SPath edges rc s opn) →
      dfsLoop edges rc sink fuel closed opn = some (some p) →
      SPath edges rc s p ∧ p.getLastD ("") = sink := by
  intro fuel
  induction fuel with
  | zero => intro closed opn p _ h; cases h
  | succ fuel ih =>
    intro closed opn p hinv h
    cases opn with
    | nil => cases h
    | cons x o =>
      have hsp : SPath edges rc s (x :: o) := by
        rcases hinv with h1 | h1
        · cases h1
        · exact h1
      simp only [dfsLoop] at h
      by_cases hcur : (x :: o).getLastD ("") = sink
      · rw [if_pos hcur] at h
        injection h with h
        injection h with h
        subst h
        exact ⟨hsp, hcur⟩
      · rw [if_neg hcur] at h
        split at h
        · refine ih _ _ p ?_ h
          by_cases hd : (x :: o).dropLast = []
          · exact Or.inl hd
          · right
            obtain ⟨_, hhd, hnd, hpos⟩ := hsp
            refine ⟨hd, ?_, ?_, ?_⟩
            · cases o with
              | nil => simp at hd
              | cons y o' => exact hhd
            · exact (List.dropLast_sublist _).nodup hnd
            · intro e he
              exact hpos e (get_path_edges_dropLast_mem _ e he)
        · rename_i v tl hc
          refine ih _ _ p ?_ h
          have hv : v ∈ dfsCands edges rc (x :: o) closed
              ((x :: o).getLastD ("")) := by
            rw [hc]
            exact List.mem_cons_self _ _
          obtain ⟨hed, hpc, hvo, _⟩ :=
            dfsCands_mem edges rc _ closed _ v hv
          exact Or.inr (SPath_extend edges rc s (x :: o) v hsp hvo
            ⟨hed, hpc⟩)

theorem enumLoop_sound (edges : List Edge) (rc : Dict) (s sink : Node) :
    ∀ (fuel : Nat) (allPaths queue : List (List Node))
      (res : List (List Node)),
      (∀ q ∈ queue, SPath edges rc s q) →
      (∀ q ∈ allPaths, SPath edges rc s q ∧ q.getLastD ("") = sink) →
      enumLoop edges rc sink fuel allPaths queue = some res →
      ∀ q ∈ res, SPath edges rc s q ∧ q.getLastD ("") = sink := by
  intro fuel
  induction fuel with
  | zero => intro allPaths queue res _ _ h; cases h
  | succ fuel ih =>
    intro allPaths queue res hq hall h
    cases queue with
    | nil =>
      injection h with h
      subst h
      exact hall
    | cons q rest =>
      simp only [enumLoop] at h
      by_cases hcur : q.getLastD ("") = sink
      · rw [if_pos hcur] at h
        refine ih _ _ res (fun q' hq' => hq q' (List.mem_cons_of_mem _ hq'))
          ?_ h
        intro q' hq'
        rcases List.mem_append.mp hq' with h1 | h1
        · exact hall q' h1
        · simp only [List.mem_singleton] at h1
          exact h1 ▸ ⟨hq q (List.mem_cons_self _ _), hcur⟩
      · rw [if_neg hcur] at h
        refine ih _ _ res ?_ hall h
        intro q' hq'
        rcases List.mem_append.mp hq' with h1 | h1
        · exact hq q' (List.mem_cons_of_mem _ h1)
        · simp only [List.mem_map] at h1
          obtain ⟨v, hv, rfl⟩ := h1
          obtain ⟨hed, hpc, hvq⟩ := enumCands_mem edges rc q _ v hv
          exact SPath_extend edges rc s q v (hq q (List.mem_cons_self _ _))
            hvq ⟨hed, hpc⟩

theorem foldl_select_mem {α β : Type} (f : β × Option α → α → β × Option α)
    (hf : ∀ acc x, (f acc x).2 = acc.2 ∨ (f acc x).2 = some x) :
    ∀ (l : List α) (acc : β × Option α) (p : α),
      (l.foldl f acc).2 = some p → acc.2 = some p ∨ p ∈ l := by
  intro l
  induction l with
  | nil => intro acc p h; exact Or.inl h
  | cons x rest ih =>
    intro acc p h
    rcases ih (f acc x) p h with h1 | h1
    · rcases hf acc x with h2 | h2
      · exact Or.inl (h2 ▸ h1)
      · rw [h2] at h1
        injection h1 with h1
        exact Or.inr (h1 ▸ List.mem_cons_self _ _)
    · exact Or.inr (List.mem_cons_of_mem _ h1)

theorem selectMaxPath_mem (rc : Dict) (paths : List (List Node))
    (p : List Node) (h : selectMaxPath rc paths = some p) : p ∈ paths := by
  unfold selectMaxPath at h
  have hsel := foldl_select_mem
    (fun (acc : EV × Option (List Node)) (q : List Node) =>
      let pc := calculate_path_capacity rc (get_path_edges q)
      if EV.blt acc.1 pc then (pc, some q) else acc)
    (fun acc q => by
      dsimp only
      by_cases hb : EV.blt acc.1
          (calculate_path_capacity rc (get_path_edges q)) = true
      · rw [if_pos hb]
        exact Or.inr rfl
      · rw [if_neg hb]
        exact Or.inl rfl)
    paths ((EV.fin 0 : EV), (none : Option (List Node))) p h
  rcases hsel with h1 | h1
  · cases h1
  · exact h1

theorem selectMinPath_mem (rc : Dict) (paths : List (List Node))
    (p : List Node) (h : selectMinPath rc paths = some p) : p ∈ paths := by
  unfold selectMinPath at h
  have hsel := foldl_select_mem
    (fun (acc : EV × Option (List Node)) (q : List Node) =>
      let pc := calculate_path_capacity rc (get_path_edges q)
      if EV.blt pc acc.1 then (pc, some q) else acc)
    (fun acc q => by
      dsimp only
      by_cases hb : EV.blt (calculate_path_capacity rc
          (get_path_edges q)) acc.1 = true
      · rw [if_pos hb]
        exact Or.inr rfl
      · rw [if_neg hb]
        exact Or.inl rfl)
    paths ((EV.inf : EV), (none : Option (List Node))) p h
  rcases hsel with h1 | h1
  · cases h1
  · exact h1

theorem bfs_valid (sfuel : Nat) :
    ValidSearch (find_augmenting_path_bfs sfuel) := by
  intro es rc s t p h
  have hinit : ∀ q ∈ [[s]], SPath es rc s q ∧ ∀ n ∈ q, n ∈ [s] := by
    intro q hq
    simp only [List.mem_singleton] at hq
    subst hq
    exact ⟨⟨by simp, rfl, List.nodup_singleton _, fun e he => absurd he
      (by simp [get_path_edges])⟩, fun n hn => hn⟩
  obtain ⟨⟨hne, hhd, hnd, hpos⟩, hlast⟩ :=
    bfsLoop_sound es rc s t sfuel [s] [[s]] p hinit h
  exact ⟨hne, hhd, hlast ▸ getLast?_eq_getLastD p hne, hnd, hpos⟩

theorem dfs_valid (sfuel : Nat) :
    ValidSearch (find_augmenting_path_dfs sfuel) := by
  intro es rc s t p h
  have hinit : [s] = [] ∨ SPath es rc s [s] :=
    Or.inr ⟨by simp, rfl, List.nodup_singleton _, fun e he => absurd he
      (by simp [get_path_edges])⟩
  obtain ⟨⟨hne, hhd, hnd, hpos⟩, hlast⟩ :=
    dfsLoop_sound es rc s t sfuel [] [s] p hinit h
  exact ⟨hne, hhd, hlast ▸ getLast?_eq_getLastD p hne, hnd, hpos⟩

theorem enum_all_sound (es : List Edge) (rc : Dict) (s t : Node)
    (sfuel : Nat) (allPaths : List (List Node))
    (h : enumLoop es rc t sfuel [] [[s]] = some allPaths) :
    ∀ q ∈ allPaths, SPath es rc s q ∧ q.getLastD ("") = t := by
  refine enumLoop_sound es rc s t sfuel [] [[s]] allPaths ?_
    (fun q hq => absurd hq (by simp)) h
  intro q hq
  simp only [List.mem_singleton] at hq
  subst hq
  exact ⟨by simp, rfl, List.nodup_singleton _, fun e he => absurd he
    (by simp [get_path_edges])⟩

theorem max_valid (sfuel : Nat) :
    ValidSearch (find_augmenting_path_max sfuel) := by
  intro es rc s t p h
  unfold find_augmenting_path_max at h
  cases he : enumLoop es rc t sfuel [] [[s]] with
  | none => rw [he] at h; cases h
  | some allPaths =>
    rw [he] at h
    injection h with h
    have hp := selectMaxPath_mem rc allPaths p h
    obtain ⟨⟨hne, hhd, hnd, hpos⟩, hlast⟩ :=
      enum_all_sound es rc s t sfuel allPaths he p hp
    exact ⟨hne, hhd, hlast ▸ getLast?_eq_getLastD p hne, hnd, hpos⟩

theorem min_valid (sfuel : Nat) :
    ValidSearch (find_augmenting_path_min sfuel) := by
  intro es rc s t p h
  unfold find_augmenting_path_min at h
  cases he : enumLoop es rc t sfuel [] [[s]] with
  | none => rw [he] at h; cases h
  | some allPaths =>
    rw [he] at h
    injection h with h
    have hp := selectMinPath_mem rc allPaths p h
    obtain ⟨⟨hne, hhd, hnd, hpos⟩, hlast⟩ :=
      enum_all_sound es rc s t sfuel allPaths he p hp
    exact ⟨hne, hhd, hlast ▸ getLast?_eq_getLastD p hne, hnd, hpos⟩

/-! ## Augmentation-loop lemmas -/

/-- The value the augmentation loop of `ford_fulkerson` leaves in the
flow entry of an edge: add the path capacity if the edge lies on the
augmenting path, subtract it if its reverse does. -/
def augVal (pe : List Edge) (cap : EV) (e : Edge) (x : EV) : EV :=
  if (e.2, e.1) ∈ pe then (if e ∈ pe then x.add cap else x).sub cap
  else if e ∈ pe then x.add cap else x

theorem alookup_ainsert_isSome {κ α : Type} [DecidableEq κ]
    (d : List (κ × α)) (k k' : κ) (v : α)
    (h : (alookup d k).isSome = true) :
    (alookup (ainsert d k' v) k).isSome = true := by
  by_cases hk : k = k'
  · subst hk
    rw [alookup_ainsert_self]
    rfl
  · rw [alookup_ainsert_ne _ _ _ _ hk]
    exact h

theorem augmentStep1_lookup_ne (pe : List Edge) (cap : EV) (uv k : Edge)
    (flow flow1 : Dict) (h : augmentStep1 pe cap uv flow = some flow1)
    (hk : k ≠ uv) : alookup flow1 k = alookup flow k := by
  unfold augmentStep1 at h
  by_cases hm : uv ∈ pe
  · rw [if_pos hm] at h
    cases hx : alookup flow uv with
    | none => rw [hx] at h; cases h
    | some x =>
      rw [hx] at h
      injection h with h
      rw [← h]
      exact alookup_ainsert_ne _ _ _ _ hk
  · rw [if_neg hm] at h
    injection h with h
    rw [← h]

theorem augmentStep2_lookup_ne (pe : List Edge) (cap : EV) (uv k : Edge)
    (flow flow1 : Dict) (h : augmentStep2 pe cap uv flow = some flow1)
    (hk : k ≠ uv) : alookup flow1 k = alookup flow k := by
  unfold augmentStep2 at h
  by_cases hm : (uv.2, uv.1) ∈ pe
  · rw [if_pos hm] at h
    cases hx : alookup flow uv with
    | none => rw [hx] at h; cases h
    | some x =>
      rw [hx] at h
      injection h with h
      rw [← h]
      exact alookup_ainsert_ne _ _ _ _ hk
  · rw [if_neg hm] at h
    injection h with h
    rw [← h]

theorem augmentStep1_lookup_self (pe : List Edge) (cap : EV) (uv : Edge)
    (flow flow1 : Dict) (x : EV)
    (h : augmentStep1 pe cap uv flow = some flow1)
    (hx : alookup flow uv = some x) :
    alookup flow1 uv = some (if uv ∈ pe then x.add cap else x) := by
  unfold augmentStep1 at h
  by_cases hm : uv ∈ pe
  · rw [if_pos hm, hx] at h
    injection h with h
    rw [← h, if_pos hm]
    exact alookup_ainsert_self _ _ _
  · rw [if_neg hm] at h
    injection h with h
    rw [← h, if_neg hm]
    exact hx

theorem augmentStep2_lookup_self (pe : List Edge) (cap : EV) (uv : Edge)
    (flow flow1 : Dict) (x : EV)
    (h : augmentStep2 pe cap uv flow = some flow1)
    (hx : alookup flow uv = some x) :
    alookup flow1 uv = some (if (uv.2, uv.1) ∈ pe then x.sub cap else x) := by
  unfold augmentStep2 at h
  by_cases hm : (uv.2, uv.1) ∈ pe
  · rw [if_pos hm, hx] at h
    injection h with h
    rw [← h, if_pos hm]
    exact alookup_ainsert_self _ _ _
  · rw [if_neg hm] at h
    injection h with h
    rw [← h, if_neg hm]
    exact hx

theorem augmentStep1_ok (pe : List Edge) (cap : EV) (uv : Edge)
    (flow : Dict) (h : (alookup flow uv).isSome = true) :
    ∃ flow1, augmentStep1 pe cap uv flow = some flow1 := by
  unfold augmentStep1
  by_cases hm : uv ∈ pe
  · rw [if_pos hm]
    cases hx : alookup flow uv with
    | none => rw [hx] at h; cases h
    | some x => exact ⟨_, rfl⟩
  · rw [if_neg hm]
    exact ⟨flow, rfl⟩

theorem augmentStep2_ok (pe : List Edge) (cap : EV) (uv : Edge)
    (flow : Dict) (h : (alookup flow uv).isSome = true) :
    ∃ flow1, augmentStep2 pe cap uv flow = some flow1 := by
  unfold augmentStep2
  by_cases hm : (uv.2, uv.1) ∈ pe
  · rw [if_pos hm]
    cases hx : alookup flow uv with
    | none => rw [hx] at h; cases h
    | some x => exact ⟨_, rfl⟩
  · rw [if_neg hm]
    exact ⟨flow, rfl⟩

theorem augmentStep1_isSome (pe : List Edge) (cap : EV) (uv k : Edge)
    (flow flow1 : Dict) (h : augmentStep1 pe cap uv flow = some flow1)
    (hk : (alookup flow k).isSome = true) :
    (alookup flow1 k).isSome = true := by
  unfold augmentStep1 at h
  by_cases hm : uv ∈ pe
  · rw [if_pos hm] at h
    cases hx : alookup flow uv with
    | none => rw [hx] at h; cases h
    | some x =>
      rw [hx] at h
      injection h with h
      rw [← h]
      exact alookup_ainsert_isSome _ _ _ _ hk
  · rw [if_neg hm] at h
    injection h with h
    rw [← h]
    exact hk

theorem augmentStep2_isSome (pe : List Edge) (cap : EV) (uv k : Edge)
    (flow flow1 : Dict) (h : augmentStep2 pe cap uv flow = some flow1)
    (hk : (alookup flow k).isSome = true) :
    (alookup flow1 k).isSome = true := by
  unfold augmentStep2 at h
  by_cases hm : (uv.2, uv.1) ∈ pe
  · rw [if_pos hm] at h
    cases hx : alookup flow uv with
    | none => rw [hx] at h; cases h
    | some x =>
      rw [hx] at h
      injection h with h
      rw [← h]
      exact alookup_ainsert_isSome _ _ _ _ hk
  · rw [if_neg hm] at h
    injection h with h
    rw [← h]
    exact hk

theorem augmentLoop_ok (pe : List Edge) (cap : EV) :
    ∀ (es : List Edge) (flow : Dict),
      (∀ e ∈ es, (alookup flow e).isSome = true) →
      ∃ flow', augmentLoop pe cap es flow = some flow' := by
  intro es
  induction es with
  | nil => intro flow _; exact ⟨flow, rfl⟩
  | cons uv rest ih =>
    intro flow hsome
    obtain ⟨flow1, hs1⟩ := augmentStep1_ok pe cap uv flow
      (hsome uv (List.mem_cons_self _ _))
    obtain ⟨flow2, hs2⟩ := augmentStep2_ok pe cap uv flow1
      (augmentStep1_isSome pe cap uv uv flow flow1 hs1
        (hsome uv (List.mem_cons_self _ _)))
    obtain ⟨flow', hrec⟩ := ih flow2 (fun e he =>
      augmentStep2_isSome pe cap uv e flow1 flow2 hs2
        (augmentStep1_isSome pe cap uv e flow flow1 hs1
          (hsome e (List.mem_cons_of_mem _ he))))
    refine ⟨flow', ?_⟩
    simp only [augmentLoop, hs1, hs2]
    exact hrec

theorem augmentLoop_untouched (pe : List Edge) (cap : EV) :
    ∀ (es : List Edge) (flow flow' : Dict) (k : Edge),
      augmentLoop pe cap es flow = some flow' → k ∉ es →
      alookup flow' k = alookup flow k := by
  intro es
  induction es with
  | nil =>
    intro flow flow' k h _
    injection h with h
    rw [h]
  | cons uv rest ih =>
    intro flow flow' k h hk
    simp only [List.mem_cons, not_or] at hk
    simp only [augmentLoop] at h
    split at h
    · cases h
    · rename_i flow1 hs1
      split at h
      · cases h
      · rename_i flow2 hs2
        rw [ih flow2 flow' k h hk.2,
          augmentStep2_lookup_ne pe cap uv k flow1 flow2 hs2 hk.1,
          augmentStep1_lookup_ne pe cap uv k flow flow1 hs1 hk.1]

theorem augmentLoop_lookup (pe : List Edge) (cap : EV) :
    ∀ (es : List Edge), es.Nodup →
      ∀ (flow flow' : Dict),
      augmentLoop pe cap es flow = some flow' →
      ∀ e ∈ es, ∀ x, alookup flow e = some x →
        alookup flow' e = some (augVal pe cap e x) := by
  intro es
  induction es with
  | nil => intro _ flow flow' _ e he; cases he
  | cons uv rest ih =>
    intro hnd flow flow' h e he x hx
    obtain ⟨huv, hnd'⟩ := List.nodup_cons.mp hnd
    simp only [augmentLoop] at h
    split at h
    · cases h
    · rename_i flow1 hs1
      split at h
      · cases h
      · rename_i flow2 hs2
        rcases List.mem_cons.mp he with h1 | h1
        · subst h1
          rw [augmentLoop_untouched pe cap rest flow2 flow' e h huv]
          have h2 := augmentStep1_lookup_self pe cap e flow flow1 x hs1 hx
          have h3 := augmentStep2_lookup_self pe cap e flow1 flow2 _ hs2 h2
          rw [h3]
          rfl
        · have hne : e ≠ uv := fun hh => huv (hh ▸ h1)
          refine ih hnd' flow2 flow' h e h1 x ?_
          rw [augmentStep2_lookup_ne pe cap uv e flow1 flow2 hs2 hne,
            augmentStep1_lookup_ne pe cap uv e flow flow1 hs1 hne]
          exact hx

/-! ## Flow-bound invariant of the Ford-Fulkerson engine -/

theorem EV.add_fin_fin (a b : Int) :
    (EV.fin a).add (EV.fin b) = EV.fin (a + b) := rfl

theorem EV.sub_fin_fin (a b : Int) :
    (EV.fin a).sub (EV.fin b) = EV.fin (a - b) := by
  simp [EV.sub, EV.add, EV.neg, Int.sub_eq_add_neg]

theorem augVal_nil (cap : EV) (e : Edge) (x : EV) :
    augVal [] cap e x = x := by
  simp [augVal]

theorem get_path_edges_head (p : List Node) (s : Node)
    (hh : p.head? = some s) (e0 : Edge) (pe' : List Edge)
    (hpe : get_path_edges p = e0 :: pe') : e0.1 = s := by
  cases p with
  | nil => cases hh
  | cons a q =>
    injection hh with hh
    subst hh
    cases q with
    | nil => simp [get_path_edges] at hpe
    | cons b q' =>
      simp only [get_path_edges] at hpe
      injection hpe with h1 _
      rw [← h1]

theorem posCap_posval (rc : Dict) (e : Edge) (h : posCap rc e = true) :
    ∃ x, alookup rc e = some x ∧ PosVal x := by
  unfold posCap at h
  cases hx : alookup rc e with
  | none => rw [hx] at h; cases h
  | some x =>
    rw [hx] at h
    refine ⟨x, rfl, ?_⟩
    cases x with
    | fin m => exact Or.inr ⟨m, rfl, by simpa [EV.blt] using h⟩
    | inf => exact Or.inl rfl
    | ninf => simp [EV.blt] at h
    | nan => simp [EV.blt] at h

/-- The invariant the engine maintains: every edge has a finite,
non-negative flow entry that respects every finite capacity entry. -/
def FlowInBounds (capacities flow : Dict) (edges : List Edge) : Prop :=
  ∀ e ∈ edges, ∃ f : Int, alookup flow e = some (EV.fin f) ∧ 0 ≤ f ∧
    ∀ c : Int, alookup capacities e = some (EV.fin c) → f ≤ c

theorem augment_preserves_bounds (edges : List Edge)
    (capacities flow flow' : Dict) (source : Node) (rc : Dict)
    (p : List Node)
    (hND : edges.Nodup)
    (hAP : ∀ a b, (a, b) ∈ edges → (b, a) ∉ edges)
    (hsrcfin : ∀ x, (source, x) ∈ edges →
      ∃ c : Int, alookup capacities (source, x) = some (EV.fin c))
    (hFB : FlowInBounds capacities flow edges)
    (hcrg : crgLoop capacities flow edges [] = some rc)
    (_hpne : p ≠ []) (hphd : p.head? = some source) (hpnd : p.Nodup)
    (hppos : ∀ e ∈ get_path_edges p, posCap rc e = true)
    (haug : augmentLoop (get_path_edges p)
      (calculate_path_capacity rc (get_path_edges p)) edges flow =
        some flow') :
    FlowInBounds capacities flow' edges := by
  cases hpemk : get_path_edges p with
  | nil =>
    rw [hpemk] at haug
    intro e he
    obtain ⟨f0, hf0, hf0nn, hf0le⟩ := hFB e he
    refine ⟨f0, ?_, hf0nn, hf0le⟩
    rw [augmentLoop_lookup [] _ edges hND flow flow' haug e he _ hf0,
      augVal_nil]
  | cons e0 pe' =>
    rw [hpemk] at haug hppos
    have hpos' : ∀ e ∈ e0 :: pe', ∃ x, alookup rc e = some x ∧ PosVal x :=
      fun e he => posCap_posval rc e (hppos e he)
    have he0s : e0.1 = source := get_path_edges_head p source hphd e0 pe' hpemk
    obtain ⟨x0, hx0, hx0p⟩ := hpos' e0 (List.mem_cons_self _ _)
    have hx0some : (alookup rc e0).isSome = true := by rw [hx0]; rfl
    have hfin0 : ∃ m0 : Int, alookup rc e0 = some (EV.fin m0) := by
      rcases crgLoop_key_origin capacities flow edges [] rc hcrg e0 hx0some
        with h1 | ⟨e', he', h2 | h2⟩
      · simp [alookup] at h1
      · obtain ⟨u, v⟩ := e'
        subst h2
        have hu : u = source := he0s
        subst hu
        obtain ⟨c', f', hc', hf', hrcF, _⟩ :=
          crgLoop_lookup capacities flow edges hAP [] rc hcrg u v he'
        obtain ⟨cc, hcc⟩ := hsrcfin v he'
        rw [hc'] at hcc
        injection hcc with hcc
        subst hcc
        obtain ⟨f0, hf0, _, _⟩ := hFB (u, v) he'
        rw [hf'] at hf0
        injection hf0 with hf0
        subst hf0
        exact ⟨cc - f0, by rw [hrcF, EV.sub_fin_fin]⟩
      · obtain ⟨u, v⟩ := e'
        obtain ⟨c', f', hc', hf', _, hrcB⟩ :=
          crgLoop_lookup capacities flow edges hAP [] rc hcrg u v he'
        obtain ⟨f0, hf0, _, _⟩ := hFB (u, v) he'
        rw [hf'] at hf0
        injection hf0 with hf0
        subst hf0
        exact ⟨f0, by rw [h2, hrcB]⟩
    have hcap_eq : calculate_path_capacity rc (e0 :: pe') =
        (e0 :: pe').foldl (fun pc e => match alookup rc e with
          | some c => if EV.blt c pc then c else pc
          | none => pc) EV.inf := rfl
    obtain ⟨m, hm⟩ := pc_fold_fin rc (e0 :: pe') EV.inf hpos' (Or.inl rfl)
      (Or.inr ⟨e0, List.mem_cons_self _ _, hfin0⟩)
    obtain ⟨hPmin, _, hminle⟩ := pc_fold_min rc (e0 :: pe') EV.inf hpos'
      (Or.inl rfl)
    rw [hm] at hPmin hminle
    have hmpos : 0 < m := by
      rcases hPmin with h1 | ⟨m', hm', hmp⟩
      · cases h1
      · injection hm' with hmm
        omega
    have hpcap : calculate_path_capacity rc (e0 :: pe') = EV.fin m :=
      hcap_eq.trans hm
    rw [hpcap] at haug
    intro e he
    obtain ⟨u, v⟩ := e
    obtain ⟨f0, hf0, hf0nn, hf0le⟩ := hFB (u, v) he
    have hlook := augmentLoop_lookup (e0 :: pe') (EV.fin m) edges hND
      flow flow' haug (u, v) he (EV.fin f0) hf0
    obtain ⟨c', f', hc', hf', hrcF, hrcB⟩ :=
      crgLoop_lookup capacities flow edges hAP [] rc hcrg u v he
    rw [hf0] at hf'
    injection hf' with hf'
    subst hf'
    by_cases hmem : (u, v) ∈ (e0 :: pe')
    · have hrev : ((u, v).2, (u, v).1) ∉ (e0 :: pe') := fun hrev =>
        get_path_edges_no_reverse p hpnd u v (hpemk.symm ▸ hmem)
          (hpemk.symm ▸ hrev)
      unfold augVal at hlook
      rw [if_neg hrev, if_pos hmem, EV.add_fin_fin] at hlook
      refine ⟨f0 + m, hlook, by omega, ?_⟩
      intro c hcfin
      rw [hc'] at hcfin
      injection hcfin with hcfin
      subst hcfin
      rw [EV.sub_fin_fin] at hrcF
      have hle : m ≤ c - f0 := hminle (u, v) hmem _ hrcF
      omega
    · by_cases hrev : ((u, v).2, (u, v).1) ∈ (e0 :: pe')
      · unfold augVal at hlook
        rw [if_pos hrev, if_neg hmem, EV.sub_fin_fin] at hlook
        have hle : m ≤ f0 := hminle (v, u) hrev _ hrcB
        refine ⟨f0 - m, hlook, by omega, ?_⟩
        intro c hcfin
        have := hf0le c hcfin
        omega
      · unfold augVal at hlook
        rw [if_neg hrev, if_neg hmem] at hlook
        exact ⟨f0, hlook, hf0nn, hf0le⟩

theorem ffLoop_preserves_bounds (search : SearchFn) (edges : List Edge)
    (capacities : Dict) (source sink : Node)
    (hND : edges.Nodup)
    (hAP : ∀ a b, (a, b) ∈ edges → (b, a) ∉ edges)
    (hsrcfin : ∀ x, (source, x) ∈ edges →
      ∃ c : Int, alookup capacities (source, x) = some (EV.fin c))
    (hvalid : ValidSearch search) :
    ∀ (fuel : Nat) (flow flowR : Dict) (v : EV),
      FlowInBounds capacities flow edges →
      ffLoop search edges capacities source sink fuel flow =
        .ok (flowR, v) →
      FlowInBounds capacities flowR edges := by
  intro fuel
  induction fuel with
  | zero => intro flow flowR v _ h; cases h
  | succ fuel ih =>
    intro flow flowR v hFB h
    simp only [ffLoop] at h
    split at h
    · cases h
    · rename_i re rc hcrg2
      split at h
      · cases h
      · injection h with h1
        injection h1 with h2 h3
        subst h2
        exact hFB
      · rename_i pathNodes hsearch
        split at h
        · cases h
        · rename_i flow2 haug
          unfold construct_residual_graph at hcrg2
          split at hcrg2
          · rename_i rc0 hcl
            injection hcrg2 with hcrg2
            injection hcrg2 with hre hrc
            subst hre
            subst hrc
            obtain ⟨hne, hhd, _, hnd, hpos⟩ :=
              hvalid _ _ _ _ _ hsearch
            exact ih flow2 flowR v
              (augment_preserves_bounds edges capacities flow flow2 source
                rc0 pathNodes hND hAP hsrcfin hFB hcl hne hhd hnd
                (fun e he => (hpos e he).2) haug)
              h
          · cases hcrg2

theorem ford_fulkerson_bounds (search : SearchFn) (edges : List Edge)
    (capacities : Dict) (source sink : Node) (fuel : Nat)
    (flowR : Dict) (v : EV)
    (hND : edges.Nodup)
    (hAP : ∀ a b, (a, b) ∈ edges → (b, a) ∉ edges)
    (hsrcfin : ∀ x, (source, x) ∈ edges →
      ∃ c : Int, alookup capacities (source, x) = some (EV.fin c))
    (hcapnn : ∀ e ∈ edges, ∀ c : Int,
      alookup capacities e = some (EV.fin c) → 0 ≤ c)
    (hvalid : ValidSearch search)
    (h : ford_fulkerson search edges capacities source sink fuel none =
      .ok (flowR, v)) :
    FlowInBounds capacities flowR edges := by
  simp only [ford_fulkerson] at h
  exact ffLoop_preserves_bounds search edges capacities source sink
    hND hAP hsrcfin hvalid fuel (zeroFlow edges) flowR v
    (fun e he => ⟨0, zeroFlow_lookup edges e he, le_refl 0,
      fun c hc => hcapnn e he c hc⟩) h

/-! ## Capacity construction of `minimum_flow` -/

theorem sumVals_fin_nonneg (d : Dict) :
    ∀ (es : List Edge) (acc : Int), 0 ≤ acc →
      (∀ e ∈ es, ∃ l : Int, alookup d e = some (EV.fin l) ∧ 0 ≤ l) →
      ∃ t : Int, 0 ≤ t ∧
        es.foldl
          (fun acc e =>
            match acc, alookup d e with
            | some s, some x => some (s.add x)
            | _, _ => none)
          (some (EV.fin acc)) = some (EV.fin t) := by
  intro es
  induction es with
  | nil => intro acc hacc _; exact ⟨acc, hacc, rfl⟩
  | cons e rest ih =>
    intro acc hacc hall
    obtain ⟨l, hl, hlnn⟩ := hall e (List.mem_cons_self _ _)
    simp only [List.foldl_cons, hl]
    exact ih (acc + l) (by omega)
      (fun e' he' => hall e' (List.mem_cons_of_mem _ he'))

theorem sumVals_spec (d : Dict) (es : List Edge)
    (h : ∀ e ∈ es, ∃ l : Int, alookup d e = some (EV.fin l) ∧ 0 ≤ l) :
    ∃ t : Int, 0 ≤ t ∧ sumVals d es = some (EV.fin t) :=
  sumVals_fin_nonneg d es 0 (le_refl 0) h

theorem minFlowCapsNodes_spec (lower : Dict) (edges : List Edge)
    (hlfin : ∀ e ∈ edges, ∃ l : Int,
      alookup lower e = some (EV.fin l) ∧ 0 ≤ l) :
    ∀ (ns : List Node) (caps : Dict), ns.Nodup → s_prime ∉ ns →
      ∃ caps', minFlowCapsNodes lower edges ns caps = some caps' ∧
        (∀ k : Edge, (∀ n ∈ ns, k ≠ (s_prime, n) ∧ k ≠ (n, t_prime)) →
          alookup caps' k = alookup caps k) ∧
        ∀ n ∈ ns, (∃ sIn : Int, 0 ≤ sIn ∧
            alookup caps' (s_prime, n) = some (EV.fin sIn)) ∧
          ∃ sOut : Int, 0 ≤ sOut ∧
            alookup caps' (n, t_prime) = some (EV.fin sOut) := by
  intro ns
  induction ns with
  | nil =>
    intro caps _ _
    exact ⟨caps, rfl, fun k _ => rfl, fun n hn => absurd hn (by simp)⟩
  | cons n rest ih =>
    intro caps hnd hsp
    obtain ⟨hn, hnd'⟩ := List.nodup_cons.mp hnd
    have hsp' : s_prime ∉ rest := fun hh => hsp (List.mem_cons_of_mem _ hh)
    have hnsp : n ≠ s_prime := fun hh => hsp (hh ▸ List.mem_cons_self _ _)
    obtain ⟨tIn, htInn, hIn⟩ := sumVals_spec lower
      (edges.filter (fun e => decide (e.2 = n)))
      (fun e he => hlfin e (List.mem_filter.mp he).1)
    obtain ⟨tOut, htOnn, hOut⟩ := sumVals_spec lower
      (edges.filter (fun e => decide (e.1 = n)))
      (fun e he => hlfin e (List.mem_filter.mp he).1)
    obtain ⟨caps', hrec, huntouched, hvals⟩ := ih
      (ainsert (ainsert caps (s_prime, n) (EV.fin tIn)) (n, t_prime)
        (EV.fin tOut)) hnd' hsp'
    refine ⟨caps', ?_, ?_, ?_⟩
    · simp only [minFlowCapsNodes, hIn, hOut]
      exact hrec
    · intro k hk
      rw [huntouched k (fun n' hn' => hk n' (List.mem_cons_of_mem _ hn'))]
      obtain ⟨h1, h2⟩ := hk n (List.mem_cons_self _ _)
      rw [alookup_ainsert_ne _ _ _ _ h2, alookup_ainsert_ne _ _ _ _ h1]
    · intro n' hn'
      rcases List.mem_cons.mp hn' with h1 | h1
      · subst h1
        constructor
        · refine ⟨tIn, htInn, ?_⟩
          rw [huntouched (s_prime, n') ?_]
          · rw [alookup_ainsert_ne _ _ _ _ ?_, alookup_ainsert_self]
            intro hh
            injection hh with hh1 _
            exact hnsp hh1.symm
          · intro m hm
            constructor
            · intro hh
              injection hh with _ hh2
              subst hh2
              exact hn hm
            · intro hh
              injection hh with hh1 _
              exact hsp' (hh1 ▸ hm)
        · refine ⟨tOut, htOnn, ?_⟩
          rw [huntouched (n', t_prime) ?_]
          · rw [alookup_ainsert_self]
          · intro m hm
            constructor
            · intro hh
              injection hh with hh1 _
              exact hnsp hh1
            · intro hh
              injection hh with hh1 _
              subst hh1
              exact hn hm
      · exact hvals n' h1

theorem minFlowCapsEdges_spec (lower upper : Dict) :
    ∀ (es : List Edge) (caps : Dict), es.Nodup →
      (∀ e ∈ es, ∃ lb ub : Int, alookup lower e = some (EV.fin lb) ∧
        alookup upper e = some (EV.fin ub)) →
      ∃ caps', minFlowCapsEdges lower upper es caps = some caps' ∧
        (∀ k, k ∉ es → alookup caps' k = alookup caps k) ∧
        ∀ e ∈ es, ∀ lb ub : Int, alookup lower e = some (EV.fin lb) →
          alookup upper e = some (EV.fin ub) →
          alookup caps' e = some (EV.fin (ub - lb)) := by
  intro es
  induction es with
  | nil =>
    intro caps _ _
    exact ⟨caps, rfl, fun k _ => rfl, fun e he => absurd he (by simp)⟩
  | cons e rest ih =>
    intro caps hnd hall
    obtain ⟨he, hnd'⟩ := List.nodup_cons.mp hnd
    obtain ⟨lb, ub, hlb, hub⟩ := hall e (List.mem_cons_self _ _)
    obtain ⟨caps', hrec, huntouched, hvals⟩ := ih
      (ainsert caps e ((EV.fin ub).sub (EV.fin lb))) hnd'
      (fun e' he' => hall e' (List.mem_cons_of_mem _ he'))
    refine ⟨caps', ?_, ?_, ?_⟩
    · simp only [minFlowCapsEdges, hub, hlb]
      exact hrec
    · intro k hk
      simp only [List.mem_cons, not_or] at hk
      rw [huntouched k hk.2, alookup_ainsert_ne _ _ _ _ hk.1]
    · intro e' he' lb' ub' hlb' hub'
      rcases List.mem_cons.mp he' with h1 | h1
      · subst h1
        rw [hlb'] at hlb
        rw [hub'] at hub
        injection hlb with hlb
        injection hub with hub
        injection hlb with hlb
        injection hub with hub
        subst hlb
        subst hub
        rw [huntouched e' he, alookup_ainsert_self, EV.sub_fin_fin]
      · exact hvals e' h1 lb' ub' hlb' hub'

theorem buildFeasible_spec (flowP lower : Dict) :
    ∀ (es : List Edge) (acc : Dict), es.Nodup →
      (∀ e ∈ es, (alookup flowP e).isSome = true ∧
        (alookup lower e).isSome = true) →
      ∃ feas, buildFeasible flowP lower es acc = some feas ∧
        (∀ k, k ∉ es → alookup feas k = alookup acc k) ∧
        ∀ e ∈ es, ∀ fp lb, alookup flowP e = some fp →
          alookup lower e = some lb →
          alookup feas e = some (fp.add lb) := by
  intro es
  induction es with
  | nil =>
    intro acc _ _
    exact ⟨acc, rfl, fun k _ => rfl, fun e he => absurd he (by simp)⟩
  | cons e rest ih =>
    intro acc hnd hall
    obtain ⟨he, hnd'⟩ := List.nodup_cons.mp hnd
    obtain ⟨h1, h2⟩ := hall e (List.mem_cons_self _ _)
    obtain ⟨fp, hfp⟩ := Option.isSome_iff_exists.mp h1
    obtain ⟨lb, hlb⟩ := Option.isSome_iff_exists.mp h2
    obtain ⟨feas, hrec, huntouched, hvals⟩ := ih
      (ainsert acc e (fp.add lb)) hnd'
      (fun e' he' => hall e' (List.mem_cons_of_mem _ he'))
    refine ⟨feas, ?_, ?_, ?_⟩
    · simp only [buildFeasible, hfp, hlb]
      exact hrec
    · intro k hk
      simp only [List.mem_cons, not_or] at hk
      rw [huntouched k hk.2, alookup_ainsert_ne _ _ _ _ hk.1]
    · intro e' he' fp' lb' hfp' hlb'
      rcases List.mem_cons.mp he' with h1 | h1
      · subst h1
        rw [hfp'] at hfp
        rw [hlb'] at hlb
        injection hfp with hfp
        injection hlb with hlb
        subst hfp
        subst hlb
        rw [huntouched e' he, alookup_ainsert_self]
      · exact hvals e' h1 fp' lb' hfp' hlb'

/-! ## Structure of the augmented edge list of `minimum_flow` -/

theorem sprime_ne_tprime : s_prime ≠ t_prime := by
  simp [s_prime, t_prime]

theorem mem_synthNodes (nodes : List Node) (k : Edge) :
    k ∈ nodes.flatMap (fun n => [(s_prime, n), (n, t_prime)]) ↔
      ∃ n ∈ nodes, k = (s_prime, n) ∨ k = (n, t_prime) := by
  simp [List.mem_flatMap]

theorem synthNodes_nodup :
    ∀ (nodes : List Node), nodes.Nodup → s_prime ∉ nodes →
      (nodes.flatMap (fun n => [(s_prime, n), (n, t_prime)])).Nodup := by
  intro nodes
  induction nodes with
  | nil => intro _ _; simp
  | cons n rest ih =>
    intro hnd hsp
    obtain ⟨hn, hnd'⟩ := List.nodup_cons.mp hnd
    have hsp' : s_prime ∉ rest := fun hh => hsp (List.mem_cons_of_mem _ hh)
    have hnsp : n ≠ s_prime := fun hh => hsp (hh ▸ List.mem_cons_self _ _)
    simp only [List.flatMap_cons]
    refine List.Nodup.append ?_ (ih hnd' hsp') ?_
    · refine List.nodup_cons.mpr ⟨?_, List.nodup_singleton _⟩
      intro hh
      simp only [List.mem_singleton] at hh
      injection hh with hh1 _
      exact hnsp hh1.symm
    · intro k hk1 hk2
      simp only [List.mem_cons, List.not_mem_nil, or_false] at hk1
      rcases (mem_synthNodes rest k).mp hk2 with ⟨n', hn', h | h⟩
      · rcases hk1 with h1 | h1
        · rw [h] at h1
          injection h1 with _ h2
          exact hn (h2 ▸ hn')
        · rw [h] at h1
          injection h1 with h2 _
          exact hnsp (h2.symm)
      · rcases hk1 with h1 | h1
        · rw [h] at h1
          injection h1 with h2 _
          exact hsp' (h2 ▸ hn')
        · rw [h] at h1
          injection h1 with h2 _
          exact hn (h2 ▸ hn')

theorem mem_minFlowEdgesPrime (nodes : List Node) (edges : List Edge)
    (source sink : Node) (k : Edge) :
    k ∈ minFlowEdgesPrime nodes edges source sink ↔
      k ∈ edges ∨ (∃ n ∈ nodes, k = (s_prime, n) ∨ k = (n, t_prime)) ∨
        k = (sink, source) := by
  unfold minFlowEdgesPrime
  simp [List.mem_flatMap, or_assoc]

theorem minFlowEdgesPrime_nodup (nodes : List Node) (edges : List Edge)
    (source sink : Node)
    (hndN : nodes.Nodup) (hND : edges.Nodup)
    (hsp : s_prime ∉ nodes) (htp : t_prime ∉ nodes)
    (hep : ∀ u v, (u, v) ∈ edges → u ∈ nodes ∧ v ∈ nodes)
    (hsrc : source ∈ nodes) (hsnk : sink ∈ nodes)
    (hbs : (sink, source) ∉ edges) :
    (minFlowEdgesPrime nodes edges source sink).Nodup := by
  unfold minFlowEdgesPrime
  refine List.Nodup.append
    (List.Nodup.append hND (synthNodes_nodup nodes hndN hsp) ?_)
    (List.nodup_singleton _) ?_
  · intro k hk1 hk2
    obtain ⟨u, v⟩ := k
    obtain ⟨hu, hv⟩ := hep u v hk1
    rcases (mem_synthNodes nodes (u, v)).mp hk2 with ⟨n', _, h | h⟩
    · injection h with h1 _
      exact hsp (h1 ▸ hu)
    · injection h with _ h2
      exact htp (h2 ▸ hv)
  · intro k hk1 hk2
    simp only [List.mem_singleton] at hk2
    subst hk2
    rcases List.mem_append.mp hk1 with h1 | h1
    · exact hbs h1
    · rcases (mem_synthNodes nodes _).mp h1 with ⟨n', hn', h | h⟩
      · injection h with h2 _
        exact hsp (h2 ▸ hsnk)
      · injection h with _ h2
        exact htp (h2 ▸ hsrc)

theorem minFlowEdgesPrime_noAP (nodes : List Node) (edges : List Edge)
    (source sink : Node)
    (hAP : ∀ a b, (a, b) ∈ edges → (b, a) ∉ edges)
    (hsp : s_prime ∉ nodes) (htp : t_prime ∉ nodes)
    (hep : ∀ u v, (u, v) ∈ edges → u ∈ nodes ∧ v ∈ nodes)
    (hsrc : source ∈ nodes) (hsnk : sink ∈ nodes)
    (hss : source ≠ sink)
    (hbs2 : (source, sink) ∉ edges) :
    ∀ a b, (a, b) ∈ minFlowEdgesPrime nodes edges source sink →
      (b, a) ∉ minFlowEdgesPrime nodes edges source sink := by
  intro a b hab hba
  rw [mem_minFlowEdgesPrime] at hab hba
  rcases hab with hab | ⟨n, hn, hab | hab⟩ | hab
  · rcases hba with hba | ⟨n', hn', hba | hba⟩ | hba
    · exact hAP a b hab hba
    · injection hba with h1 _
      exact hsp (by rw [← h1]; exact (hep a b hab).2)
    · injection hba with _ h2
      exact htp (by rw [← h2]; exact (hep a b hab).1)
    · injection hba with h1 h2
      exact hbs2 (by rw [← h2, ← h1]; exact hab)
  · injection hab with ha hb
    rcases hba with hba | ⟨n', hn', hba | hba⟩ | hba
    · exact hsp (by rw [← ha]; exact (hep b a hba).2)
    · injection hba with h1 _
      exact hsp (by rw [← h1, hb]; exact hn)
    · injection hba with _ h2
      exact sprime_ne_tprime (by rw [← ha]; exact h2)
    · injection hba with _ h2
      exact hsp (by rw [← ha, h2]; exact hsrc)
  · injection hab with ha hb
    rcases hba with hba | ⟨n', hn', hba | hba⟩ | hba
    · exact htp (by rw [← hb]; exact (hep b a hba).1)
    · injection hba with h1 _
      exact sprime_ne_tprime (by rw [← h1]; exact hb)
    · injection hba with _ h2
      exact htp (by rw [← h2, ha]; exact hn)
    · injection hba with h1 _
      exact htp (by rw [← hb, h1]; exact hsnk)
  · injection hab with ha hb
    rcases hba with hba | ⟨n', hn', hba | hba⟩ | hba
    · exact hbs2 (by rw [← hb, ← ha]; exact hba)
    · injection hba with h1 _
      exact hsp (by rw [← h1, hb]; exact hsrc)
    · injection hba with _ h2
      exact htp (by rw [← h2, ha]; exact hsnk)
    · injection hba with h1 _
      exact hss (by rw [← hb]; exact h1)

/-! ## Flow-bound invariant of the reverse (min-flow) push -/

theorem crgMinLoop_key_origin (lower upper flow : Dict) :
    ∀ (es : List Edge) (rc0 rc' : Dict),
      crgMinLoop lower upper flow es rc0 = some rc' →
      ∀ k, (alookup rc' k).isSome = true →
        (alookup rc0 k).isSome = true ∨ ∃ e ∈ es, k = e ∨ k = (e.2, e.1) := by
  intro es
  induction es with
  | nil =>
    intro rc0 rc' h k hk
    simp only [crgMinLoop, Option.some.injEq] at h
    rw [← h] at hk
    exact Or.inl hk
  | cons e rest ih =>
    intro rc0 rc' h k hk
    obtain ⟨a, b⟩ := e
    simp only [crgMinLoop] at h
    cases hu : alookup upper (a, b) with
    | none => rw [hu] at h; cases h
    | some ub =>
      cases hl : alookup lower (a, b) with
      | none => rw [hu, hl] at h; cases h
      | some lb =>
        cases hf : alookup flow (a, b) with
        | none => rw [hu, hl, hf] at h; cases h
        | some f =>
          rw [hu, hl, hf] at h
          rcases ih _ _ h k hk with h1 | ⟨e', he', h2⟩
          · rw [alookup_isSome_iff] at h1
            rcases (mem_akeys_ainsert _ _ _ _).mp h1 with h2 | h2
            · rcases (mem_akeys_ainsert _ _ _ _).mp h2 with h3 | h3
              · exact Or.inl ((alookup_isSome_iff _ _).mpr h3)
              · exact Or.inr ⟨(a, b), List.mem_cons_self _ _, Or.inl h3⟩
            · exact Or.inr ⟨(a, b), List.mem_cons_self _ _, Or.inr h2⟩
          · exact Or.inr ⟨e', List.mem_cons_of_mem _ he', h2⟩

/-- The invariant of the reverse push: every edge has a finite flow entry
between its finite lower and upper bounds. -/
def FlowInBoundsMin (lower upper flow : Dict) (edges : List Edge) : Prop :=
  ∀ e ∈ edges, ∃ f lb ub : Int, alookup flow e = some (EV.fin f) ∧
    alookup lower e = some (EV.fin lb) ∧
    alookup upper e = some (EV.fin ub) ∧ lb ≤ f ∧ f ≤ ub

theorem augment_preserves_bounds_min (edges : List Edge)
    (lower upper flow flow' rc : Dict) (p : List Node)
    (hND : edges.Nodup)
    (hAP : ∀ a b, (a, b) ∈ edges → (b, a) ∉ edges)
    (hFB : FlowInBoundsMin lower upper flow edges)
    (hcrg : crgMinLoop lower upper flow edges [] = some rc)
    (hpnd : p.Nodup)
    (hppos : ∀ e ∈ get_path_edges p, posCap rc e = true)
    (haug : augmentLoop (get_path_edges p)
      (calculate_path_capacity rc (get_path_edges p)) edges flow =
        some flow') :
    FlowInBoundsMin lower upper flow' edges := by
  cases hpemk : get_path_edges p with
  | nil =>
    rw [hpemk] at haug
    intro e he
    obtain ⟨f, lb, ub, hf, hlb, hub, h1, h2⟩ := hFB e he
    refine ⟨f, lb, ub, ?_, hlb, hub, h1, h2⟩
    rw [augmentLoop_lookup [] _ edges hND flow flow' haug e he _ hf,
      augVal_nil]
  | cons e0 pe' =>
    rw [hpemk] at haug hppos
    have hpos' : ∀ e ∈ e0 :: pe', ∃ x, alookup rc e = some x ∧ PosVal x :=
      fun e he => posCap_posval rc e (hppos e he)
    obtain ⟨x0, hx0, hx0p⟩ := hpos' e0 (List.mem_cons_self _ _)
    have hx0some : (alookup rc e0).isSome = true := by rw [hx0]; rfl
    have hfin0 : ∃ m0 : Int, alookup rc e0 = some (EV.fin m0) := by
      rcases crgMinLoop_key_origin lower upper flow edges [] rc hcrg e0
        hx0some with h1 | ⟨e', he', h2 | h2⟩
      · simp [alookup] at h1
      · obtain ⟨u, v⟩ := e'
        subst h2
        obtain ⟨ub', lb', f', hub', hlb', hf', hrcF, _⟩ :=
          crgMinLoop_lookup lower upper flow edges hAP [] rc hcrg u v he'
        obtain ⟨f, lb, ub, hf, hlb, hub, _, _⟩ := hFB (u, v) he'
        rw [hf'] at hf
        rw [hub'] at hub
        injection hf with hf
        injection hub with hub
        subst hf
        subst hub
        exact ⟨ub - f, by rw [hrcF, EV.sub_fin_fin]⟩
      · obtain ⟨u, v⟩ := e'
        obtain ⟨ub', lb', f', hub', hlb', hf', _, hrcB⟩ :=
          crgMinLoop_lookup lower upper flow edges hAP [] rc hcrg u v he'
        obtain ⟨f, lb, ub, hf, hlb, hub, _, _⟩ := hFB (u, v) he'
        rw [hf'] at hf
        rw [hlb'] at hlb
        injection hf with hf
        injection hlb with hlb
        subst hf
        subst hlb
        exact ⟨f - lb, by rw [h2, hrcB, EV.sub_fin_fin]⟩
    have hcap_eq : calculate_path_capacity rc (e0 :: pe') =
        (e0 :: pe').foldl (fun pc e => match alookup rc e with
          | some c => if EV.blt c pc then c else pc
          | none => pc) EV.inf := rfl
    obtain ⟨m, hm⟩ := pc_fold_fin rc (e0 :: pe') EV.inf hpos' (Or.inl rfl)
      (Or.inr ⟨e0, List.mem_cons_self _ _, hfin0⟩)
    obtain ⟨hPmin, _, hminle⟩ := pc_fold_min rc (e0 :: pe') EV.inf hpos'
      (Or.inl rfl)
    rw [hm] at hPmin hminle
    have hmpos : 0 < m := by
      rcases hPmin with h1 | ⟨m', hm', hmp⟩
      · cases h1
      · injection hm' with hmm
        omega
    have hpcap : calculate_path_capacity rc (e0 :: pe') = EV.fin m :=
      hcap_eq.trans hm
    rw [hpcap] at haug
    intro e he
    obtain ⟨u, v⟩ := e
    obtain ⟨f, lb, ub, hf, hlb, hub, hlbf, hfub⟩ := hFB (u, v) he
    have hlook := augmentLoop_lookup (e0 :: pe') (EV.fin m) edges hND
      flow flow' haug (u, v) he (EV.fin f) hf
    obtain ⟨ub', lb', f', hub', hlb', hf', hrcF, hrcB⟩ :=
      crgMinLoop_lookup lower upper flow edges hAP [] rc hcrg u v he
    rw [hf] at hf'
    rw [hlb] at hlb'
    rw [hub] at hub'
    injection hf' with hf'
    injection hlb' with hlb'
    injection hub' with hub'
    subst hf'
    subst hlb'
    subst hub'
    by_cases hmem : (u, v) ∈ (e0 :: pe')
    · have hrev : ((u, v).2, (u, v).1) ∉ (e0 :: pe') := fun hrev =>
        get_path_edges_no_reverse p hpnd u v (hpemk.symm ▸ hmem)
          (hpemk.symm ▸ hrev)
      unfold augVal at hlook
      rw [if_neg hrev, if_pos hmem, EV.add_fin_fin] at hlook
      rw [EV.sub_fin_fin] at hrcF
      have hle : m ≤ ub - f := hminle (u, v) hmem _ hrcF
      exact ⟨f + m, lb, ub, hlook, hlb, hub, by omega, by omega⟩
    · by_cases hrev : ((u, v).2, (u, v).1) ∈ (e0 :: pe')
      · unfold augVal at hlook
        rw [if_pos hrev, if_neg hmem, EV.sub_fin_fin] at hlook
        rw [EV.sub_fin_fin] at hrcB
        have hle : m ≤ f - lb := hminle (v, u) hrev _ hrcB
        exact ⟨f - m, lb, ub, hlook, hlb, hub, by omega, by omega⟩
      · unfold augVal at hlook
        rw [if_neg hrev, if_neg hmem] at hlook
        exact ⟨f, lb, ub, hlook, hlb, hub, hlbf, hfub⟩

theorem ffMinLoop_preserves_bounds (search : SearchFn) (edges : List Edge)
    (lower upper : Dict) (source sink : Node)
    (hND : edges.Nodup)
    (hAP : ∀ a b, (a, b) ∈ edges → (b, a) ∉ edges)
    (hvalid : ValidSearch search) :
    ∀ (fuel : Nat) (flow flowR : Dict) (v : EV),
      FlowInBoundsMin lower upper flow edges →
      ffMinLoop search edges lower upper source sink fuel flow =
        .ok (flowR, v) →
      FlowInBoundsMin lower upper flowR edges := by
  intro fuel
  induction fuel with
  | zero => intro flow flowR v _ h; cases h
  | succ fuel ih =>
    intro flow flowR v hFB h
    simp only [ffMinLoop] at h
    split at h
    · cases h
    · rename_i re rc hcrg2
      split at h
      · cases h
      · injection h with h1
        injection h1 with h2 h3
        subst h2
        exact hFB
      · rename_i pathNodes hsearch
        split at h
        · cases h
        · rename_i flow2 haug
          unfold construct_residual_graph_min_flow at hcrg2
          split at hcrg2
          · rename_i rc0 hcl
            injection hcrg2 with hcrg2
            injection hcrg2 with hre hrc
            subst hre
            subst hrc
            obtain ⟨_, _, _, hnd, hpos⟩ := hvalid _ _ _ _ _ hsearch
            exact ih flow2 flowR v
              (augment_preserves_bounds_min edges lower upper flow flow2
                rc0 pathNodes hND hAP hFB hcl hnd
                (fun e he => (hpos e he).2) haug)
              h
          · cases hcrg2

theorem minimum_flow_bounds (nodes : List Node) (edges : List Edge)
    (lower upper : Dict) (source sink : Node) (search : SearchFn)
    (fuel : Nat) (mf : Dict) (val : EV)
    (hndN : nodes.Nodup) (hND : edges.Nodup)
    (hAP : ∀ a b, (a, b) ∈ edges → (b, a) ∉ edges)
    (hsp : s_prime ∉ nodes) (htp : t_prime ∉ nodes)
    (hep : ∀ u v, (u, v) ∈ edges → u ∈ nodes ∧ v ∈ nodes)
    (hsrc : source ∈ nodes) (hsnk : sink ∈ nodes) (hss : source ≠ sink)
    (hbs : (sink, source) ∉ edges) (hbs2 : (source, sink) ∉ edges)
    (hlu : ∀ e ∈ edges, ∃ lb ub : Int,
      alookup lower e = some (EV.fin lb) ∧
      alookup upper e = some (EV.fin ub) ∧ 0 ≤ lb ∧ lb ≤ ub)
    (hvalid : ValidSearch search)
    (h : minimum_flow nodes edges lower upper source sink search fuel none =
      .ok (mf, val)) :
    FlowInBoundsMin lower upper mf edges := by
  by_cases hedges : edges = []
  · subst hedges
    intro e he
    cases he
  have hlfin : ∀ e ∈ edges, ∃ l : Int,
      alookup lower e = some (EV.fin l) ∧ 0 ≤ l := by
    intro e he
    obtain ⟨lb, ub, h1, _, h3, _⟩ := hlu e he
    exact ⟨lb, h1, h3⟩
  obtain ⟨caps0, hcaps0, hc0un, hc0vals⟩ :=
    minFlowCapsNodes_spec lower edges hlfin nodes [] hndN hsp
  obtain ⟨caps1, hcaps1, hc1un, hc1vals⟩ :=
    minFlowCapsEdges_spec lower upper edges caps0 hND
      (fun e he => by
        obtain ⟨lb, ub, h1, h2, _, _⟩ := hlu e he
        exact ⟨lb, ub, h1, h2⟩)
  simp only [minimum_flow, hcaps0, hcaps1] at h
  have hcape : ∀ e ∈ edges, ∀ lb ub : Int,
      alookup lower e = some (EV.fin lb) →
      alookup upper e = some (EV.fin ub) →
      alookup (ainsert caps1 (sink, source) EV.inf) e =
        some (EV.fin (ub - lb)) := by
    intro e he lb ub hlb hub
    have hne : e ≠ (sink, source) := fun hh => hbs (hh ▸ he)
    rw [alookup_ainsert_ne _ _ _ _ hne]
    exact hc1vals e he lb ub hlb hub
  have hcapsp : ∀ n ∈ nodes, ∃ sIn : Int, 0 ≤ sIn ∧
      alookup (ainsert caps1 (sink, source) EV.inf) (s_prime, n) =
        some (EV.fin sIn) := by
    intro n hn
    obtain ⟨⟨sIn, hsin, hsineq⟩, _⟩ := hc0vals n hn
    refine ⟨sIn, hsin, ?_⟩
    have hne : ((s_prime : Node), n) ≠ (sink, source) := by
      intro hh
      injection hh with h1 _
      exact hsp (by rw [h1]; exact hsnk)
    rw [alookup_ainsert_ne _ _ _ _ hne,
      hc1un (s_prime, n) (fun hmem => hsp ((hep _ _ hmem).1))]
    exact hsineq
  have hcaptp : ∀ n ∈ nodes, ∃ sOut : Int, 0 ≤ sOut ∧
      alookup (ainsert caps1 (sink, source) EV.inf) (n, t_prime) =
        some (EV.fin sOut) := by
    intro n hn
    obtain ⟨_, sOut, hsout, hsouteq⟩ := hc0vals n hn
    refine ⟨sOut, hsout, ?_⟩
    have hne : (n, (t_prime : Node)) ≠ (sink, source) := by
      intro hh
      injection hh with _ h2
      exact htp (by rw [h2]; exact hsrc)
    rw [alookup_ainsert_ne _ _ _ _ hne,
      hc1un (n, t_prime) (fun hmem => htp ((hep _ _ hmem).2))]
    exact hsouteq
  have hsrcfin : ∀ x, ((s_prime : Node), x) ∈
      minFlowEdgesPrime nodes edges source sink →
      ∃ c : Int, alookup (ainsert caps1 (sink, source) EV.inf)
        (s_prime, x) = some (EV.fin c) := by
    intro x hx
    rcases (mem_minFlowEdgesPrime _ _ _ _ _).mp hx with
      h1 | ⟨n, hn, h1 | h1⟩ | h1
    · exact absurd ((hep _ _ h1).1) hsp
    · injection h1 with _ h2
      subst h2
      obtain ⟨sIn, _, heq⟩ := hcapsp x hn
      exact ⟨sIn, heq⟩
    · injection h1 with h2 _
      exact absurd (show s_prime ∈ nodes by rw [h2]; exact hn) hsp
    · injection h1 with h2 _
      exact absurd (show s_prime ∈ nodes by rw [h2]; exact hsnk) hsp
  have hcapnn : ∀ e ∈ minFlowEdgesPrime nodes edges source sink,
      ∀ c : Int, alookup (ainsert caps1 (sink, source) EV.inf) e =
        some (EV.fin c) → 0 ≤ c := by
    intro e he c hc
    rcases (mem_minFlowEdgesPrime _ _ _ _ _).mp he with
      h1 | ⟨n, hn, h1 | h1⟩ | h1
    · obtain ⟨lb, ub, hlb, hub, hlbnn, hlbub⟩ := hlu e h1
      rw [hcape e h1 lb ub hlb hub] at hc
      injection hc with hc
      injection hc with hc
      omega
    · subst h1
      obtain ⟨sIn, hnn, heq⟩ := hcapsp n hn
      rw [heq] at hc
      injection hc with hc
      injection hc with hc
      omega
    · subst h1
      obtain ⟨sOut, hnn, heq⟩ := hcaptp n hn
      rw [heq] at hc
      injection hc with hc
      injection hc with hc
      omega
    · subst h1
      rw [alookup_ainsert_self] at hc
      injection hc with hc
      cases hc
  cases hffp : ford_fulkerson search (minFlowEdgesPrime nodes edges source
      sink) (ainsert caps1 (sink, source) EV.inf) s_prime t_prime fuel
      none with
  | keyError => rw [hffp] at h; cases h
  | outOfFuel => rw [hffp] at h; cases h
  | ok pr =>
    obtain ⟨flowP, fval⟩ := pr
    simp only [hffp] at h
    have hPB := ford_fulkerson_bounds search
      (minFlowEdgesPrime nodes edges source sink)
      (ainsert caps1 (sink, source) EV.inf) s_prime t_prime fuel flowP fval
      (minFlowEdgesPrime_nodup nodes edges source sink hndN hND hsp htp
        hep hsrc hsnk hbs)
      (minFlowEdgesPrime_noAP nodes edges source sink hAP hsp htp hep
        hsrc hsnk hss hbs2)
      hsrcfin hcapnn hvalid hffp
    obtain ⟨feas, hfeas, hfun, hfvals⟩ := buildFeasible_spec flowP lower
      edges [] hND
      (fun e he => by
        obtain ⟨fp, hfp, _, _⟩ := hPB e
          ((mem_minFlowEdgesPrime _ _ _ _ _).mpr (Or.inl he))
        obtain ⟨lb, _, hlb, _, _, _⟩ := hlu e he
        exact ⟨by rw [hfp]; rfl, by rw [hlb]; rfl⟩)
    simp only [hfeas, if_true] at h
    have hfeasFB : FlowInBoundsMin lower upper feas edges := by
      intro e he
      obtain ⟨lb, ub, hlb, hub, hlbnn, hlbub⟩ := hlu e he
      obtain ⟨fp, hfp, hfpnn, hfple⟩ := hPB e
        ((mem_minFlowEdgesPrime _ _ _ _ _).mpr (Or.inl he))
      have hle : fp ≤ ub - lb := hfple (ub - lb) (hcape e he lb ub hlb hub)
      have hval := hfvals e he (EV.fin fp) (EV.fin lb) hfp hlb
      exact ⟨fp + lb, lb, ub, by rw [hval, EV.add_fin_fin], hlb, hub,
        by omega, by omega⟩
    obtain ⟨e1, he1⟩ := List.exists_mem_of_ne_nil edges hedges
    have hfne : feas ≠ [] := by
      intro hfe
      obtain ⟨fp, hfp, _, _⟩ := hPB e1
        ((mem_minFlowEdgesPrime _ _ _ _ _).mpr (Or.inl he1))
      obtain ⟨lb, _, hlb, _, _, _⟩ := hlu e1 he1
      have := hfvals e1 he1 (EV.fin fp) (EV.fin lb) hfp hlb
      rw [hfe] at this
      cases this
    cases hmfr : ford_fulkerson_min_flow search edges lower upper sink
        source fuel (some feas) with
    | keyError => rw [hmfr] at h; cases h
    | outOfFuel => rw [hmfr] at h; cases h
    | ok pr2 =>
      obtain ⟨mf2, val2⟩ := pr2
      simp only [hmfr] at h
      injection h with h
      injection h with h1 h2
      subst h1
      simp only [ford_fulkerson_min_flow, if_neg hfne] at hmfr
      exact ffMinLoop_preserves_bounds search edges lower upper sink source
        hND hAP hvalid fuel feas mf2 val2 hfeasFB hmfr

/-- C1, corrected, amended claim: when the edge list has no duplicate
edge and no antiparallel pair, every capacity on a source-outgoing edge
is a (finite) integer and every finite capacity is non-negative, a flow
returned by `ford_fulkerson` started from the all-zero flow assigns every
edge a non-negative integer no larger than any finite capacity of that
edge, for each of the four search strategies; and when additionally the
node list is duplicate-free, the reserved names `s_prime`/`t_prime` are
not nodes, all edge endpoints are nodes, source and sink are distinct
nodes, neither `(sink, source)` nor `(source, sink)` is an edge, and the
bounds are integers with `0 ≤ lower ≤ upper`, the flow returned by
`minimum_flow` satisfies `lower(e) ≤ flow(e) ≤ upper(e)` on every edge. -/
theorem C1_flow_bounds (search : SearchFn) (sfuel : Nat)
    (hsearch : search = find_augmenting_path_bfs sfuel ∨
      search = find_augmenting_path_dfs sfuel ∨
      search = find_augmenting_path_max sfuel ∨
      search = find_augmenting_path_min sfuel) :
    (∀ (edges : List Edge) (capacities : Dict) (source sink : Node)
      (fuel : Nat) (flowR : Dict) (v : EV),
      edges.Nodup →
      (∀ a b, (a, b) ∈ edges → (b, a) ∉ edges) →
      (∀ x, (source, x) ∈ edges →
        ∃ c : Int, alookup capacities (source, x) = some (EV.fin c)) →
      (∀ e ∈ edges, ∀ c : Int,
        alookup capacities e = some (EV.fin c) → 0 ≤ c) →
      ford_fulkerson search edges capacities source sink fuel none =
        .ok (flowR, v) →
      FlowInBounds capacities flowR edges) ∧
    (∀ (nodes : List Node) (edges : List Edge) (lower upper : Dict)
      (source sink : Node) (fuel : Nat) (mf : Dict) (val : EV),
      nodes.Nodup → edges.Nodup →
      (∀ a b, (a, b) ∈ edges → (b, a) ∉ edges) →
      s_prime ∉ nodes → t_prime ∉ nodes →
      (∀ u v, (u, v) ∈ edges → u ∈ nodes ∧ v ∈ nodes) →
      source ∈ nodes → sink ∈ nodes → source ≠ sink →
      (sink, source) ∉ edges → (source, sink) ∉ edges →
      (∀ e ∈ edges, ∃ lb ub : Int,
        alookup lower e = some (EV.fin lb) ∧
        alookup upper e = some (EV.fin ub) ∧ 0 ≤ lb ∧ lb ≤ ub) →
      minimum_flow nodes edges lower upper source sink search fuel none =
        .ok (mf, val) →
      FlowInBoundsMin lower upper mf edges) := by
  have hvalid : ValidSearch search := by
    rcases hsearch with rfl | rfl | rfl | rfl
    · exact bfs_valid sfuel
    · exact dfs_valid sfuel
    · exact max_valid sfuel
    · exact min_valid sfuel
  constructor
  · intro edges capacities source sink fuel flowR v hND hAP hsrcfin hcapnn h
    exact ford_fulkerson_bounds search edges capacities source sink fuel
      flowR v hND hAP hsrcfin hcapnn hvalid h
  · intro nodes edges lower upper source sink fuel mf val hndN hND hAP hsp
      htp hep hsrc hsnk hss hbs hbs2 hlu h
    exact minimum_flow_bounds nodes edges lower upper source sink search
      fuel mf val hndN hND hAP hsp htp hep hsrc hsnk hss hbs hbs2 hlu
      hvalid h

/-- C1 counterexample: four runs that violate the original claim. With a
duplicated edge the returned flow `2` exceeds the capacity `1`; with an
antiparallel pair the returned flow on `(a, b)` is `-7 < 0`; with an
infinite capacity the returned "flow" is `+inf`, not an integer at all;
and `minimum_flow` on the single edge `(s, t)` with bounds `[1, 3]`
returns flow `0`, below the lower bound, because the synthetic back edge
`(t, s)` collides with the antiparallel original edge in the residual
dictionary. -/
theorem C1_cx :
    (ford_fulkerson (find_augmenting_path_bfs 100)
        [(("a" : Node), ("b" : Node)), (("a" : Node), ("b" : Node))]
        [((("a" : Node), ("b" : Node)), EV.fin 1)] ("a") ("b") 10 none =
      .ok ([((("a" : Node), ("b" : Node)), EV.fin 2)], EV.fin 2) ∧
      ¬ ((2 : Int) ≤ 1)) ∧
    (ford_fulkerson (find_augmenting_path_bfs 100)
        [(("a" : Node), ("b" : Node)), (("b" : Node), ("a" : Node))]
        [((("a" : Node), ("b" : Node)), EV.fin 5),
          ((("b" : Node), ("a" : Node)), EV.fin 7)] ("b") ("a") 10 none =
      .ok ([((("a" : Node), ("b" : Node)), EV.fin (-7)),
          ((("b" : Node), ("a" : Node)), EV.fin 7)], EV.fin 14) ∧
      ¬ ((0 : Int) ≤ -7)) ∧
    (ford_fulkerson (find_augmenting_path_bfs 100)
        [(("a" : Node), ("b" : Node))]
        [((("a" : Node), ("b" : Node)), EV.inf)] ("a") ("b") 10 none =
      .ok ([((("a" : Node), ("b" : Node)), EV.inf)], EV.inf)) ∧
    (minimum_flow [("s" : Node), ("t" : Node)]
        [(("s" : Node), ("t" : Node))]
        [((("s" : Node), ("t" : Node)), EV.fin 1)]
        [((("s" : Node), ("t" : Node)), EV.fin 3)] ("s") ("t")
        (find_augmenting_path_bfs 100) 20 none =
      .ok ([((("s" : Node), ("t" : Node)), EV.fin 0)], EV.fin 0) ∧
      ¬ ((1 : Int) ≤ 0)) := by
  exact ⟨⟨by decide, by decide⟩, ⟨by decide, by decide⟩, by decide,
    by decide, by decide⟩

/-- C1 witness: the amended statement applied to the single-edge maximum
flow instance `s → t` with capacity `3` (flow `3` stays in bounds) and
to the two-edge minimum-flow instance `s → m → t` with bounds `[1, 3]`
(both flows end at the lower bound `1`). -/
theorem C1_witness :
    FlowInBounds [((("s" : Node), ("t" : Node)), EV.fin 3)]
      [((("s" : Node), ("t" : Node)), EV.fin 3)]
      [(("s" : Node), ("t" : Node))] ∧
    FlowInBoundsMin
      [((("s" : Node), ("m" : Node)), EV.fin 1),
        ((("m" : Node), ("t" : Node)), EV.fin 1)]
      [((("s" : Node), ("m" : Node)), EV.fin 3),
        ((("m" : Node), ("t" : Node)), EV.fin 3)]
      [((("s" : Node), ("m" : Node)), EV.fin 1),
        ((("m" : Node), ("t" : Node)), EV.fin 1)]
      [(("s" : Node), ("m" : Node)), (("m" : Node), ("t" : Node))] := by
  constructor
  · refine (C1_flow_bounds (find_augmenting_path_bfs 100) 100
      (Or.inl rfl)).1 [(("s" : Node), ("t" : Node))]
      [((("s" : Node), ("t" : Node)), EV.fin 3)] ("s") ("t") 10
      [((("s" : Node), ("t" : Node)), EV.fin 3)] (EV.fin 3)
      (by decide) ?_ ?_ ?_ (by decide)
    · intro a b hab hba
      simp only [List.mem_singleton] at hab hba
      injection hab with h1 h2
      subst h1
      subst h2
      injection hba with h3 _
      exact absurd h3 (by decide)
    · intro x hx
      simp only [List.mem_singleton] at hx
      injection hx with _ h2
      subst h2
      exact ⟨3, by decide⟩
    · intro e he c hc
      simp only [List.mem_singleton] at he
      subst he
      rw [show alookup [((("s" : Node), ("t" : Node)), EV.fin 3)]
        (("s" : Node), ("t" : Node)) = some (EV.fin 3) from by decide]
        at hc
      injection hc with hc
      injection hc with hc
      omega
  · refine (C1_flow_bounds (find_augmenting_path_bfs 100) 100
      (Or.inl rfl)).2 [("s" : Node), ("m" : Node), ("t" : Node)]
      [(("s" : Node), ("m" : Node)), (("m" : Node), ("t" : Node))]
      [((("s" : Node), ("m" : Node)), EV.fin 1),
        ((("m" : Node), ("t" : Node)), EV.fin 1)]
      [((("s" : Node), ("m" : Node)), EV.fin 3),
        ((("m" : Node), ("t" : Node)), EV.fin 3)] ("s") ("t") 20
      [((("s" : Node), ("m" : Node)), EV.fin 1),
        ((("m" : Node), ("t" : Node)), EV.fin 1)] (EV.fin 1)
      (by decide) (by decide) ?_ (by decide) (by decide) ?_
      (by decide) (by decide) (by decide) (by decide) (by decide) ?_
      (by decide)
    · intro a b hab hba
      simp only [List.mem_cons, List.not_mem_nil, or_false] at hab hba
      rcases hab with h1 | h1 <;> rcases hba with h2 | h2 <;>
        (injection h1 with h1a h1b; injection h2 with h2a h2b;
          subst h1a; subst h1b; simp_all)
    · intro u v huv
      simp only [List.mem_cons, List.not_mem_nil, or_false] at huv
      rcases huv with h1 | h1 <;>
        (injection h1 with h1a h1b; subst h1a; subst h1b; simp)
    · intro e he
      simp only [List.mem_cons, List.not_mem_nil, or_false] at he
      rcases he with h1 | h1 <;> subst h1
      · exact ⟨1, 3, by decide, by decide, by decide, by decide⟩
      · exact ⟨1, 3, by decide, by decide, by decide, by decide⟩

/-! ## Search completeness -/

theorem getLastD_append_one :
    ∀ (l : List Node) (x d : Node), (l ++ [x]).getLastD d = x := by
  intro l
  induction l with
  | nil => intro x d; rfl
  | cons a l' ih =>
    intro x d
    show (a :: (l' ++ [x])).getLastD d = x
    rw [getLastD_cons_ne a (l' ++ [x]) d (by simp), ih]

theorem getLastD_append_ne :
    ∀ (q r : List Node) (d : Node), r ≠ [] →
      (q ++ r).getLastD d = r.getLastD d := by
  intro q
  induction q with
  | nil => intro r d _; rfl
  | cons a q' ih =>
    intro r d hr
    show (a :: (q' ++ r)).getLastD d = r.getLastD d
    have hne : q' ++ r ≠ [] := by
      intro hh
      exact hr (List.append_eq_nil.mp hh).2
    rw [getLastD_cons_ne a (q' ++ r) d hne, ih r d hr]

theorem getLastD_mem :
    ∀ (l : List Node) (d : Node), l ≠ [] → l.getLastD d ∈ l := by
  intro l
  induction l with
  | nil => intro d h; cases h rfl
  | cons a l' ih =>
    intro d _
    cases hl : l' with
    | nil => exact List.mem_cons_self _ _
    | cons b l'' =>
      rw [← hl]
      have hne : l' ≠ [] := by rw [hl]; simp
      rw [getLastD_cons_ne a l' d hne]
      exact List.mem_cons_of_mem _ (ih d hne)

/-- A source-to-sink walk along listed edges of strictly positive
residual capacity. -/
def PosPath (edges : List Edge) (rc : Dict) (s t : Node)
    (p : List Node) : Prop :=
  p ≠ [] ∧ p.head? = some s ∧ p.getLast? = some t ∧
  ∀ e ∈ get_path_edges p, e ∈ edges ∧ posCap rc e = true

/-- A simple (duplicate-free) such path: what the claim C3 speaks of. -/
def SimplePosPath (edges : List Edge) (rc : Dict) (s t : Node)
    (p : List Node) : Prop :=
  PosPath edges rc s t p ∧ p.Nodup

theorem path_closure (edges : List Edge) (rc : Dict) (C : List Node)
    (hC : ∀ v ∈ C, ∀ w, (v, w) ∈ edges → posCap rc (v, w) = true →
      w ∈ C) :
    ∀ (p : List Node) (v : Node), p.head? = some v → v ∈ C →
      (∀ e ∈ get_path_edges p, e ∈ edges ∧ posCap rc e = true) →
      ∀ u, p.getLast? = some u → u ∈ C := by
  intro p
  induction p with
  | nil => intro v h; cases h
  | cons a q ih =>
    intro v hh hv hpos u hl
    injection hh with hh
    subst hh
    cases q with
    | nil =>
      rw [List.getLast?_singleton] at hl
      injection hl with hl
      rw [← hl]
      exact hv
    | cons b q' =>
      have hab := hpos (a, b)
        (show (a, b) ∈ (a, b) :: get_path_edges (b :: q') from
          List.mem_cons_self _ _)
      have hb : b ∈ C := hC a hv b hab.1 hab.2
      refine ih b rfl hb ?_ u ?_
      · intro e he
        exact hpos e (show e ∈ (a, b) :: get_path_edges (b :: q') from
          List.mem_cons_of_mem _ he)
      · rw [← List.getLast?_cons_cons]
        exact hl

theorem bfsLoop_complete (edges : List Edge) (rc : Dict) (s t : Node) :
    ∀ (fuel : Nat) (closed : List Node) (queue : List (List Node)),
      s ∈ closed →
      (∀ v ∈ closed, (∃ q ∈ queue, q.getLastD ("") = v) ∨
        ∀ w, (v, w) ∈ edges → posCap rc (v, w) = true → w ∈ closed) →
      (t ∈ closed → ∃ q ∈ queue, q.getLastD ("") = t) →
      bfsLoop edges rc t fuel closed queue = some none →
      ∃ C : List Node, s ∈ C ∧
        (∀ v ∈ C, ∀ w, (v, w) ∈ edges → posCap rc (v, w) = true →
          w ∈ C) ∧ t ∉ C := by
  intro fuel
  induction fuel with
  | zero => intro closed queue _ _ _ h; cases h
  | succ fuel ih =>
    intro closed queue hs hinv1 hinv2 h
    cases queue with
    | nil =>
      refine ⟨closed, hs, ?_, ?_⟩
      · intro v hv
        rcases hinv1 v hv with ⟨q, hq, _⟩ | h2
        · cases hq
        · exact h2
      · intro ht
        obtain ⟨q, hq, _⟩ := hinv2 ht
        cases hq
    | cons q rest =>
      simp only [bfsLoop] at h
      by_cases hcur : q.getLastD ("") = t
      · rw [if_pos hcur] at h
        injection h with h
        cases h
      · rw [if_neg hcur] at h
        refine ih _ _ (List.mem_append_left _ hs) ?_ ?_ h
        · intro v hv
          rcases List.mem_append.mp hv with hv1 | hv1
          · rcases hinv1 v hv1 with ⟨q', hq', hq'v⟩ | h2
            · rcases List.mem_cons.mp hq' with rfl | hq'r
              · right
                intro w hw hwpos
                by_cases hwc : w ∈ closed
                · exact List.mem_append_left _ hwc
                · refine List.mem_append_right _ ?_
                  simp only [bfsCands, List.mem_map, List.mem_filter,
                    Bool.and_eq_true, decide_eq_true_eq,
                    Bool.not_eq_true', decide_eq_false_iff_not]
                  exact ⟨(v, w), ⟨hw, ⟨hq'v.symm, hwpos⟩, hwc⟩, rfl⟩
              · exact Or.inl ⟨q', List.mem_append_left _ hq'r, hq'v⟩
            · right
              intro w hw hwp
              exact List.mem_append_left _ (h2 w hw hwp)
          · left
            refine ⟨q ++ [v], List.mem_append_right _ ?_,
              getLastD_append_one q v ("")⟩
            simp only [List.mem_map]
            exact ⟨v, hv1, rfl⟩
        · intro ht
          rcases List.mem_append.mp ht with h1 | h1
          · obtain ⟨q', hq', hq'v⟩ := hinv2 h1
            rcases List.mem_cons.mp hq' with rfl | hq'r
            · exact absurd hq'v hcur
            · exact ⟨q', List.mem_append_left _ hq'r, hq'v⟩
          · refine ⟨q ++ [t], List.mem_append_right _ ?_,
              getLastD_append_one q t ("")⟩
            simp only [List.mem_map]
            exact ⟨t, h1, rfl⟩

theorem bfs_none_complete (sfuel : Nat) (es : List Edge) (rc : Dict)
    (s t : Node)
    (h : find_augmenting_path_bfs sfuel es rc s t = some none) :
    ¬ ∃ p, PosPath es rc s t p := by
  rintro ⟨p, hne, hhd, hlast, hpos⟩
  obtain ⟨C, hsC, hcl, htC⟩ := bfsLoop_complete es rc s t sfuel [s] [[s]]
    (List.mem_singleton.mpr rfl)
    (fun v hv => Or.inl ⟨[s], List.mem_singleton.mpr rfl, by
      simp only [List.mem_singleton] at hv
      subst hv
      rfl⟩)
    (fun ht => ⟨[s], List.mem_singleton.mpr rfl, by
      simp only [List.mem_singleton] at ht
      subst ht
      rfl⟩)
    h
  exact htC (path_closure es rc C hcl p s hhd hsC hpos t hlast)

theorem dropLast_append_getLastD :
    ∀ (l : List Node) (d : Node), l ≠ [] →
      l.dropLast ++ [l.getLastD d] = l := by
  intro l
  induction l with
  | nil => intro d h; cases h rfl
  | cons a l' ih =>
    intro d _
    cases hl : l' with
    | nil => rfl
    | cons b l'' =>
      subst hl
      show a :: (b :: l'').dropLast ++ [(a :: b :: l'').getLastD d] = _
      rw [getLastD_cons_ne a (b :: l'') d (by simp), List.cons_append,
        ih d (by simp)]

theorem dfsLoop_complete (edges : List Edge) (rc : Dict) (s t : Node) :
    ∀ (fuel : Nat) (closed opn : List Node),
      (s ∈ closed ∨ (opn ≠ [] ∧ opn.head? = some s)) →
      (∀ v ∈ closed, ∀ w, (v, w) ∈ edges → posCap rc (v, w) = true →
        w ∈ closed ∨ w ∈ opn) →
      (t ∉ closed ∧ (t ∈ opn → opn.getLastD ("") = t)) →
      dfsLoop edges rc t fuel closed opn = some none →
      ∃ C : List Node, s ∈ C ∧
        (∀ v ∈ C, ∀ w, (v, w) ∈ edges → posCap rc (v, w) = true →
          w ∈ C) ∧ t ∉ C := by
  intro fuel
  induction fuel with
  | zero => intro closed opn _ _ _ h; cases h
  | succ fuel ih =>
    intro closed opn hD3 hD1 hD2 h
    cases opn with
    | nil =>
      refine ⟨closed, ?_, ?_, hD2.1⟩
      · rcases hD3 with h1 | ⟨h1, _⟩
        · exact h1
        · cases h1 rfl
      · intro v hv w hw hwp
        rcases hD1 v hv w hw hwp with h1 | h1
        · exact h1
        · cases h1
    | cons x o =>
      simp only [dfsLoop] at h
      by_cases hcur : (x :: o).getLastD ("") = t
      · rw [if_pos hcur] at h
        injection h with h
        cases h
      · rw [if_neg hcur] at h
        have hop : (x :: o).dropLast ++ [(x :: o).getLastD ("")] =
            x :: o := dropLast_append_getLastD (x :: o) ("") (by simp)
        split at h
        · rename_i hcands
          have hsucc : ∀ w, ((x :: o).getLastD (""), w) ∈ edges →
              posCap rc ((x :: o).getLastD (""), w) = true →
              w ∈ (x :: o) ∨ w ∈ closed := by
            intro w hw hwp
            by_cases h1 : w ∈ (x :: o)
            · exact Or.inl h1
            by_cases h2 : w ∈ closed
            · exact Or.inr h2
            exfalso
            have hmem : w ∈ dfsCands edges rc (x :: o) closed
                ((x :: o).getLastD ("")) := by
              simp only [dfsCands, List.mem_map, List.mem_filter,
                Bool.and_eq_true, decide_eq_true_eq, Bool.not_eq_true',
                decide_eq_false_iff_not]
              exact ⟨((x :: o).getLastD (""), w), ⟨hw, ⟨⟨rfl, hwp⟩, h1⟩,
                h2⟩, rfl⟩
            rw [hcands] at hmem
            cases hmem
          refine ih _ _ ?_ ?_ ?_ h
          · rcases hD3 with h1 | ⟨_, h2⟩
            · exact Or.inl (List.mem_append_left _ h1)
            · injection h2 with h2
              cases o with
              | nil =>
                left
                refine List.mem_append_right _ ?_
                rw [← h2]
                exact List.mem_cons_self _ _
              | cons y o' =>
                right
                refine ⟨by simp, ?_⟩
                show (x :: (y :: o').dropLast).head? = some s
                rw [← h2]
                rfl
          · intro v hv w hw hwp
            have hsplit : w ∈ (x :: o) →
                w ∈ (x :: o).dropLast ∨
                  w ∈ closed ++ [(x :: o).getLastD ("")] := by
              intro hwo
              rw [← hop] at hwo
              rcases List.mem_append.mp hwo with h1 | h1
              · exact Or.inl h1
              · exact Or.inr (List.mem_append_right _ h1)
            rcases List.mem_append.mp hv with hv1 | hv1
            · rcases hD1 v hv1 w hw hwp with h1 | h1
              · exact Or.inl (List.mem_append_left _ h1)
              · rcases hsplit h1 with h2 | h2
                · exact Or.inr h2
                · exact Or.inl h2
            · simp only [List.mem_singleton] at hv1
              subst hv1
              rcases hsucc w hw hwp with h1 | h1
              · rcases hsplit h1 with h2 | h2
                · exact Or.inr h2
                · exact Or.inl h2
              · exact Or.inl (List.mem_append_left _ h1)
          · constructor
            · intro htc
              rcases List.mem_append.mp htc with h1 | h1
              · exact hD2.1 h1
              · simp only [List.mem_singleton] at h1
                exact hcur h1.symm
            · intro htd
              have hto : t ∈ (x :: o) := by
                rw [← hop]
                exact List.mem_append_left _ htd
              exact absurd (hD2.2 hto) hcur
        · rename_i v tl hcands
          have hv : v ∈ dfsCands edges rc (x :: o) closed
              ((x :: o).getLastD ("")) := by
            rw [hcands]
            exact List.mem_cons_self _ _
          refine ih _ _ ?_ ?_ ?_ h
          · rcases hD3 with h1 | ⟨_, h2⟩
            · exact Or.inl h1
            · refine Or.inr ⟨by simp, ?_⟩
              injection h2 with h2
              rw [← h2]
              rfl
          · intro v' hv' w hw hwp
            rcases hD1 v' hv' w hw hwp with h1 | h1
            · exact Or.inl h1
            · exact Or.inr (List.mem_append_left _ h1)
          · refine ⟨hD2.1, ?_⟩
            intro hto
            rcases List.mem_append.mp hto with h1 | h1
            · exact absurd (hD2.2 h1) hcur
            · simp only [List.mem_singleton] at h1
              rw [getLastD_append_one, h1]

theorem dfs_none_complete (sfuel : Nat) (es : List Edge) (rc : Dict)
    (s t : Node)
    (h : find_augmenting_path_dfs sfuel es rc s t = some none) :
    ¬ ∃ p, PosPath es rc s t p := by
  rintro ⟨p, hne, hhd, hlast, hpos⟩
  obtain ⟨C, hsC, hcl, htC⟩ := dfsLoop_complete es rc s t sfuel [] [s]
    (Or.inr ⟨by simp, rfl⟩)
    (fun v hv => absurd hv (List.not_mem_nil v))
    ⟨List.not_mem_nil t, fun ht => by
      simp only [List.mem_singleton] at ht
      subst ht
      rfl⟩
    h
  exact htC (path_closure es rc C hcl p s hhd hsC hpos t hlast)

/-- Own prefix predicate: the first list extended by some remainder
gives the second. -/
def IsPref {α : Type} (l1 l2 : List α) : Prop := ∃ r, l1 ++ r = l2

theorem gpe_mem_join :
    ∀ (q : List Node) (w : Node) (r : List Node), q ≠ [] →
      (q.getLastD (""), w) ∈ get_path_edges (q ++ w :: r) := by
  intro q
  induction q with
  | nil => intro w r h; cases h rfl
  | cons a q' ih =>
    intro w r _
    cases hq : q' with
    | nil =>
      show ((a :: []).getLastD (""), w) ∈
        (a, w) :: get_path_edges (w :: r)
      exact List.mem_cons_self _ _
    | cons b q'' =>
      subst hq
      rw [getLastD_cons_ne a (b :: q'') ("") (by simp)]
      show ((b :: q'').getLastD (""), w) ∈
        (a, b) :: get_path_edges ((b :: q'') ++ w :: r)
      exact List.mem_cons_of_mem _ (ih w r (by simp))

theorem pref_ends_eq (q P : List Node) (t : Node)
    (hq : IsPref q P) (hqne : q ≠ []) (hqt : q.getLastD ("") = t)
    (hPt : P.getLastD ("") = t) (hnd : P.Nodup) : q = P := by
  obtain ⟨r, hr⟩ := hq
  cases hrr : r with
  | nil =>
    rw [hrr, List.append_nil] at hr
    exact hr
  | cons c r' =>
    subst hrr
    exfalso
    have ht_q : t ∈ q := by
      rw [← hqt]
      exact getLastD_mem q ("") hqne
    have ht_r : t ∈ (c :: r') := by
      rw [← hPt, ← hr, getLastD_append_ne q (c :: r') ("") (by simp)]
      exact getLastD_mem _ ("") (by simp)
    rw [← hr] at hnd
    exact (List.nodup_append.mp hnd).2.2 ht_q ht_r

theorem enumLoop_complete (edges : List Edge) (rc : Dict) (s t : Node) :
    ∀ (fuel : Nat) (allPaths queue : List (List Node))
      (res : List (List Node)),
      (∀ q ∈ queue, q ≠ []) →
      enumLoop edges rc t fuel allPaths queue = some res →
      ∀ P, SimplePosPath edges rc s t P →
        (P ∈ allPaths ∨ ∃ q ∈ queue, IsPref q P) → P ∈ res := by
  intro fuel
  induction fuel with
  | zero => intro allPaths queue res _ h; cases h
  | succ fuel ih =>
    intro allPaths queue res hqne h P hP hPin
    cases queue with
    | nil =>
      injection h with h
      subst h
      rcases hPin with h1 | ⟨q, hq, _⟩
      · exact h1
      · cases hq
    | cons q rest =>
      simp only [enumLoop] at h
      obtain ⟨⟨hPne, hPhd, hPlast, hPpos⟩, hPnd⟩ := hP
      have hPlastD : P.getLastD ("") = t := by
        have := getLast?_eq_getLastD P hPne
        rw [hPlast] at this
        injection this with this
        exact this.symm
      by_cases hcur : q.getLastD ("") = t
      · rw [if_pos hcur] at h
        refine ih _ _ res
          (fun q' hq' => hqne q' (List.mem_cons_of_mem _ hq')) h P
          ⟨⟨hPne, hPhd, hPlast, hPpos⟩, hPnd⟩ ?_
        rcases hPin with h1 | ⟨q', hq', hpref⟩
        · exact Or.inl (List.mem_append_left _ h1)
        · rcases List.mem_cons.mp hq' with heq | hq'r
          · left
            rw [heq] at hpref
            refine List.mem_append_right _ ?_
            rw [List.mem_singleton]
            exact (pref_ends_eq q P t hpref
              (hqne q (List.mem_cons_self _ _)) hcur hPlastD hPnd).symm
          · exact Or.inr ⟨q', hq'r, hpref⟩
      · rw [if_neg hcur] at h
        refine ih _ _ res ?_ h P ⟨⟨hPne, hPhd, hPlast, hPpos⟩, hPnd⟩ ?_
        · intro q' hq'
          rcases List.mem_append.mp hq' with h1 | h1
          · exact hqne q' (List.mem_cons_of_mem _ h1)
          · simp only [List.mem_map] at h1
            obtain ⟨v, _, rfl⟩ := h1
            simp
        · rcases hPin with h1 | ⟨q', hq', hpref⟩
          · exact Or.inl h1
          · rcases List.mem_cons.mp hq' with heq | hq'r
            · right
              rw [heq] at hpref
              obtain ⟨r, hr⟩ := hpref
              cases hrr : r with
              | nil =>
                exfalso
                rw [hrr, List.append_nil] at hr
                subst hr
                exact hcur hPlastD
              | cons w r' =>
                subst hrr
                have hqnempty := hqne q (List.mem_cons_self _ _)
                have hedge : (q.getLastD (""), w) ∈ get_path_edges P := by
                  rw [← hr]
                  exact gpe_mem_join q w r' hqnempty
                obtain ⟨hein, hepos⟩ := hPpos _ hedge
                have hwq : w ∉ q := by
                  intro hwq
                  rw [← hr] at hPnd
                  exact (List.nodup_append.mp hPnd).2.2 hwq
                    (List.mem_cons_self _ _)
                refine ⟨q ++ [w], ?_,
                  ⟨r', by rw [List.append_assoc]; exact hr⟩⟩
                refine List.mem_append_right _ ?_
                simp only [List.mem_map]
                refine ⟨w, ?_, rfl⟩
                simp only [enumCands, List.mem_map, List.mem_filter,
                  Bool.and_eq_true, decide_eq_true_eq, Bool.not_eq_true',
                  decide_eq_false_iff_not]
                exact ⟨(q.getLastD (""), w), ⟨hein, ⟨rfl, hepos⟩, hwq⟩, rfl⟩
            · exact Or.inr ⟨q', List.mem_append_left _ hq'r, hpref⟩

theorem selectMax_fold_isSome (rc : Dict) :
    ∀ (paths : List (List Node)) (acc : EV × Option (List Node)),
      acc.2.isSome = true →
      ((paths.foldl (fun acc p =>
        if EV.blt acc.1 (calculate_path_capacity rc (get_path_edges p))
        then (calculate_path_capacity rc (get_path_edges p), some p)
        else acc) acc).2).isSome = true := by
  intro paths
  induction paths with
  | nil => intro acc h; exact h
  | cons q rest ih =>
    intro acc h
    rw [List.foldl_cons]
    refine ih _ ?_
    by_cases hb : EV.blt acc.1
        (calculate_path_capacity rc (get_path_edges q)) = true
    · rw [if_pos hb]
      rfl
    · rw [if_neg hb]
      exact h

theorem selectMin_fold_isSome (rc : Dict) :
    ∀ (paths : List (List Node)) (acc : EV × Option (List Node)),
      acc.2.isSome = true →
      ((paths.foldl (fun acc p =>
        if EV.blt (calculate_path_capacity rc (get_path_edges p)) acc.1
        then (calculate_path_capacity rc (get_path_edges p), some p)
        else acc) acc).2).isSome = true := by
  intro paths
  induction paths with
  | nil => intro acc h; exact h
  | cons q rest ih =>
    intro acc h
    rw [List.foldl_cons]
    refine ih _ ?_
    by_cases hb : EV.blt (calculate_path_capacity rc (get_path_edges q))
        acc.1 = true
    · rw [if_pos hb]
      rfl
    · rw [if_neg hb]
      exact h

theorem selectMaxPath_none (rc : Dict) :
    ∀ (paths : List (List Node)), selectMaxPath rc paths = none →
      ∀ p ∈ paths, EV.blt (EV.fin 0)
        (calculate_path_capacity rc (get_path_edges p)) = false := by
  intro paths
  induction paths with
  | nil => intro _ p hp; cases hp
  | cons q rest ih =>
    intro h p hp
    unfold selectMaxPath at h
    rw [List.foldl_cons] at h
    dsimp only at h
    by_cases hb : EV.blt (EV.fin 0)
        (calculate_path_capacity rc (get_path_edges q)) = true
    · exfalso
      rw [if_pos hb] at h
      have hsome := selectMax_fold_isSome rc rest
        (calculate_path_capacity rc (get_path_edges q), some q) rfl
      rw [h] at hsome
      cases hsome
    · rw [if_neg hb] at h
      rcases List.mem_cons.mp hp with h1 | h1
      · subst h1
        exact Bool.eq_false_iff.mpr hb
      · exact ih h p h1

theorem selectMinPath_none (rc : Dict) :
    ∀ (paths : List (List Node)), selectMinPath rc paths = none →
      ∀ p ∈ paths, EV.blt
        (calculate_path_capacity rc (get_path_edges p)) EV.inf = false := by
  intro paths
  induction paths with
  | nil => intro _ p hp; cases hp
  | cons q rest ih =>
    intro h p hp
    unfold selectMinPath at h
    rw [List.foldl_cons] at h
    dsimp only at h
    by_cases hb : EV.blt (calculate_path_capacity rc (get_path_edges q))
        EV.inf = true
    · exfalso
      rw [if_pos hb] at h
      have hsome := selectMin_fold_isSome rc rest
        (calculate_path_capacity rc (get_path_edges q), some q) rfl
      rw [h] at hsome
      cases hsome
    · rw [if_neg hb] at h
      rcases List.mem_cons.mp hp with h1 | h1
      · subst h1
        exact Bool.eq_false_iff.mpr hb
      · exact ih h p h1

theorem pospath_pc_posval (es : List Edge) (rc : Dict) (s t : Node)
    (p : List Node) (hp : SimplePosPath es rc s t p) :
    PosVal (calculate_path_capacity rc (get_path_edges p)) := by
  obtain ⟨⟨hne, hhd, hlast, hpos⟩, hnd⟩ := hp
  have hall : ∀ e ∈ get_path_edges p, ∃ x, alookup rc e = some x ∧
      PosVal x := fun e he => posCap_posval rc e (hpos e he).2
  exact (pc_fold_min rc (get_path_edges p) EV.inf hall (Or.inl rfl)).1

theorem max_none_complete (sfuel : Nat) (es : List Edge) (rc : Dict)
    (s t : Node)
    (h : find_augmenting_path_max sfuel es rc s t = some none) :
    ¬ ∃ p, SimplePosPath es rc s t p := by
  unfold find_augmenting_path_max at h
  cases he : enumLoop es rc t sfuel [] [[s]] with
  | none => rw [he] at h; cases h
  | some allPaths =>
    rw [he] at h
    injection h with h
    rintro ⟨p, hp⟩
    have hmem : p ∈ allPaths := by
      refine enumLoop_complete es rc s t sfuel [] [[s]] allPaths ?_ he p
        hp ?_
      · intro q hq
        simp only [List.mem_singleton] at hq
        subst hq
        simp
      · right
        refine ⟨[s], List.mem_singleton.mpr rfl, ?_⟩
        obtain ⟨⟨hne, hhd, _, _⟩, _⟩ := hp
        cases p with
        | nil => cases hne rfl
        | cons a p' =>
          injection hhd with hhd
          subst hhd
          exact ⟨p', rfl⟩
    have hfalse := selectMaxPath_none rc allPaths h p hmem
    rcases pospath_pc_posval es rc s t p hp with h1 | ⟨m, hm, hmp⟩
    · rw [h1] at hfalse
      cases hfalse
    · rw [hm] at hfalse
      simp only [EV.blt, decide_eq_false_iff_not] at hfalse
      omega

theorem min_none_inf (sfuel : Nat) (es : List Edge) (rc : Dict)
    (s t : Node)
    (h : find_augmenting_path_min sfuel es rc s t = some none) :
    ∀ p, SimplePosPath es rc s t p →
      calculate_path_capacity rc (get_path_edges p) = EV.inf := by
  unfold find_augmenting_path_min at h
  cases he : enumLoop es rc t sfuel [] [[s]] with
  | none => rw [he] at h; cases h
  | some allPaths =>
    rw [he] at h
    injection h with h
    intro p hp
    have hmem : p ∈ allPaths := by
      refine enumLoop_complete es rc s t sfuel [] [[s]] allPaths ?_ he p
        hp ?_
      · intro q hq
        simp only [List.mem_singleton] at hq
        subst hq
        simp
      · right
        refine ⟨[s], List.mem_singleton.mpr rfl, ?_⟩
        obtain ⟨⟨hne, hhd, _, _⟩, _⟩ := hp
        cases p with
        | nil => cases hne rfl
        | cons a p' =>
          injection hhd with hhd
          subst hhd
          exact ⟨p', rfl⟩
    have hfalse := selectMinPath_none rc allPaths h p hmem
    rcases pospath_pc_posval es rc s t p hp with h1 | ⟨m, hm, hmp⟩
    · exact h1
    · exfalso
      rw [hm] at hfalse
      simp [EV.blt] at hfalse

/-- C3, corrected, amended claim: every path any of the four strategies
returns is a nonempty duplicate-free source-to-sink sequence whose
consecutive pairs are listed residual edges of strictly positive residual
capacity; when `bfs`, `dfs` or `max` report "no path", no such simple
path exists; but `min` reports "no path" exactly when every simple
positive path has an infinite bottleneck, so it can report "no path"
although augmenting paths exist (see the counterexample). -/
theorem C3_search_strategies (sfuel : Nat) (es : List Edge) (rc : Dict)
    (s t : Node) :
    (∀ search, (search = find_augmenting_path_bfs sfuel ∨
        search = find_augmenting_path_dfs sfuel ∨
        search = find_augmenting_path_max sfuel ∨
        search = find_augmenting_path_min sfuel) →
      ∀ p, search es rc s t = some (some p) →
        SimplePosPath es rc s t p) ∧
    (find_augmenting_path_bfs sfuel es rc s t = some none →
      ¬ ∃ p, SimplePosPath es rc s t p) ∧
    (find_augmenting_path_dfs sfuel es rc s t = some none →
      ¬ ∃ p, SimplePosPath es rc s t p) ∧
    (find_augmenting_path_max sfuel es rc s t = some none →
      ¬ ∃ p, SimplePosPath es rc s t p) ∧
    (find_augmenting_path_min sfuel es rc s t = some none →
      ∀ p, SimplePosPath es rc s t p →
        calculate_path_capacity rc (get_path_edges p) = EV.inf) := by
  refine ⟨?_, ?_, ?_, ?_, ?_⟩
  · intro search hsearch p hp
    have hvalid : ValidSearch search := by
      rcases hsearch with rfl | rfl | rfl | rfl
      · exact bfs_valid sfuel
      · exact dfs_valid sfuel
      · exact max_valid sfuel
      · exact min_valid sfuel
    obtain ⟨hne, hhd, hlast, hnd, hpos⟩ := hvalid _ _ _ _ _ hp
    exact ⟨⟨hne, hhd, hlast, hpos⟩, hnd⟩
  · intro h
    rintro ⟨p, hp⟩
    exact bfs_none_complete sfuel es rc s t h ⟨p, hp.1⟩
  · intro h
    rintro ⟨p, hp⟩
    exact dfs_none_complete sfuel es rc s t h ⟨p, hp.1⟩
  · exact max_none_complete sfuel es rc s t
  · exact min_none_inf sfuel es rc s t

/-- C3 counterexample: on the single-edge residual graph `s → t` of
infinite residual capacity, `find_augmenting_path_min` returns `None`
although the strictly positive augmenting path `[s, t]` exists, and
`find_augmenting_path_bfs` finds it. -/
theorem C3_cx :
    find_augmenting_path_min 100 [(("s" : Node), ("t" : Node))]
      [((("s" : Node), ("t" : Node)), EV.inf)] ("s") ("t") =
        some none ∧
    find_augmenting_path_bfs 100 [(("s" : Node), ("t" : Node))]
      [((("s" : Node), ("t" : Node)), EV.inf)] ("s") ("t") =
        some (some [("s" : Node), ("t" : Node)]) := by
  exact ⟨by decide, by decide⟩

/-- C3 witness: the amended statement applied twice; the path the BFS
strategy returns on the one-edge graph of capacity `2` is a simple
positive `s`-`t` path, and on the one-edge graph of residual capacity `0`
the BFS "no path" answer is correct: no simple positive path exists. -/
theorem C3_witness :
    SimplePosPath [(("s" : Node), ("t" : Node))]
      [((("s" : Node), ("t" : Node)), EV.fin 2)] ("s") ("t")
      [("s" : Node), ("t" : Node)] ∧
    ¬ ∃ p, SimplePosPath [(("a" : Node), ("b" : Node))]
      [((("a" : Node), ("b" : Node)), EV.fin 0)] ("a") ("b") p := by
  constructor
  · exact (C3_search_strategies 100 [(("s" : Node), ("t" : Node))]
      [((("s" : Node), ("t" : Node)), EV.fin 2)] ("s") ("t")).1
      (find_augmenting_path_bfs 100) (Or.inl rfl)
      [("s" : Node), ("t" : Node)] (by decide)
  · exact (C3_search_strategies 100 [(("a" : Node), ("b" : Node))]
      [((("a" : Node), ("b" : Node)), EV.fin 0)] ("a") ("b")).2.1
      (by decide)

/-! ## Breadth-first minimality -/

theorem pospath_length_one (es : List Edge) (rc : Dict) (s v : Node)
    (w : List Node) (hw : PosPath es rc s v w) (h1 : w.length = 1) :
    v = s := by
  obtain ⟨hne, hhd, hlast, _⟩ := hw
  cases w with
  | nil => cases hne rfl
  | cons a w' =>
    cases w' with
    | nil =>
      injection hhd with hhd
      rw [List.getLast?_singleton] at hlast
      injection hlast with hlast
      rw [← hlast]
      exact hhd
    | cons b w'' => simp at h1

theorem head?_append_left {α : Type} (l : List α) (x : α) (h : l ≠ []) :
    (l ++ [x]).head? = l.head? := by
  cases l with
  | nil => cases h rfl
  | cons a l' => rfl

theorem getLast?_append_one (l : List Node) (x : Node) :
    (l ++ [x]).getLast? = some x := by
  rw [getLast?_eq_getLastD _ (by simp), getLastD_append_one]

theorem pospath_decomp (es : List Edge) (rc : Dict) (s v : Node)
    (w : List Node) (hw : PosPath es rc s v w) (h2 : 2 ≤ w.length) :
    ∃ w' u, PosPath es rc s u w' ∧ (u, v) ∈ es ∧
      posCap rc (u, v) = true ∧ w.length = w'.length + 1 := by
  obtain ⟨hne, hhd, hlast, hpos⟩ := hw
  obtain ⟨w'', x, hwx⟩ : ∃ w'' x, w = w'' ++ [x] :=
    ⟨w.dropLast, w.getLast hne, (List.dropLast_append_getLast hne).symm⟩
  subst hwx
  rw [getLast?_append_one] at hlast
  injection hlast with hlast
  subst hlast
  have hw''ne : w'' ≠ [] := by
    intro hh
    subst hh
    simp at h2
  have hh1 : w''.head? = some s := by
    rw [head?_append_left w'' x hw''ne] at hhd
    exact hhd
  have hedge : (w''.getLastD (""), x) ∈ get_path_edges (w'' ++ [x]) := by
    rw [get_path_edges_append_one w'' hw''ne x]
    exact List.mem_append_right _ (List.mem_singleton.mpr rfl)
  obtain ⟨he1, he2⟩ := hpos _ hedge
  refine ⟨w'', w''.getLastD (""),
    ⟨hw''ne, hh1, getLast?_eq_getLastD _ hw''ne, ?_⟩, he1, he2, by simp⟩
  intro e he
  refine hpos e ?_
  rw [get_path_edges_append_one w'' hw''ne x]
  exact List.mem_append_left _ he

theorem bfs_inv1_step (es : List Edge) (rc : Dict) (closed : List Node)
    (q : List Node) (rest : List (List Node))
    (hcomp : ∀ v ∈ closed, (∃ q' ∈ q :: rest, q'.getLastD ("") = v) ∨
      ∀ u, (v, u) ∈ es → posCap rc (v, u) = true → u ∈ closed) :
    ∀ v ∈ closed ++ bfsCands es rc closed (q.getLastD ("")),
      (∃ q' ∈ rest ++ (bfsCands es rc closed (q.getLastD (""))).map
          (fun u => q ++ [u]), q'.getLastD ("") = v) ∨
      ∀ u, (v, u) ∈ es → posCap rc (v, u) = true →
        u ∈ closed ++ bfsCands es rc closed (q.getLastD ("")) := by
  intro v hv
  rcases List.mem_append.mp hv with hv1 | hv1
  · rcases hcomp v hv1 with ⟨q', hq', hq'v⟩ | h2
    · rcases List.mem_cons.mp hq' with heq | hq'r
      · right
        rw [heq] at hq'v
        intro u hu hupos
        by_cases huc : u ∈ closed
        · exact List.mem_append_left _ huc
        · refine List.mem_append_right _ ?_
          simp only [bfsCands, List.mem_map, List.mem_filter,
            Bool.and_eq_true, decide_eq_true_eq, Bool.not_eq_true',
            decide_eq_false_iff_not]
          exact ⟨(q.getLastD (""), u),
            ⟨by rw [hq'v]; exact hu, ⟨rfl, by rw [hq'v]; exact hupos⟩,
              huc⟩, rfl⟩
      · exact Or.inl ⟨q', List.mem_append_left _ hq'r, hq'v⟩
    · right
      intro u hu hup
      exact List.mem_append_left _ (h2 u hu hup)
  · left
    refine ⟨q ++ [v], List.mem_append_right _ ?_, getLastD_append_one q v ("")⟩
    simp only [List.mem_map]
    exact ⟨v, hv1, rfl⟩

theorem bfsLoop_minimal (es : List Edge) (rc : Dict) (s t : Node) :
    ∀ (fuel : Nat) (closed : List Node) (queue : List (List Node))
      (p : List Node),
      s ∈ closed →
      (∀ v ∈ closed, (∃ q ∈ queue, q.getLastD ("") = v) ∨
        ∀ u, (v, u) ∈ es → posCap rc (v, u) = true → u ∈ closed) →
      (∀ q ∈ queue, ∀ w, PosPath es rc s (q.getLastD ("")) w →
        q.length ≤ w.length) →
      (queue = [] ∨ ∃ (L : Nat) (lowQ highQ : List (List Node)),
        queue = lowQ ++ highQ ∧ lowQ ≠ [] ∧ 1 ≤ L ∧
        (∀ q ∈ lowQ, q.length = L) ∧
        (∀ q ∈ highQ, q.length = L + 1) ∧
        (∀ v, v ∉ closed → ∀ w, PosPath es rc s v w →
          L + 1 ≤ w.length)) →
      bfsLoop es rc t fuel closed queue = some (some p) →
      ∀ w, PosPath es rc s t w → p.length ≤ w.length := by
  intro fuel
  induction fuel with
  | zero => intro closed queue p _ _ _ _ h; cases h
  | succ fuel ih =>
    intro closed queue p hs hcomp hM3 hlev h
    cases queue with
    | nil => cases h
    | cons q rest =>
      simp only [bfsLoop] at h
      by_cases hcur : q.getLastD ("") = t
      · rw [if_pos hcur] at h
        injection h with h
        injection h with h
        subst h
        intro w hw
        rw [← hcur] at hw
        exact hM3 q (List.mem_cons_self _ _) w hw
      · rw [if_neg hcur] at h
        rcases hlev with hnil | ⟨L, lowQ, highQ, hqeq, hlne, hL1, hlowL,
          hhighL, hM2⟩
        · cases hnil
        · obtain ⟨low', hloweq, hresteq⟩ : ∃ low', lowQ = q :: low' ∧
              rest = low' ++ highQ := by
            cases lowQ with
            | nil => cases hlne rfl
            | cons a low' =>
              rw [List.cons_append] at hqeq
              injection hqeq with h1 h2
              exact ⟨low', by rw [h1], h2⟩
          subst hloweq
          subst hresteq
          have hqL : q.length = L := hlowL q (List.mem_cons_self _ _)
          refine ih _ _ p (List.mem_append_left _ hs)
            (bfs_inv1_step es rc closed q (low' ++ highQ) hcomp)
            ?_ ?_ h
          · intro q' hq' w hw
            rcases List.mem_append.mp hq' with h1 | h1
            · exact hM3 q' (List.mem_cons_of_mem _ h1) w hw
            · simp only [List.mem_map] at h1
              obtain ⟨v, hv, rfl⟩ := h1
              rw [getLastD_append_one] at hw
              obtain ⟨_, _, hvc⟩ := bfsCands_mem es rc closed _ v hv
              have hge := hM2 v hvc w hw
              have hlen : (q ++ [v]).length = L + 1 := by simp [hqL]
              omega
          · cases hlow' : low' with
            | cons a low'' =>
              right
              refine ⟨L, a :: low'',
                highQ ++ (bfsCands es rc closed (q.getLastD (""))).map
                  (fun v => q ++ [v]), List.append_assoc _ _ _, by simp,
                hL1, ?_, ?_, ?_⟩
              · intro q' hq'
                exact hlowL q' (List.mem_cons_of_mem _ (hlow' ▸ hq'))
              · intro q' hq'
                rcases List.mem_append.mp hq' with h1 | h1
                · exact hhighL q' h1
                · simp only [List.mem_map] at h1
                  obtain ⟨v, _, rfl⟩ := h1
                  simp [hqL]
              · intro v hvnc w hw
                exact hM2 v (fun hh => hvnc (List.mem_append_left _ hh))
                  w hw
            | nil =>
              subst hlow'
              by_cases hqe : highQ ++
                  (bfsCands es rc closed (q.getLastD (""))).map
                    (fun v => q ++ [v]) = []
              · left
                simpa using hqe
              · right
                refine ⟨L + 1, highQ ++
                  (bfsCands es rc closed (q.getLastD (""))).map
                    (fun v => q ++ [v]), [], by simp, hqe, by omega,
                  ?_, by simp, ?_⟩
                · intro q' hq'
                  rcases List.mem_append.mp hq' with h1 | h1
                  · exact hhighL q' h1
                  · simp only [List.mem_map] at h1
                    obtain ⟨v, _, rfl⟩ := h1
                    simp [hqL]
                · intro v hvnc w hw
                  by_contra hlt
                  push_neg at hlt
                  have hvnc0 : v ∉ closed := fun hh =>
                    hvnc (List.mem_append_left _ hh)
                  have hge := hM2 v hvnc0 w hw
                  have hweq : w.length = L + 1 := by omega
                  have h2w : 2 ≤ w.length := by omega
                  obtain ⟨w', u, hw', huv, hupos, hlen⟩ :=
                    pospath_decomp es rc s v w hw h2w
                  have hw'len : w'.length = L := by omega
                  have huc : u ∈ closed := by
                    by_contra huc
                    have := hM2 u huc w' hw'
                    omega
                  rcases hcomp u huc with ⟨q'', hq'', hq''u⟩ | hclosedu
                  · rcases List.mem_cons.mp hq'' with heq | hq''r
                    · rw [heq] at hq''u
                      refine hvnc (List.mem_append_right _ ?_)
                      simp only [bfsCands, List.mem_map, List.mem_filter,
                        Bool.and_eq_true, decide_eq_true_eq,
                        Bool.not_eq_true', decide_eq_false_iff_not]
                      exact ⟨(q.getLastD (""), v),
                        ⟨by rw [hq''u]; exact huv,
                          ⟨rfl, by rw [hq''u]; exact hupos⟩, hvnc0⟩, rfl⟩
                    · have hq''L : q''.length = L + 1 :=
                        hhighL q'' (by simpa using hq''r)
                      have hm3 := hM3 q'' (List.mem_cons_of_mem _ hq''r)
                        w' (by rw [hq''u]; exact hw')
                      omega
                  · exact hvnc0 (hclosedu v huv hupos)

theorem get_path_edges_length :
    ∀ (l : List Node), (get_path_edges l).length = l.length - 1 := by
  intro l
  induction l with
  | nil => rfl
  | cons a q ih =>
    cases q with
    | nil => rfl
    | cons b q' =>
      show ((a, b) :: get_path_edges (b :: q')).length = _
      simp only [List.length_cons, ih]
      omega

/-- C5, confirmed: any path returned by the breadth-first strategy has
the fewest nodes, hence the fewest edges, among all source-to-sink
sequences whose consecutive pairs are listed residual edges of strictly
positive residual capacity. -/
theorem C5_bfs_fewest_edges (sfuel : Nat) (es : List Edge) (rc : Dict)
    (s t : Node) (p : List Node)
    (h : find_augmenting_path_bfs sfuel es rc s t = some (some p)) :
    ∀ w, PosPath es rc s t w → p.length ≤ w.length ∧
      (get_path_edges p).length ≤ (get_path_edges w).length := by
  have hmain := bfsLoop_minimal es rc s t sfuel [s] [[s]] p
    (List.mem_singleton.mpr rfl)
    (fun v hv => Or.inl ⟨[s], List.mem_singleton.mpr rfl, by
      simp only [List.mem_singleton] at hv
      subst hv
      rfl⟩)
    (fun q hq w hw => by
      simp only [List.mem_singleton] at hq
      subst hq
      exact List.length_pos.mpr hw.1)
    (Or.inr ⟨1, [[s]], [], rfl, by simp, le_refl 1,
      fun q hq => by
        simp only [List.mem_singleton] at hq
        subst hq
        rfl,
      fun q hq => absurd hq (List.not_mem_nil q),
      fun v hv w hw => by
        have h1 : 1 ≤ w.length := List.length_pos.mpr hw.1
        by_contra hlt
        push_neg at hlt
        have hw1 : w.length = 1 := by omega
        exact hv (List.mem_singleton.mpr
          (pospath_length_one es rc s v w hw hw1))⟩)
    h
  intro w hw
  refine ⟨hmain w hw, ?_⟩
  rw [get_path_edges_length, get_path_edges_length]
  have := hmain w hw
  omega

/-- C5 witness: on the graph with the direct edge `(s, t)` and the detour
`s → m → t`, all of capacity `1`, BFS returns the two-node path `[s, t]`,
which has no more nodes and no more edges than the three-node positive
path `[s, m, t]`. -/
theorem C5_witness :
    PosPath [(("s" : Node), ("t" : Node)), (("s" : Node), ("m" : Node)),
        (("m" : Node), ("t" : Node))]
      [((("s" : Node), ("t" : Node)), EV.fin 1),
        ((("s" : Node), ("m" : Node)), EV.fin 1),
        ((("m" : Node), ("t" : Node)), EV.fin 1)] ("s") ("t")
      [("s" : Node), ("m" : Node), ("t" : Node)] ∧
    ([("s" : Node), ("t" : Node)]).length ≤
      ([("s" : Node), ("m" : Node), ("t" : Node)]).length ∧
    (get_path_edges [("s" : Node), ("t" : Node)]).length ≤
      (get_path_edges [("s" : Node), ("m" : Node), ("t" : Node)]).length := by
  refine ⟨by unfold PosPath; decide, ?_⟩
  exact C5_bfs_fewest_edges 100
    [(("s" : Node), ("t" : Node)), (("s" : Node), ("m" : Node)),
      (("m" : Node), ("t" : Node))]
    [((("s" : Node), ("t" : Node)), EV.fin 1),
      ((("s" : Node), ("m" : Node)), EV.fin 1),
      ((("m" : Node), ("t" : Node)), EV.fin 1)] ("s") ("t")
    [("s" : Node), ("t" : Node)] (by decide)
    [("s" : Node), ("m" : Node), ("t" : Node)] (by unfold PosPath; decide)

end GraphAlg
